import Mathlib

/-!
# Verification of `poker_rs`

A shallow embedding of the `poker_rs` library (hand ranking engine in
`src/poker/rank.rs`, card primitives in `src/poker/card.rs`, error type in
`src/error.rs`, and the range-combinatorics calculator in
`src/holdem/evaluator/range.rs`), together with theorems settling the
specification claims.

Machine integers (`u8`, `u16`, `i8`) are modelled as `Nat`/`Int`; all values
produced by the code stay far inside those ranges (13-bit rank masks, 16-bit
payloads, rank integers `2..14`), and where Rust wrapping could matter
(`u16` shifts) an explicit `% 2 ^ 16` is used.  Rust `panic!`/`unwrap` is
modelled by `Option`/`Except` error values.  The `f32` division at the end
of `calculate_range_percent` is modelled as exact rational division.
-/

/-- Embeds `Suit` from `src/poker/card.rs` (`Club`, `Diamond`, `Heart`,
`Spade`, in declaration order, so the `as u8` discriminants are 0..3). -/
inductive Suit where
  | Club
  | Diamond
  | Heart
  | Spade
deriving DecidableEq, Repr, Fintype

/-- The `as u8` discriminant of a `Suit` (declaration order). -/
def Suit.toNat : Suit → Nat
  | .Club => 0
  | .Diamond => 1
  | .Heart => 2
  | .Spade => 3

/-- Embeds `Suit::from_char` (`src/poker/card.rs`): case-insensitive match on
`S`/`H`/`D`/`C` (`to_ascii_uppercase` is `Char.toUpper` on ASCII input). -/
def Suit.from_char (c : Char) : Option Suit :=
  match c.toUpper with
  | 'S' => some .Spade
  | 'H' => some .Heart
  | 'D' => some .Diamond
  | 'C' => some .Club
  | _ => none

/-- Embeds `Rank` from `src/poker/card.rs` (the card rank, `Two`..`Ace` in
declaration order, so the `as u8` discriminants are 0..12).  Named
`CardRank` to distinguish it from the hand rank `Rank` of
`src/poker/rank.rs`. -/
inductive CardRank where
  | Two
  | Three
  | Four
  | Five
  | Six
  | Seven
  | Eight
  | Nine
  | Ten
  | Jack
  | Queen
  | King
  | Ace
deriving DecidableEq, Repr, Fintype

/-- The `as u8` discriminant of a card rank (declaration order). -/
def CardRank.toNat : CardRank → Nat
  | .Two => 0
  | .Three => 1
  | .Four => 2
  | .Five => 3
  | .Six => 4
  | .Seven => 5
  | .Eight => 6
  | .Nine => 7
  | .Ten => 8
  | .Jack => 9
  | .Queen => 10
  | .King => 11
  | .Ace => 12

/-- Embeds `Rank::from_char` (`src/poker/card.rs`). -/
def CardRank.from_char (c : Char) : Option CardRank :=
  match c.toUpper with
  | 'A' => some .Ace
  | '2' => some .Two
  | '3' => some .Three
  | '4' => some .Four
  | '5' => some .Five
  | '6' => some .Six
  | '7' => some .Seven
  | '8' => some .Eight
  | '9' => some .Nine
  | 'T' => some .Ten
  | 'J' => some .Jack
  | 'Q' => some .Queen
  | 'K' => some .King
  | _ => none

/-- Embeds `Rank::as_char` (`src/poker/card.rs`). -/
def CardRank.as_char : CardRank → Char
  | .Ace => 'A'
  | .Two => '2'
  | .Three => '3'
  | .Four => '4'
  | .Five => '5'
  | .Six => '6'
  | .Seven => '7'
  | .Eight => '8'
  | .Nine => '9'
  | .Ten => 'T'
  | .Jack => 'J'
  | .Queen => 'Q'
  | .King => 'K'

/-- Embeds `Rank::from_int` (`src/poker/card.rs`): `2..=14` succeed
(`14 = Ace`), everything else is `None`. -/
def CardRank.from_int (i : Int) : Option CardRank :=
  match i with
  | 14 => some .Ace
  | 2 => some .Two
  | 3 => some .Three
  | 4 => some .Four
  | 5 => some .Five
  | 6 => some .Six
  | 7 => some .Seven
  | 8 => some .Eight
  | 9 => some .Nine
  | 10 => some .Ten
  | 11 => some .Jack
  | 12 => some .Queen
  | 13 => some .King
  | _ => none

/-- Embeds `Rank::as_int` (`src/poker/card.rs`): `Two = 2` .. `Ace = 14`. -/
def CardRank.as_int : CardRank → Int
  | .Two => 2
  | .Three => 3
  | .Four => 4
  | .Five => 5
  | .Six => 6
  | .Seven => 7
  | .Eight => 8
  | .Nine => 9
  | .Ten => 10
  | .Jack => 11
  | .Queen => 12
  | .King => 13
  | .Ace => 14

/-- Embeds `Rank::gap` (`src/poker/card.rs`): absolute rank distance. -/
def CardRank.gap (a b : CardRank) : Int := (a.as_int - b.as_int).natAbs

/-- Embeds `Rank::gap_with_ace` (`src/poker/card.rs`). -/
def CardRank.gap_with_ace (a : CardRank) : Int := CardRank.Ace.as_int - a.as_int

/-- Embeds `Card` from `src/poker/card.rs`: a (suit, rank) pair. -/
structure Card where
  suit : Suit
  rank : CardRank
deriving DecidableEq, Repr

/-- Embeds `Error` from `src/error.rs` (all live variants, in order). -/
inductive Error where
  | UnexpectedRankChar
  | UnexpectedSuitChar
  | UnexpectedCardChar
  | InvalidHandSize
  | HoldemHandSize
  | OffSuitWithMatchingSuit
  | SuitedWithNoMatchingSuit
  | InvalidPlusModifier
  | InvalidGap
  | InvalidSuitedPairs
deriving DecidableEq, Repr

/-- Embeds `Card::try_from_str` (`src/poker/card.rs`): reads a suit character
then a rank character; every failure (missing character, unrecognized suit,
unrecognized rank) maps to `Error::UnexpectedCardChar`. -/
def Card.try_from_str (s : String) : Except Error Card :=
  match s.data with
  | suit_char :: rank_char :: _ =>
    match Suit.from_char suit_char with
    | none => .error .UnexpectedCardChar
    | some su =>
      match CardRank.from_char rank_char with
      | none => .error .UnexpectedCardChar
      | some rk => .ok ⟨su, rk⟩
  | _ => .error .UnexpectedCardChar

/-- Embeds `Rank` from `src/poker/rank.rs` (the hand category, spec name
`HandCategory`): nine variants in ascending strength order, each carrying a
`u16` tie-break payload. -/
inductive Rank where
  | HighCard (v : Nat)
  | OnePair (v : Nat)
  | TwoPair (v : Nat)
  | ThreeOfAKind (v : Nat)
  | Straight (v : Nat)
  | Flush (v : Nat)
  | FullHouse (v : Nat)
  | FourOfAKind (v : Nat)
  | StraightFlush (v : Nat)
deriving DecidableEq, Repr

/-- The variant index of a hand rank (its position in the declaration,
which is what Rust's `derive(PartialOrd, Ord)` compares first). -/
def Rank.tagNat : Rank → Nat
  | .HighCard _ => 0
  | .OnePair _ => 1
  | .TwoPair _ => 2
  | .ThreeOfAKind _ => 3
  | .Straight _ => 4
  | .Flush _ => 5
  | .FullHouse _ => 6
  | .FourOfAKind _ => 7
  | .StraightFlush _ => 8

/-- The `u16` tie-break payload carried by a hand rank. -/
def Rank.payload : Rank → Nat
  | .HighCard v => v
  | .OnePair v => v
  | .TwoPair v => v
  | .ThreeOfAKind v => v
  | .Straight v => v
  | .Flush v => v
  | .FullHouse v => v
  | .FourOfAKind v => v
  | .StraightFlush v => v

/-- Embeds the `derive(PartialOrd, Ord)` comparison on `Rank`
(`src/poker/rank.rs`): variant order first, payload second. -/
def Rank.cmp (a b : Rank) : Ordering :=
  match compare a.tagNat b.tagNat with
  | .eq => compare a.payload b.payload
  | o => o

/-- Boolean `≤` on hand ranks, from the derived comparison. -/
def Rank.ble (a b : Rank) : Bool :=
  match a.cmp b with
  | .gt => false
  | _ => true

/-- Boolean `<` on hand ranks, from the derived comparison. -/
def Rank.blt (a b : Rank) : Bool :=
  match a.cmp b with
  | .lt => true
  | _ => false

/-- Embeds `USIZE_BIT` (`src/poker/rank.rs`): the bit width used by the
`u16` poker values. -/
def USIZE_BIT : Nat := 16

/-- Embeds `WHEEL` (`src/poker/rank.rs`): bit mask of A-2-3-4-5. -/
def WHEEL : Nat := 0b1000000001111

/-- Bit length of `m` (position of the highest set bit plus one), computed
with explicit fuel so that it evaluates by kernel reduction; for `m < 2 ^
fuel` it is the exact bit length. -/
def bitlen_go : Nat → Nat → Nat
  | 0, _ => 0
  | fuel + 1, m => if m = 0 then 0 else bitlen_go fuel (m / 2) + 1

/-- `u16::leading_zeros` for values below `2 ^ 16`. -/
def leading_zeros (m : Nat) : Nat := USIZE_BIT - bitlen_go 16 m

/-- `u16::count_ones` for values below `2 ^ 16`: the number of set bits. -/
def count_ones (m : Nat) : Nat := ((List.range 16).filter (fun i => m.testBit i)).length

/-- Embeds `rank_straight` (`src/poker/rank.rs`): AND the 13-bit rank mask
with its left-shifts by 1..4 (`u16` shifts, hence the `% 2 ^ 16`); a
surviving bit at position `p` witnesses the 5-run `p-4 .. p`, and the
leading-zero count of the highest one yields the straight rank
`USIZE_BIT - 4 - idx`; otherwise the wheel mask is special-cased to rank
0. -/
def rank_straight (value_set : Nat) : Option Nat :=
  let left := value_set &&& ((value_set <<< 1) % 2 ^ 16) &&& ((value_set <<< 2) % 2 ^ 16)
    &&& ((value_set <<< 3) % 2 ^ 16) &&& ((value_set <<< 4) % 2 ^ 16)
  let idx := leading_zeros left
  if idx < USIZE_BIT then some (USIZE_BIT - 4 - idx)
  else if value_set &&& WHEEL = WHEEL then some 0
  else none

/-- Embeds `keep_highest` (`src/poker/rank.rs`): keep only the highest set
bit. -/
def keep_highest (rank : Nat) : Nat := 1 <<< (USIZE_BIT - leading_zeros rank - 1)

/-- The loop body of `keep_n` (`src/poker/rank.rs`): clear the lowest set
bit (`result &= result - 1`) while more than `to_keep` bits remain.  The
fuel (16 in `keep_n`) bounds the loop; a `u16` has at most 16 set bits, so
the fuel is never exhausted on the values the code produces. -/
def keep_n_go : Nat → Nat → Nat → Nat
  | 0, result, _ => result
  | fuel + 1, result, to_keep =>
    if to_keep < count_ones result then keep_n_go fuel (result &&& (result - 1)) to_keep
    else result

/-- Embeds `keep_n` (`src/poker/rank.rs`). -/
def keep_n (rank to_keep : Nat) : Nat := keep_n_go 16 rank to_keep

/-- Embeds `find_flush` (`src/poker/rank.rs`): index of the first per-suit
mask with at least five set bits. -/
def find_flush (suit_value_sets : List Nat) : Option Nat :=
  suit_value_sets.findIdx? (fun sv => 5 ≤ count_ones sv)

/-- The `value_set` accumulator of `compute_counts` (`src/poker/rank.rs`):
13-bit mask of the ranks present in the hand. -/
def value_set (cs : List Card) : Nat :=
  cs.foldl (fun acc c => acc ||| (1 <<< c.rank.toNat)) 0

/-- One entry of the `suit_value_sets` accumulator of `compute_counts`:
13-bit mask of the ranks held by suit `s`. -/
def suit_value_set (cs : List Card) (s : Suit) : Nat :=
  cs.foldl (fun acc c => if c.suit = s then acc ||| (1 <<< c.rank.toNat) else acc) 0

/-- The `suit_value_sets` array of `compute_counts`, indexed by the suit
discriminant (Club, Diamond, Heart, Spade). -/
def suit_value_sets (cs : List Card) : List Nat :=
  [Suit.Club, Suit.Diamond, Suit.Heart, Suit.Spade].map (suit_value_set cs)

/-- The `value_to_count` accumulator of `compute_counts`: how many cards of
the hand have rank value `v`. -/
def value_count (cs : List Card) (v : Nat) : Nat :=
  (cs.filter (fun c => c.rank.toNat = v)).length

/-- The `count_to_value` array of `compute_counts`: bit `v` is set iff rank
value `v` occurs exactly `k` times.  (In the source `k` is an array index
`0..=4`; a hand of distinct cards never produces a count above 4.) -/
def count_to_value (cs : List Card) (k : Nat) : Nat :=
  (List.range 13).foldl (fun acc v => if value_count cs v = k then acc ||| (1 <<< v) else acc) 0

/-- Embeds `HandRanker::rank` (`src/poker/rank.rs`): category precedence
flush/straight-flush, four of a kind, full house (two forms), straight,
three of a kind, two pair, high card, one pair. -/
def rank (cs : List Card) : Rank :=
  let vs := value_set cs
  let svs := suit_value_sets cs
  match find_flush svs with
  | some flush_idx =>
    match rank_straight (svs.getD flush_idx 0) with
    | some r => .StraightFlush r
    | none => .Flush (keep_n (svs.getD flush_idx 0) 5)
  | none =>
    if count_to_value cs 4 ≠ 0 then
      let high := keep_highest (vs ^^^ count_to_value cs 4)
      .FourOfAKind ((count_to_value cs 4 <<< 13) ||| high)
    else if count_to_value cs 3 ≠ 0 ∧ count_ones (count_to_value cs 3) = 2 then
      let set := keep_highest (count_to_value cs 3)
      let pair := count_to_value cs 3 ^^^ set
      .FullHouse ((set <<< 13) ||| pair)
    else if count_to_value cs 3 ≠ 0 ∧ count_to_value cs 2 ≠ 0 then
      let set := count_to_value cs 3
      let pair := keep_highest (count_to_value cs 2)
      .FullHouse ((set <<< 13) ||| pair)
    else
      match rank_straight vs with
      | some s_rank => .Straight s_rank
      | none =>
        if count_to_value cs 3 ≠ 0 then
          let low := keep_n (vs ^^^ count_to_value cs 3) 2
          .ThreeOfAKind ((count_to_value cs 3 <<< 13) ||| low)
        else if 2 ≤ count_ones (count_to_value cs 2) then
          let pairs := keep_n (count_to_value cs 2) 2
          let low := keep_highest (vs ^^^ pairs)
          .TwoPair ((pairs <<< 13) ||| low)
        else if count_to_value cs 2 = 0 then
          .HighCard (keep_n vs 5)
        else
          let pair := count_to_value cs 2
          let low := keep_n (vs ^^^ count_to_value cs 2) 3
          .OnePair ((pair <<< 13) ||| low)

/-- Embeds `HandRanker::rank_five` (`src/poker/rank.rs`): dispatch on the
number of distinct ranks among exactly 5 cards.  The source's
`unreachable!` arm (distinct-rank counts outside 2..=5, impossible for 5
distinct cards) is mapped to the arbitrary value `HighCard 0`. -/
def rank_five (cs : List Card) : Rank :=
  let vs := value_set cs
  let unique_card_count := count_ones vs
  match unique_card_count with
  | 5 =>
    let is_flush := (suit_value_sets cs).any (fun sv => count_ones sv = 5)
    match rank_straight vs, is_flush with
    | none, false => .HighCard vs
    | some r, false => .Straight r
    | none, true => .Flush vs
    | some r, true => .StraightFlush r
  | 4 =>
    let major_rank := count_to_value cs 2
    let minor_rank := vs ^^^ major_rank
    .OnePair ((major_rank <<< 13) ||| minor_rank)
  | 3 =>
    if count_to_value cs 3 ≠ 0 then
      let major_rank := count_to_value cs 3
      let minor_rank := vs ^^^ major_rank
      .ThreeOfAKind ((major_rank <<< 13) ||| minor_rank)
    else
      let major_rank := count_to_value cs 2
      let minor_rank := vs ^^^ major_rank
      .TwoPair ((major_rank <<< 13) ||| minor_rank)
  | 2 =>
    if count_to_value cs 3 ≠ 0 then
      let major_rank := count_to_value cs 3
      let minor_rank := vs ^^^ major_rank
      .FullHouse ((major_rank <<< 13) ||| minor_rank)
    else
      let major_rank := count_to_value cs 4
      let minor_rank := vs ^^^ major_rank
      .FourOfAKind ((major_rank <<< 13) ||| minor_rank)
  | _ => .HighCard 0

/-- The loop of `compare_ranks` (`src/poker/rank.rs`): scan the remaining
ranks with the current index, best rank and winner list. -/
def compare_go : List Rank → Nat → Rank → List Nat → List Nat
  | [], _, _, winners => winners
  | r :: rest, i, best, winners =>
    match r.cmp best with
    | .gt => compare_go rest (i + 1) r [i]
    | .eq => compare_go rest (i + 1) best (winners ++ [i])
    | .lt => compare_go rest (i + 1) best winners

/-- Embeds `compare_ranks` (`src/poker/rank.rs`): indices of the winning
(maximal) ranks, ties included; empty input gives an empty list. -/
def compare_ranks (ranks : List Rank) : List Nat :=
  match ranks with
  | [] => []
  | best :: rest => compare_go rest 1 best [0]

/-- Statement-side (claim C3's words): the mask has five consecutive set
bits starting at bit `low`. -/
def hasRunAt (m low : Nat) : Bool := (List.range 5).all (fun j => m.testBit (low + j))

/-- Statement-side (claim C3's words): the 13-bit mask contains five
consecutive set bits. -/
def hasRun (m : Nat) : Bool := (List.range 9).any (fun low => hasRunAt m low)

/-- Statement-side (claim C3's words): the straight rank of the highest
5-run in the mask, namely `low + 1` for the largest viable starting bit
`low` (so 1 for the 6-high run at bits 0..4 and 9 for the ace-high run at
bits 8..12). -/
def bestRun (m : Nat) : Nat :=
  ((List.range 9).filter (fun low => hasRunAt m low)).foldl Nat.max 0 + 1

/-- Decidable per-mask check of claim C3's characterization of
`rank_straight`, used to sweep all 13-bit masks. -/
def straightCheck (m : Nat) : Bool :=
  (if hasRun m then rank_straight m == some (bestRun m)
  else if m &&& WHEEL == WHEEL then rank_straight m == some 0
  else rank_straight m == none)
  && (!(decide (count_ones m < 5)) || rank_straight m == none)

/-- `sweepStraight lo fuel` checks `straightCheck` on every mask in
`[lo, lo + fuel)`. -/
def sweepStraight (lo : Nat) : Nat → Bool
  | 0 => true
  | fuel + 1 => straightCheck lo && sweepStraight (lo + 1) fuel

/-- The set of bit positions (below 16) set in `m`. -/
def bitsOf (m : Nat) : Finset ℕ := (Finset.range 16).filter (fun i => m.testBit i)

/-- Embeds `HandType` (`src/holdem/hand_evaluator.rs`, re-exported to the
range module as `hand_type::HandType`). -/
inductive HandType where
  | Offsuit
  | Suited
  | Paired
  | UnPaired
deriving DecidableEq, Repr

/-- Embeds `HAND_COMBINATIONS` (`src/holdem/evaluator/range.rs`): the 1326
possible two-card starting hands.  The source stores it as `f32`; numeric
results are modelled as exact rationals. -/
def HAND_COMBINATIONS : ℚ := 1326

/-- Embeds `SPEC_OFF_SUIT_COMBINATIONS` (`src/holdem/evaluator/range.rs`). -/
def SPEC_OFF_SUIT_COMBINATIONS : Nat := 12

/-- Embeds `SPEC_SUITED_COMBINATIONS` (`src/holdem/evaluator/range.rs`). -/
def SPEC_SUITED_COMBINATIONS : Nat := 4

/-- Embeds `SPEC_PAIRED_COMBINATIONS` (`src/holdem/evaluator/range.rs`). -/
def SPEC_PAIRED_COMBINATIONS : Nat := 6

/-- Embeds the `Combinations` struct (`src/holdem/evaluator/range.rs`):
three de-duplicating label sets (`HashSet<String>` modelled as
`Finset String`). -/
structure Combinations where
  offsuit : Finset String
  suited : Finset String
  paired : Finset String
deriving DecidableEq

/-- Embeds `Combinations::new`. -/
def Combinations.new : Combinations := ⟨∅, ∅, ∅⟩

/-- Embeds `Combinations::len_of_offsuit`. -/
def Combinations.len_of_offsuit (c : Combinations) : Nat := c.offsuit.card

/-- Embeds `Combinations::len_of_suited`. -/
def Combinations.len_of_suited (c : Combinations) : Nat := c.suited.card

/-- Embeds `Combinations::len_of_paired`. -/
def Combinations.len_of_paired (c : Combinations) : Nat := c.paired.card

/-- A character admitted by the rank class `[AKQJTt2-9]` of `RANGE_PAT`
(`src/holdem/evaluator/range.rs`) under the `(?i)` flag: its ASCII
uppercase form is one of `A K Q J T` or a digit `2`-`9`. -/
def isRankChar (c : Char) : Bool :=
  let u := c.toUpper
  u = 'A' || u = 'K' || u = 'Q' || u = 'J' || u = 'T' ||
    u = '2' || u = '3' || u = '4' || u = '5' || u = '6' || u = '7' || u = '8' || u = '9'

/-- Embeds the anchored regex `RANGE_PAT = (?i)^(?:[AKQJTt2-9]{2}[os]?\x2b?)$`:
two rank characters, an optional case-insensitive `o`/`s`, an optional
`+`. -/
def matchesRange (t : List Char) : Bool :=
  match t with
  | [a, b] => isRankChar a && isRankChar b
  | [a, b, c] =>
    isRankChar a && isRankChar b && (c.toLower = 'o' || c.toLower = 's' || c = '+')
  | [a, b, c, d] =>
    isRankChar a && isRankChar b && (c.toLower = 'o' || c.toLower = 's') && d = '+'
  | _ => false

/-- Strip leading and trailing whitespace from a token.  Together with the
comma split this models `TRIM_REGEX.replace_all(s, "$1").trim()` followed
by `split(',')` (`src/holdem/evaluator/range.rs`): removing whitespace
around every comma and at both ends of the string is the same as trimming
each comma-separated segment. -/
def trimChars (t : List Char) : List Char :=
  ((t.dropWhile Char.isWhitespace).reverse.dropWhile Char.isWhitespace).reverse

/-- The normalized comma-separated tokens of a range string. -/
def tokens (s : String) : List (List Char) := (s.data.splitOn ',').map trimChars

/-- Embeds `parse_cards` (`src/holdem/evaluator/range.rs`): two rank
characters, then the hand type from the third character — `'o'` offsuit,
`'s'` suited, anything else (or nothing) paired/unpaired by rank equality.
The source `unwrap`s the two rank characters (it is only called on tokens
matched by the regex); failure of either is modelled as `none`. -/
def parse_cards (t : List Char) : Option (CardRank × CardRank × HandType) :=
  match t with
  | c1 :: c2 :: rest =>
    match CardRank.from_char c1, CardRank.from_char c2 with
    | some rank1, some rank2 =>
      some (rank1, rank2,
        match rest.head? with
        | some 'o' => .Offsuit
        | some 's' => .Suited
        | _ => if rank1 = rank2 then .Paired else .UnPaired)
    | _, _ => none
  | _ => none

/-- `format!("{}{}", rank1, rank2)`: the two-character label of an
offsuit/suited/unpaired combination. -/
def pairLabel (rank1 rank2 : CardRank) : String := ⟨[rank1.as_char, rank2.as_char]⟩

/-- `format!("{}", rank)`: the one-character label of a paired
combination. -/
def singleLabel (rank1 : CardRank) : String := ⟨[rank1.as_char]⟩

/-- The labels inserted by the `Offsuit`/`Suited`/`UnPaired` arms of
`generate_plus_combinations`: `format!("{}{}", rank1, Rank::from_int(rank2
+ i))` for `i in 0..gap` with `gap = rank1.gap(&rank2)`.  `none` models
the `unwrap` panic when some `rank2 + i` is not a valid rank integer. -/
def plus_labels (rank1 rank2 : CardRank) : Option (List String) :=
  (List.range (rank1.gap rank2).toNat).mapM
    (fun (i : Nat) => (CardRank.from_int (rank2.as_int + (i : Int))).map
      (fun rk => pairLabel rank1 rk))

/-- The labels inserted by the `Paired` arm of
`generate_plus_combinations`: `format!("{}", Rank::from_int(rank1 + i))`
for `i in 0..=gap` with `gap = rank1.gap_with_ace()`. -/
def paired_labels (rank1 : CardRank) : Option (List String) :=
  (List.range (rank1.gap_with_ace.toNat + 1)).mapM
    (fun (i : Nat) => (CardRank.from_int (rank1.as_int + (i : Int))).map singleLabel)

/-- Insert a list of labels into a label set (`HashSet::insert` for each). -/
def insertAll (s : Finset String) (ls : List String) : Finset String :=
  ls.foldl (fun acc l => insert l acc) s

/-- Embeds `generate_plus_combinations` (`src/holdem/evaluator/range.rs`).
`none` models a panic: a failed `unwrap` of `Rank::from_int` during
expansion (the source panics before inserting anything further; since a
panic aborts the whole call, computing the labels first and inserting them
afterwards is observationally the same). -/
def generate_plus_combinations (t : List Char) (combinations : Combinations) :
    Option Combinations :=
  match parse_cards t with
  | none => none
  | some (rank1, rank2, hand_type) =>
    match hand_type with
    | .Offsuit =>
      (plus_labels rank1 rank2).map
        (fun ls => { combinations with offsuit := insertAll combinations.offsuit ls })
    | .Suited =>
      (plus_labels rank1 rank2).map
        (fun ls => { combinations with suited := insertAll combinations.suited ls })
    | .Paired =>
      (paired_labels rank1).map
        (fun ls => { combinations with paired := insertAll combinations.paired ls })
    | .UnPaired =>
      (plus_labels rank1 rank2).map
        (fun ls => { combinations with offsuit := insertAll combinations.offsuit ls,
                                       suited := insertAll combinations.suited ls })

/-- Embeds `generate_single_combinations` (`src/holdem/evaluator/range.rs`). -/
def generate_single_combinations (t : List Char) (combinations : Combinations) :
    Option Combinations :=
  match parse_cards t with
  | none => none
  | some (rank1, rank2, hand_type) =>
    some (match hand_type with
      | .Offsuit => { combinations with offsuit := insert (pairLabel rank1 rank2) combinations.offsuit }
      | .Suited => { combinations with suited := insert (pairLabel rank1 rank2) combinations.suited }
      | .Paired => { combinations with paired := insert (singleLabel rank1) combinations.paired }
      | .UnPaired => { combinations with offsuit := insert (pairLabel rank1 rank2) combinations.offsuit,
                                         suited := insert (pairLabel rank1 rank2) combinations.suited })

/-- Outcome of the range calculator: a returned value, a returned
`Err(Error)` value, or a panic (`unwrap` failure) aborting the call. -/
inductive RangeOutcome (α : Type) where
  | ok (a : α)
  | err (e : Error)
  | panicked
deriving DecidableEq

/-- One iteration of the token loop of `calculate_range_percent`: regex
check, then dispatch on the presence of `+`. -/
def apply_token (combinations : Combinations) (t : List Char) : RangeOutcome Combinations :=
  if matchesRange t then
    if t.contains '+' then
      match generate_plus_combinations t combinations with
      | some c => .ok c
      | none => .panicked
    else
      match generate_single_combinations t combinations with
      | some c => .ok c
      | none => .panicked
  else .err .UnexpectedCardChar

/-- The token loop of `calculate_range_percent`: thread the `Combinations`
through every token, stopping at the first regex mismatch (an
`Error::UnexpectedCardChar`) or panic. -/
def range_combinations (s : String) : RangeOutcome Combinations :=
  (tokens s).foldl
    (fun acc t =>
      match acc with
      | .ok c => apply_token c t
      | e => e)
    (.ok Combinations.new)

/-- Embeds `calculate_range_percent` (`src/holdem/evaluator/range.rs`),
spec name `measure`: the de-duplicated label counts weighted by the
per-class combination constants, divided by 1326 (`f32` division modelled
as exact rational division). -/
def calculate_range_percent (s : String) : RangeOutcome ℚ :=
  match range_combinations s with
  | .ok combinations =>
    .ok (((combinations.len_of_offsuit * SPEC_OFF_SUIT_COMBINATIONS
      + combinations.len_of_suited * SPEC_SUITED_COMBINATIONS
      + combinations.len_of_paired * SPEC_PAIRED_COMBINATIONS : Nat) : ℚ) / HAND_COMBINATIONS)
  | .err e => .err e
  | .panicked => .panicked

/-- Statement-side (claim C5): the label sets contributed by a single
token on its own, i.e. its generator applied to empty sets. -/
def token_labels (t : List Char) : RangeOutcome Combinations :=
  apply_token Combinations.new t

/-- Statement-side (claim C5): componentwise union of label sets. -/
def label_union (c1 c2 : Combinations) : Combinations :=
  ⟨c1.offsuit ∪ c2.offsuit, c1.suited ∪ c2.suited, c1.paired ∪ c2.paired⟩

/-- Statement-side (claim C5): the union of the label sets contributed by
each token separately — the "set of hand labels the tokens expand to",
independent of any shared dedup state. -/
def string_labels (s : String) : RangeOutcome Combinations :=
  (tokens s).foldl
    (fun acc t =>
      match acc, token_labels t with
      | .ok c, .ok ct => .ok (label_union c ct)
      | .ok _, e => e
      | e, _ => e)
    (.ok Combinations.new)

/-- Statement-side (claim C6): a token whose `+` expansion stays inside
the valid rank integers `2..=14`, so that no `Rank::from_int` unwrap can
panic: for two distinct ranks the expansion runs from `rank2` to `rank2 +
gap - 1`, which exceeds 14 (Ace) exactly when the first rank is the lower
one and `2 * rank2 - rank1 - 1 > 14`. -/
def token_safe (t : List Char) : Bool :=
  match parse_cards t with
  | none => false
  | some (rank1, rank2, _) =>
    if t.contains '+' && rank1 != rank2 then
      decide (2 * rank2.as_int - rank1.as_int - 1 ≤ 14) || decide (rank2.as_int < rank1.as_int)
    else true

/-- Statement-side (claim C8): the running maximum of `best` and the ranks
of `rest`, following the loop's strictly-greater update rule. -/
def list_max_rank (best : Rank) (rest : List Rank) : Rank :=
  rest.foldl (fun b r => match r.cmp b with | .gt => r | _ => b) best

/-- The cards of `cs` whose rank value is `v`, in order. -/
def rankCards (cs : List Card) (v : Nat) : List Card :=
  cs.filter (fun c => c.rank.toNat = v)

/-- Statement-side subset constructor: for each `(v, n)` in `B`, pick the
first `n` cards of rank value `v` from `cs` (in order), yielding a sublist
of `cs`. -/
def pickCards (cs : List Card) (B : List (Nat × Nat)) : List Card :=
  cs.filter (fun c => B.any (fun p => decide (c ∈ (rankCards cs p.1).take p.2)))

/-- Statement-side: one `(rank, 1)` pick per set bit of the 13-bit mask
`m`. -/
def maskPicks (m : Nat) : List (Nat × Nat) :=
  ((List.range 13).filter (fun v => m.testBit v)).map (fun v => (v, 1))

theorem Rank.eq_iff_tag_payload {a b : Rank} :
    a = b ↔ a.tagNat = b.tagNat ∧ a.payload = b.payload := by
  cases a <;> cases b <;> simp [Rank.tagNat, Rank.payload]

theorem Rank.cmp_eq_eq_iff {a b : Rank} : a.cmp b = .eq ↔ a = b := by
  rw [Rank.eq_iff_tag_payload]
  unfold Rank.cmp
  rcases h : compare a.tagNat b.tagNat with h1 | h1 | h1 <;>
    simp_all [Nat.compare_eq_lt, Nat.compare_eq_eq, Nat.compare_eq_gt] <;> omega

theorem Rank.cmp_eq_lt_iff {a b : Rank} :
    a.cmp b = .lt ↔ a.tagNat < b.tagNat ∨ (a.tagNat = b.tagNat ∧ a.payload < b.payload) := by
  unfold Rank.cmp
  rcases h : compare a.tagNat b.tagNat with h1 | h1 | h1 <;>
    simp_all [Nat.compare_eq_lt, Nat.compare_eq_eq, Nat.compare_eq_gt] <;> omega

theorem Rank.cmp_eq_gt_iff {a b : Rank} :
    a.cmp b = .gt ↔ b.tagNat < a.tagNat ∨ (a.tagNat = b.tagNat ∧ b.payload < a.payload) := by
  unfold Rank.cmp
  rcases h : compare a.tagNat b.tagNat with h1 | h1 | h1 <;>
    simp_all [Nat.compare_eq_lt, Nat.compare_eq_eq, Nat.compare_eq_gt] <;> omega

theorem Rank.ble_iff {a b : Rank} :
    a.ble b = true ↔ a.tagNat < b.tagNat ∨ (a.tagNat = b.tagNat ∧ a.payload ≤ b.payload) := by
  unfold Rank.ble
  rcases h : a.cmp b with h1 | h1 | h1 <;> simp_all
  · rw [Rank.cmp_eq_lt_iff] at h; omega
  · rw [Rank.cmp_eq_eq_iff] at h; subst h; omega
  · rw [Rank.cmp_eq_gt_iff] at h; omega

theorem Rank.blt_iff {a b : Rank} :
    a.blt b = true ↔ a.tagNat < b.tagNat ∨ (a.tagNat = b.tagNat ∧ a.payload < b.payload) := by
  unfold Rank.blt
  rcases h : a.cmp b with h1 | h1 | h1 <;> simp_all
  · rw [Rank.cmp_eq_lt_iff] at h; exact h
  · rw [Rank.cmp_eq_eq_iff] at h; subst h; omega
  · rw [Rank.cmp_eq_gt_iff] at h; omega

theorem Rank.ble_refl (a : Rank) : a.ble a = true := by
  rw [Rank.ble_iff]; omega

/-- C4: the `HandCategory` (`Rank`) derived ordering is a total order —
transitive, total, antisymmetric — in which the category tag always
dominates the payload: any `TwoPair p` exceeds any `OnePair q` for all
16-bit payloads, any higher-tagged value exceeds any lower-tagged one, and
the payload decides the comparison only between equal tags. -/
theorem rank_order_is_total_and_tag_dominates :
    (∀ a b c : Rank, a.ble b = true → b.ble c = true → a.ble c = true)
    ∧ (∀ a b : Rank, a.ble b = true ∨ b.ble a = true)
    ∧ (∀ a b : Rank, a.ble b = true → b.ble a = true → a = b)
    ∧ (∀ p q : Nat, p < 2 ^ 16 → q < 2 ^ 16 → (Rank.OnePair q).blt (.TwoPair p) = true)
    ∧ (∀ a b : Rank, a.tagNat < b.tagNat → a.blt b = true)
    ∧ (∀ a b : Rank, a.tagNat = b.tagNat → ((a.blt b = true) ↔ a.payload < b.payload)) := by
  refine ⟨fun a b c h1 h2 => ?_, fun a b => ?_, fun a b h1 h2 => ?_,
    fun p q hp hq => ?_, fun a b h => ?_, fun a b h => ?_⟩
  · rw [Rank.ble_iff] at h1 h2 ⊢; omega
  · rw [Rank.ble_iff, Rank.ble_iff]; omega
  · rw [Rank.ble_iff] at h1 h2; rw [Rank.eq_iff_tag_payload]; omega
  · rw [Rank.blt_iff]; left; simp [Rank.tagNat]
  · rw [Rank.blt_iff]; omega
  · rw [Rank.blt_iff]; omega

/-- Witness for C4: transitivity and tag dominance at concrete values —
a `TwoPair` with payload 0 still beats a `OnePair` with the largest
16-bit payload. -/
theorem rank_order_is_total_and_tag_dominates_witness :
    (Rank.OnePair 65535).blt (.TwoPair 0) = true :=
  rank_order_is_total_and_tag_dominates.2.2.2.1 0 65535 (by decide) (by decide)

/-- C9 counterexample: all three malformed card codes — missing characters
(`""`), unrecognized suit (`"X2"`), unrecognized rank (`"S1"`) — yield the
very same error `UnexpectedCardChar`, so the three failure modes are not
distinguishable in the returned error. -/
theorem try_from_str_same_error_for_all_failure_modes :
    Card.try_from_str "" = .error .UnexpectedCardChar
    ∧ Card.try_from_str "X2" = .error .UnexpectedCardChar
    ∧ Card.try_from_str "S1" = .error .UnexpectedCardChar :=
  ⟨rfl, rfl, rfl⟩

/-- C9 (amended): whatever the malformed input, `Card::try_from_str` only
ever returns the generic `UnexpectedCardChar` error. -/
theorem try_from_str_only_generic_error :
    ∀ (s : String) (e : Error), Card.try_from_str s = .error e → e = .UnexpectedCardChar := by
  intro s e h
  unfold Card.try_from_str at h
  split at h
  · split at h
    · exact ((Except.error.injEq _ _).mp h).symm
    · split at h
      · exact ((Except.error.injEq _ _).mp h).symm
      · exact absurd h (by simp)
  · exact ((Except.error.injEq _ _).mp h).symm

/-- Witness for C9 (amended): the theorem applied to the concrete
malformed input `"1A"`. -/
theorem try_from_str_only_generic_error_witness :
    Error.UnexpectedCardChar = Error.UnexpectedCardChar :=
  try_from_str_only_generic_error "1A" .UnexpectedCardChar rfl

theorem foldl_max_le {c : Nat} :
    ∀ (l : List Nat) (a : Nat), a ≤ c → (∀ x ∈ l, x ≤ c) → l.foldl Nat.max a ≤ c := by
  intro l
  induction l with
  | nil => intro a ha _; simpa using ha
  | cons x xs ih =>
    intro a ha hx
    simp only [List.foldl_cons]
    exact ih _ (Nat.max_le.mpr ⟨ha, hx x (by simp)⟩) (fun y hy => hx y (by simp [hy]))

theorem bestRun_pos (m : Nat) : 1 ≤ bestRun m := Nat.succ_le_succ (Nat.zero_le _)

theorem bestRun_le_nine (m : Nat) : bestRun m ≤ 9 := by
  unfold bestRun
  have h : ((List.range 9).filter (fun low => hasRunAt m low)).foldl Nat.max 0 ≤ 8 := by
    apply foldl_max_le _ 0 (Nat.zero_le _)
    intro x hx
    have := List.mem_range.mp (List.mem_of_mem_filter hx)
    omega
  omega

theorem straightCheck_sound {m : Nat} (h : straightCheck m = true) :
    (hasRun m = true → rank_straight m = some (bestRun m))
    ∧ (hasRun m = false → m &&& WHEEL = WHEEL → rank_straight m = some 0)
    ∧ (hasRun m = false → m &&& WHEEL ≠ WHEEL → rank_straight m = none)
    ∧ (count_ones m < 5 → rank_straight m = none) := by
  unfold straightCheck at h
  rw [Bool.and_eq_true] at h
  obtain ⟨h1, h2⟩ := h
  refine ⟨fun hr => ?_, fun hr hw => ?_, fun hr hw => ?_, fun hcnt => ?_⟩
  · rw [if_pos hr] at h1; exact beq_iff_eq.mp h1
  · rw [if_neg (by simp [hr]), if_pos (by simp [hw])] at h1; exact beq_iff_eq.mp h1
  · rw [if_neg (by simp [hr]), if_neg (by simp [hw])] at h1; exact beq_iff_eq.mp h1
  · rw [decide_eq_true hcnt] at h2
    simp only [Bool.not_true, Bool.false_or] at h2
    exact beq_iff_eq.mp h2

theorem sweepStraight_sound :
    ∀ (n lo : Nat), sweepStraight lo n = true →
      ∀ m, lo ≤ m → m < lo + n → straightCheck m = true := by
  intro n
  induction n with
  | zero => intro lo _ m h1 h2; omega
  | succ k ih =>
    intro lo h m h1 h2
    rw [show sweepStraight lo (k + 1) = (straightCheck lo && sweepStraight (lo + 1) k)
      from rfl] at h
    rw [Bool.and_eq_true] at h
    rcases Nat.eq_or_lt_of_le h1 with rfl | hlt
    · exact h.1
    · exact ih (lo + 1) h.2 m hlt (by omega)

set_option maxRecDepth 100000 in
set_option maxHeartbeats 4000000 in
theorem sweepStraight_chunk0 : sweepStraight 0 2048 = true := by decide

set_option maxRecDepth 100000 in
set_option maxHeartbeats 4000000 in
theorem sweepStraight_chunk1 : sweepStraight 2048 2048 = true := by decide

set_option maxRecDepth 100000 in
set_option maxHeartbeats 4000000 in
theorem sweepStraight_chunk2 : sweepStraight 4096 2048 = true := by decide

set_option maxRecDepth 100000 in
set_option maxHeartbeats 4000000 in
theorem sweepStraight_chunk3 : sweepStraight 6144 2048 = true := by decide

theorem straightCheck_all (m : Nat) (hm : m < 8192) : straightCheck m = true := by
  rcases Nat.lt_or_ge m 2048 with h | h
  · exact sweepStraight_sound 2048 0 sweepStraight_chunk0 m (Nat.zero_le m) (by omega)
  rcases Nat.lt_or_ge m 4096 with h2 | h2
  · exact sweepStraight_sound 2048 2048 sweepStraight_chunk1 m h (by omega)
  rcases Nat.lt_or_ge m 6144 with h3 | h3
  · exact sweepStraight_sound 2048 4096 sweepStraight_chunk2 m h2 (by omega)
  · exact sweepStraight_sound 2048 6144 sweepStraight_chunk3 m h3 (by omega)

/-- C3: for every 13-bit rank mask, `rank_straight` returns the straight
rank `bestRun m ∈ 1..9` of the highest five-consecutive-bit run when one
exists, returns `0` exactly when no run exists but all five wheel bits
(A,2,3,4,5) are set, and returns no straight otherwise; concretely, the
5-card wheel hand [2♦,3♣,4♠,5♥,A♠] ranks as `Straight 0`, strictly below
a 6-high `Straight 1`. -/
theorem rank_straight_full_characterization :
    (∀ m, m < 8192 →
      (hasRun m = true → rank_straight m = some (bestRun m) ∧ 1 ≤ bestRun m ∧ bestRun m ≤ 9)
      ∧ (hasRun m = false → m &&& WHEEL = WHEEL → rank_straight m = some 0)
      ∧ (hasRun m = false → m &&& WHEEL ≠ WHEEL → rank_straight m = none))
    ∧ rank_five [⟨.Diamond, .Two⟩, ⟨.Club, .Three⟩, ⟨.Spade, .Four⟩, ⟨.Heart, .Five⟩,
        ⟨.Spade, .Ace⟩] = .Straight 0
    ∧ (Rank.Straight 0).blt (.Straight 1) = true := by
  refine ⟨fun m hm => ?_, by decide, by decide⟩
  obtain ⟨c1, c2, c3, _⟩ := straightCheck_sound (straightCheck_all m hm)
  exact ⟨fun hr => ⟨c1 hr, bestRun_pos m, bestRun_le_nine m⟩, c2, c3⟩

/-- Witness for C3: the characterization applied at the concrete mask
`0b11111` (the 6-high run), whose straight rank is 1. -/
theorem rank_straight_full_characterization_witness :
    rank_straight 31 = some (bestRun 31) ∧ 1 ≤ bestRun 31 ∧ bestRun 31 ≤ 9 :=
  (rank_straight_full_characterization.1 31 (by decide)).1 (by decide)

theorem Rank.ble_trans {a b c : Rank} (h1 : a.ble b = true) (h2 : b.ble c = true) :
    a.ble c = true := by
  rw [Rank.ble_iff] at h1 h2 ⊢; omega

theorem Rank.ble_antisymm {a b : Rank} (h1 : a.ble b = true) (h2 : b.ble a = true) : a = b := by
  rw [Rank.ble_iff] at h1 h2; rw [Rank.eq_iff_tag_payload]; omega

theorem Rank.ble_of_cmp_gt {a b : Rank} (h : a.cmp b = .gt) : b.ble a = true := by
  rw [Rank.cmp_eq_gt_iff] at h; rw [Rank.ble_iff]; omega

theorem Rank.ble_of_cmp_lt {a b : Rank} (h : a.cmp b = .lt) : a.ble b = true := by
  rw [Rank.cmp_eq_lt_iff] at h; rw [Rank.ble_iff]; omega

theorem Rank.ble_false_of_cmp_gt {a b : Rank} (h : a.cmp b = .gt) : a.ble b = false := by
  unfold Rank.ble; rw [h]

theorem Rank.ble_of_cmp_eq {a b : Rank} (h : a.cmp b = .eq) : a.ble b = true := by
  unfold Rank.ble; rw [h]

theorem list_max_rank_cons_gt {best r : Rank} (rest : List Rank) (h : r.cmp best = .gt) :
    list_max_rank best (r :: rest) = list_max_rank r rest := by
  simp only [list_max_rank, List.foldl_cons, h]

theorem list_max_rank_cons_ngt {best r : Rank}
    (rest : List Rank) (h : r.cmp best = .lt ∨ r.cmp best = .eq) :
    list_max_rank best (r :: rest) = list_max_rank best rest := by
  rcases h with h | h <;> simp only [list_max_rank, List.foldl_cons, h]

theorem list_max_rank_seed_ble :
    ∀ (rest : List Rank) (best : Rank), best.ble (list_max_rank best rest) = true := by
  intro rest
  induction rest with
  | nil => intro best; exact Rank.ble_refl best
  | cons r rest' ih =>
    intro best
    rcases hc : r.cmp best with h1 | h1 | h1
    · rw [list_max_rank_cons_ngt rest' (Or.inl hc)]; exact ih best
    · rw [list_max_rank_cons_ngt rest' (Or.inr hc)]; exact ih best
    · rw [list_max_rank_cons_gt rest' hc]
      exact Rank.ble_trans (Rank.ble_of_cmp_gt hc) (ih r)

theorem list_max_rank_mem_ble :
    ∀ (rest : List Rank) (best r : Rank), r ∈ rest → r.ble (list_max_rank best rest) = true := by
  intro rest
  induction rest with
  | nil => intro best r h; simp at h
  | cons x rest' ih =>
    intro best r hm
    rcases List.mem_cons.mp hm with rfl | hm'
    · rcases hc : r.cmp best with h1 | h1 | h1
      · rw [list_max_rank_cons_ngt rest' (Or.inl hc)]
        exact Rank.ble_trans (Rank.ble_of_cmp_lt hc) (list_max_rank_seed_ble rest' best)
      · rw [list_max_rank_cons_ngt rest' (Or.inr hc)]
        rw [Rank.cmp_eq_eq_iff.mp hc]
        exact list_max_rank_seed_ble rest' best
      · rw [list_max_rank_cons_gt rest' hc]; exact list_max_rank_seed_ble rest' r
    · rcases hc : x.cmp best with h1 | h1 | h1
      · rw [list_max_rank_cons_ngt rest' (Or.inl hc)]; exact ih best r hm'
      · rw [list_max_rank_cons_ngt rest' (Or.inr hc)]; exact ih best r hm'
      · rw [list_max_rank_cons_gt rest' hc]; exact ih x r hm'

theorem list_max_rank_cases :
    ∀ (rest : List Rank) (best : Rank),
      list_max_rank best rest = best ∨ list_max_rank best rest ∈ rest := by
  intro rest
  induction rest with
  | nil => intro best; left; rfl
  | cons x rest' ih =>
    intro best
    rcases hc : x.cmp best with h1 | h1 | h1
    · rw [list_max_rank_cons_ngt rest' (Or.inl hc)]
      rcases ih best with h | h
      · left; exact h
      · right; exact List.mem_cons_of_mem x h
    · rw [list_max_rank_cons_ngt rest' (Or.inr hc)]
      rcases ih best with h | h
      · left; exact h
      · right; exact List.mem_cons_of_mem x h
    · rw [list_max_rank_cons_gt rest' hc]
      rcases ih x with h | h
      · right; rw [h]; exact List.mem_cons_self x rest'
      · right; exact List.mem_cons_of_mem x h

theorem list_max_rank_eq_seed_of_all :
    ∀ (rest : List Rank) (best : Rank),
      (∀ r ∈ rest, r.ble best = true) → list_max_rank best rest = best := by
  intro rest
  induction rest with
  | nil => intro best _; rfl
  | cons x rest' ih =>
    intro best hall
    have hx : x.ble best = true := hall x (List.mem_cons_self x rest')
    rcases hc : x.cmp best with h1 | h1 | h1
    · rw [list_max_rank_cons_ngt rest' (Or.inl hc)]
      exact ih best (fun r hr => hall r (List.mem_cons_of_mem x hr))
    · rw [list_max_rank_cons_ngt rest' (Or.inr hc)]
      exact ih best (fun r hr => hall r (List.mem_cons_of_mem x hr))
    · rw [Rank.ble_false_of_cmp_gt hc] at hx; exact absurd hx (by simp)

theorem list_max_rank_eq_seed_iff (rest : List Rank) (best : Rank) :
    list_max_rank best rest = best ↔ ∀ r ∈ rest, r.ble best = true := by
  constructor
  · intro h r hr
    have h2 := list_max_rank_mem_ble rest best r hr
    rw [h] at h2
    exact h2
  · exact list_max_rank_eq_seed_of_all rest best

theorem compare_go_cons_gt {r best : Rank} (rest : List Rank) (i : Nat) (ws : List Nat)
    (h : r.cmp best = .gt) :
    compare_go (r :: rest) i best ws = compare_go rest (i + 1) r [i] := by
  simp only [compare_go, h]

theorem compare_go_cons_eq {r best : Rank} (rest : List Rank) (i : Nat) (ws : List Nat)
    (h : r.cmp best = .eq) :
    compare_go (r :: rest) i best ws = compare_go rest (i + 1) best (ws ++ [i]) := by
  simp only [compare_go, h]

theorem compare_go_cons_lt {r best : Rank} (rest : List Rank) (i : Nat) (ws : List Nat)
    (h : r.cmp best = .lt) :
    compare_go (r :: rest) i best ws = compare_go rest (i + 1) best ws := by
  simp only [compare_go, h]

theorem filter_range_succ (P : Nat → Bool) (n : Nat) :
    (List.range (n + 1)).filter P
      = (if P 0 then [0] else [])
        ++ ((List.range n).filter (fun j => P (j + 1))).map (fun j => j + 1) := by
  rw [List.range_succ_eq_map, List.filter_cons, List.filter_map]
  by_cases h0 : P 0
  · rw [if_pos h0, if_pos h0]
    simp only [List.cons_append, List.nil_append]
    exact rfl
  · rw [if_neg h0, if_neg h0]
    simp only [List.nil_append]
    exact rfl

theorem getD_mem_of_lt :
    ∀ (l : List Rank) (j : Nat), j < l.length → l.getD j (Rank.HighCard 0) ∈ l := by
  intro l
  induction l with
  | nil => intro j hj; simp at hj
  | cons x xs ih =>
    intro j hj
    cases j with
    | zero => simp
    | succ k =>
      rw [List.getD_cons_succ]
      exact List.mem_cons_of_mem x (ih k (by simpa using Nat.lt_of_succ_lt_succ hj))

theorem map_add_shift (X : List Nat) (i : Nat) :
    (X.map (fun j => j + 1)).map (fun j => j + i) = X.map (fun j => j + (i + 1)) := by
  rw [List.map_map]
  apply List.map_congr_left
  intro j hj
  simp only [Function.comp_apply]
  omega

theorem compare_go_spec :
    ∀ (rest : List Rank) (i : Nat) (best : Rank) (ws : List Nat),
      compare_go rest i best ws =
        (if rest.all (fun r => r.ble best) then ws else [])
        ++ ((List.range rest.length).filter
            (fun j => rest.getD j (Rank.HighCard 0) == list_max_rank best rest)).map
              (fun j => j + i) := by
  intro rest
  induction rest with
  | nil => intro i best ws; simp [compare_go, list_max_rank]
  | cons r rest' ih =>
    intro i best ws
    have hfr := filter_range_succ
      (fun j => (r :: rest').getD j (Rank.HighCard 0) == list_max_rank best (r :: rest'))
      rest'.length
    rcases hc : r.cmp best with h1 | h1 | h1
    · -- lt: keep best and winners; r is not the max
      rw [compare_go_cons_lt rest' i ws hc, ih (i + 1) best ws]
      rw [show (r :: rest').length = rest'.length + 1 from rfl, hfr,
        list_max_rank_cons_ngt rest' (Or.inl hc)]
      have hhead : ((r :: rest').getD 0 (Rank.HighCard 0) == list_max_rank best rest') = false := by
        rw [List.getD_cons_zero, beq_eq_false_iff_ne]
        intro heq
        have h2 : best.ble r = true := heq ▸ list_max_rank_seed_ble rest' best
        have h3 := Rank.ble_antisymm (Rank.ble_of_cmp_lt hc) h2
        rw [h3, Rank.cmp_eq_lt_iff] at hc
        omega
      have hall : ((r :: rest').all fun x => x.ble best) = (rest'.all fun x => x.ble best) := by
        rw [List.all_cons, Rank.ble_of_cmp_lt hc, Bool.true_and]
      rw [hhead, hall, if_neg Bool.false_ne_true]
      simp only [List.nil_append, List.map_append, map_add_shift]
      all_goals simp
    · -- eq: r equals best; index i joins the winners
      rw [compare_go_cons_eq rest' i ws hc, ih (i + 1) best (ws ++ [i])]
      rw [show (r :: rest').length = rest'.length + 1 from rfl, hfr,
        list_max_rank_cons_ngt rest' (Or.inr hc)]
      have hre : r = best := Rank.cmp_eq_eq_iff.mp hc
      have hall : ((r :: rest').all fun x => x.ble best) = (rest'.all fun x => x.ble best) := by
        rw [List.all_cons, hre, Rank.ble_refl, Bool.true_and]
      have hhead : ((r :: rest').getD 0 (Rank.HighCard 0) == list_max_rank best rest')
          = (rest'.all fun x => x.ble best) := by
        rw [List.getD_cons_zero, hre]
        by_cases hb : (rest'.all fun x => x.ble best) = true
        · rw [hb, beq_iff_eq]
          exact ((list_max_rank_eq_seed_iff rest' best).mpr (List.all_eq_true.mp hb)).symm
        · rw [Bool.eq_false_iff.mpr hb, beq_eq_false_iff_ne]
          intro heq
          exact hb (List.all_eq_true.mpr ((list_max_rank_eq_seed_iff rest' best).mp heq.symm))
      rw [hall, hhead]
      by_cases hb : (rest'.all fun x => x.ble best) = true
      · rw [hb, if_pos rfl, if_pos rfl]
        simp only [List.map_append, map_add_shift, List.map_cons, List.map_nil,
          List.append_assoc, List.cons_append, List.nil_append]
        all_goals simp
      · rw [Bool.eq_false_iff.mpr hb, if_neg Bool.false_ne_true, if_neg Bool.false_ne_true]
        simp only [List.nil_append, List.map_append, map_add_shift]
        all_goals simp
    · -- gt: r strictly exceeds best; winners reset to [i]
      rw [compare_go_cons_gt rest' i ws hc, ih (i + 1) r [i]]
      rw [show (r :: rest').length = rest'.length + 1 from rfl, hfr,
        list_max_rank_cons_gt rest' hc]
      have hall : ((r :: rest').all fun x => x.ble best) = false := by
        rw [List.all_cons, Rank.ble_false_of_cmp_gt hc, Bool.false_and]
      have hhead : ((r :: rest').getD 0 (Rank.HighCard 0) == list_max_rank r rest')
          = (rest'.all fun x => x.ble r) := by
        rw [List.getD_cons_zero]
        by_cases hb : (rest'.all fun x => x.ble r) = true
        · rw [hb, beq_iff_eq]
          exact ((list_max_rank_eq_seed_iff rest' r).mpr (List.all_eq_true.mp hb)).symm
        · rw [Bool.eq_false_iff.mpr hb, beq_eq_false_iff_ne]
          intro heq
          exact hb (List.all_eq_true.mpr ((list_max_rank_eq_seed_iff rest' r).mp heq.symm))
      rw [hall, if_neg Bool.false_ne_true, hhead]
      by_cases hb : (rest'.all fun x => x.ble r) = true
      · rw [hb, if_pos rfl, if_pos rfl]
        simp only [List.map_append, map_add_shift, List.map_cons, List.map_nil,
          List.cons_append, List.nil_append]
        all_goals simp
      · rw [Bool.eq_false_iff.mpr hb, if_neg Bool.false_ne_true, if_neg Bool.false_ne_true]
        simp only [List.nil_append, List.map_append, map_add_shift]
        all_goals simp

/-- C8: `compare_ranks` returns exactly the increasing list of indices at
which the rank sequence attains its maximum under the `Rank` ordering (an
index is kept iff every rank of the sequence is `≤` the rank there), and
the empty sequence gives the empty result. -/
theorem compare_ranks_indices_of_maximum :
    (∀ ranks : List Rank,
      compare_ranks ranks = (List.range ranks.length).filter
        (fun i => ranks.all (fun r => r.ble (ranks.getD i (Rank.HighCard 0)))))
    ∧ compare_ranks ([] : List Rank) = [] := by
  refine ⟨fun ranks => ?_, rfl⟩
  match ranks with
  | [] => rfl
  | best :: rest =>
    rw [show compare_ranks (best :: rest) = compare_go rest 1 best [0] from rfl,
      compare_go_spec rest 1 best [0],
      show (best :: rest).length = rest.length + 1 from rfl,
      filter_range_succ
        (fun i => (best :: rest).all fun r => r.ble ((best :: rest).getD i (Rank.HighCard 0)))
        rest.length]
    have hP0 : ((best :: rest).all fun r => r.ble ((best :: rest).getD 0 (Rank.HighCard 0)))
        = (rest.all fun r => r.ble best) := by
      rw [List.getD_cons_zero, List.all_cons, Rank.ble_refl, Bool.true_and]
    rw [hP0]
    congr 1
    congr 1
    apply List.filter_congr
    intro j hj
    have hjlen : j < rest.length := List.mem_range.mp hj
    rw [List.getD_cons_succ]
    by_cases hb : rest.getD j (Rank.HighCard 0) = list_max_rank best rest
    · rw [beq_iff_eq.mpr hb]
      symm
      rw [List.all_eq_true]
      intro r hr
      rw [hb]
      rcases List.mem_cons.mp hr with rfl | hr'
      · exact list_max_rank_seed_ble rest r
      · exact list_max_rank_mem_ble rest best r hr'
    · rw [beq_eq_false_iff_ne.mpr hb]
      symm
      rw [Bool.eq_false_iff]
      intro hall
      apply hb
      apply Rank.ble_antisymm
      · exact list_max_rank_mem_ble rest best _ (getD_mem_of_lt rest j hjlen)
      · rcases list_max_rank_cases rest best with h | h
        · rw [h]
          exact List.all_eq_true.mp hall best (List.mem_cons_self best rest)
        · exact List.all_eq_true.mp hall _ (List.mem_cons_of_mem best h)

theorem calculate_range_percent_ok {s : String} {c : Combinations}
    (h : range_combinations s = .ok c) :
    calculate_range_percent s = .ok
      (((c.len_of_offsuit * SPEC_OFF_SUIT_COMBINATIONS
        + c.len_of_suited * SPEC_SUITED_COMBINATIONS
        + c.len_of_paired * SPEC_PAIRED_COMBINATIONS : Nat) : ℚ) / HAND_COMBINATIONS) := by
  unfold calculate_range_percent
  rw [h]

theorem insertAll_eq_union :
    ∀ (ls : List String) (s : Finset String), insertAll s ls = s ∪ ls.toFinset := by
  intro ls
  induction ls with
  | nil => intro s; simp [insertAll]
  | cons l ls' ih =>
    intro s
    rw [show insertAll s (l :: ls') = insertAll (insert l s) ls' from rfl, ih]
    rw [List.toFinset_cons, Finset.insert_union, Finset.union_insert]

theorem label_union_new (c : Combinations) : label_union c Combinations.new = c := by
  cases c
  simp [label_union, Combinations.new]

theorem generate_plus_eq (t : List Char) (c : Combinations) {r1 r2 : CardRank} {ht : HandType} :
    parse_cards t = some (r1, r2, ht) →
    generate_plus_combinations t c =
      match ht with
      | .Offsuit =>
        (plus_labels r1 r2).map (fun ls => { c with offsuit := insertAll c.offsuit ls })
      | .Suited =>
        (plus_labels r1 r2).map (fun ls => { c with suited := insertAll c.suited ls })
      | .Paired =>
        (paired_labels r1).map (fun ls => { c with paired := insertAll c.paired ls })
      | .UnPaired =>
        (plus_labels r1 r2).map (fun ls => { c with offsuit := insertAll c.offsuit ls,
                                                    suited := insertAll c.suited ls }) := by
  intro hpc
  unfold generate_plus_combinations
  rw [hpc]

theorem generate_single_eq (t : List Char) (c : Combinations) {r1 r2 : CardRank} {ht : HandType} :
    parse_cards t = some (r1, r2, ht) →
    generate_single_combinations t c =
      some (match ht with
        | .Offsuit => { c with offsuit := insert (pairLabel r1 r2) c.offsuit }
        | .Suited => { c with suited := insert (pairLabel r1 r2) c.suited }
        | .Paired => { c with paired := insert (singleLabel r1) c.paired }
        | .UnPaired => { c with offsuit := insert (pairLabel r1 r2) c.offsuit,
                                suited := insert (pairLabel r1 r2) c.suited }) := by
  intro hpc
  unfold generate_single_combinations
  rw [hpc]

theorem generate_plus_none (t : List Char) (c : Combinations)
    (hpc : parse_cards t = none) : generate_plus_combinations t c = none := by
  unfold generate_plus_combinations
  rw [hpc]

theorem generate_single_none (t : List Char) (c : Combinations)
    (hpc : parse_cards t = none) : generate_single_combinations t c = none := by
  unfold generate_single_combinations
  rw [hpc]

theorem apply_token_union (c : Combinations) (t : List Char) :
    apply_token c t =
      match token_labels t with
      | .ok cf => .ok (label_union c cf)
      | .err e => .err e
      | .panicked => .panicked := by
  unfold token_labels apply_token
  by_cases hm : matchesRange t
  · rw [if_pos hm, if_pos hm]
    by_cases hp : t.contains '+'
    · rw [if_pos hp, if_pos hp]
      rcases hpc : parse_cards t with _ | ⟨r1, r2, ht⟩
      · rw [generate_plus_none t c hpc, generate_plus_none t Combinations.new hpc]
      · rw [generate_plus_eq t c hpc, generate_plus_eq t Combinations.new hpc]
        cases ht
        · rcases hl : plus_labels r1 r2 with _ | ls
          · rfl
          · show RangeOutcome.ok _ = RangeOutcome.ok _
            congr 1
            cases c
            simp [label_union, Combinations.new, insertAll_eq_union]
        · rcases hl : plus_labels r1 r2 with _ | ls
          · rfl
          · show RangeOutcome.ok _ = RangeOutcome.ok _
            congr 1
            cases c
            simp [label_union, Combinations.new, insertAll_eq_union]
        · rcases hl : paired_labels r1 with _ | ls
          · rfl
          · show RangeOutcome.ok _ = RangeOutcome.ok _
            congr 1
            cases c
            simp [label_union, Combinations.new, insertAll_eq_union]
        · rcases hl : plus_labels r1 r2 with _ | ls
          · rfl
          · show RangeOutcome.ok _ = RangeOutcome.ok _
            congr 1
            cases c
            simp [label_union, Combinations.new, insertAll_eq_union]
    · rw [if_neg hp, if_neg hp]
      rcases hpc : parse_cards t with _ | ⟨r1, r2, ht⟩
      · rw [generate_single_none t c hpc, generate_single_none t Combinations.new hpc]
      · rw [generate_single_eq t c hpc, generate_single_eq t Combinations.new hpc]
        cases ht <;>
        · show RangeOutcome.ok _ = RangeOutcome.ok _
          congr 1
          cases c
          simp [label_union, Combinations.new, Finset.insert_eq, Finset.union_comm]
  · rw [if_neg hm, if_neg hm]

theorem range_combinations_eq_string_labels (s : String) :
    range_combinations s = string_labels s := by
  unfold range_combinations string_labels
  apply List.foldl_ext
  intro acc t _
  rcases acc with c | e | _
  · show apply_token c t = _
    rw [apply_token_union c t]
    rcases token_labels t with cf | e | _ <;> rfl
  · rfl
  · rfl

/-- C2: for every accepted range string, `calculate_range_percent` returns
exactly (distinct offsuit labels × 12 + distinct suited labels × 4 +
distinct paired labels × 6) / 1326; in particular `measure("KK+")` is
12/1326 ≈ 0.0090 (the two paired classes KK and AA at 6 deals each). -/
theorem calculate_range_percent_formula :
    (∀ (s : String) (c : Combinations), range_combinations s = .ok c →
      calculate_range_percent s = .ok
        (((c.offsuit.card * 12 + c.suited.card * 4 + c.paired.card * 6 : Nat) : ℚ) / 1326))
    ∧ calculate_range_percent "KK+" = .ok (12 / 1326) := by
  have hmain : ∀ (s : String) (c : Combinations), range_combinations s = .ok c →
      calculate_range_percent s = .ok
        (((c.offsuit.card * 12 + c.suited.card * 4 + c.paired.card * 6 : Nat) : ℚ) / 1326) := by
    intro s c h
    exact calculate_range_percent_ok h
  refine ⟨hmain, ?_⟩
  have h : range_combinations "KK+"
      = .ok ⟨∅, ∅, {singleLabel .Ace, singleLabel .King}⟩ := rfl
  rw [hmain _ _ h]
  have hc : (((⟨∅, ∅, {singleLabel .Ace, singleLabel .King}⟩ : Combinations).offsuit.card * 12
      + (⟨∅, ∅, {singleLabel .Ace, singleLabel .King}⟩ : Combinations).suited.card * 4
      + (⟨∅, ∅, {singleLabel .Ace, singleLabel .King}⟩ : Combinations).paired.card * 6 : Nat))
      = 12 := by decide
  rw [hc]
  congr 1

/-- Witness for C2: the formula applied to the accepted string `"22"`
(one paired label). -/
theorem calculate_range_percent_formula_witness :
    calculate_range_percent "22" = .ok
      ((((⟨∅, ∅, {singleLabel .Two}⟩ : Combinations).offsuit.card * 12
        + (⟨∅, ∅, {singleLabel .Two}⟩ : Combinations).suited.card * 4
        + (⟨∅, ∅, {singleLabel .Two}⟩ : Combinations).paired.card * 6 : Nat) : ℚ) / 1326) :=
  calculate_range_percent_formula.1 "22" ⟨∅, ∅, {singleLabel .Two}⟩ rfl

/-- C5: `calculate_range_percent` depends only on the union of the label
sets its tokens expand to (each token's contribution computed on its own),
so it is invariant under token reordering and under duplicate or
overlapping tokens; in particular `measure("88+,22+") = measure("22+")`. -/
theorem measure_invariant_under_label_set_equality :
    (∀ s1 s2 : String, string_labels s1 = string_labels s2 →
      calculate_range_percent s1 = calculate_range_percent s2)
    ∧ calculate_range_percent "88+,22+" = calculate_range_percent "22+" := by
  have hmain : ∀ s1 s2 : String, string_labels s1 = string_labels s2 →
      calculate_range_percent s1 = calculate_range_percent s2 := by
    intro s1 s2 h
    unfold calculate_range_percent
    rw [range_combinations_eq_string_labels, range_combinations_eq_string_labels, h]
  refine ⟨hmain, ?_⟩
  have h1 : range_combinations "88+,22+" = .ok ⟨∅, ∅,
      {singleLabel .Seven, singleLabel .Six, singleLabel .Five, singleLabel .Four,
       singleLabel .Three, singleLabel .Two, singleLabel .Ace, singleLabel .King,
       singleLabel .Queen, singleLabel .Jack, singleLabel .Ten, singleLabel .Nine,
       singleLabel .Eight}⟩ := rfl
  have h2 : range_combinations "22+" = .ok ⟨∅, ∅,
      {singleLabel .Ace, singleLabel .King, singleLabel .Queen, singleLabel .Jack,
       singleLabel .Ten, singleLabel .Nine, singleLabel .Eight, singleLabel .Seven,
       singleLabel .Six, singleLabel .Five, singleLabel .Four, singleLabel .Three,
       singleLabel .Two}⟩ := rfl
  rw [calculate_range_percent_ok h1, calculate_range_percent_ok h2]
  have hn : ((⟨∅, ∅,
      {singleLabel .Seven, singleLabel .Six, singleLabel .Five, singleLabel .Four,
       singleLabel .Three, singleLabel .Two, singleLabel .Ace, singleLabel .King,
       singleLabel .Queen, singleLabel .Jack, singleLabel .Ten, singleLabel .Nine,
       singleLabel .Eight}⟩ : Combinations).len_of_offsuit * SPEC_OFF_SUIT_COMBINATIONS
      + (⟨∅, ∅,
      {singleLabel .Seven, singleLabel .Six, singleLabel .Five, singleLabel .Four,
       singleLabel .Three, singleLabel .Two, singleLabel .Ace, singleLabel .King,
       singleLabel .Queen, singleLabel .Jack, singleLabel .Ten, singleLabel .Nine,
       singleLabel .Eight}⟩ : Combinations).len_of_suited * SPEC_SUITED_COMBINATIONS
      + (⟨∅, ∅,
      {singleLabel .Seven, singleLabel .Six, singleLabel .Five, singleLabel .Four,
       singleLabel .Three, singleLabel .Two, singleLabel .Ace, singleLabel .King,
       singleLabel .Queen, singleLabel .Jack, singleLabel .Ten, singleLabel .Nine,
       singleLabel .Eight}⟩ : Combinations).len_of_paired * SPEC_PAIRED_COMBINATIONS : Nat)
      = ((⟨∅, ∅,
      {singleLabel .Ace, singleLabel .King, singleLabel .Queen, singleLabel .Jack,
       singleLabel .Ten, singleLabel .Nine, singleLabel .Eight, singleLabel .Seven,
       singleLabel .Six, singleLabel .Five, singleLabel .Four, singleLabel .Three,
       singleLabel .Two}⟩ : Combinations).len_of_offsuit * SPEC_OFF_SUIT_COMBINATIONS
      + (⟨∅, ∅,
      {singleLabel .Ace, singleLabel .King, singleLabel .Queen, singleLabel .Jack,
       singleLabel .Ten, singleLabel .Nine, singleLabel .Eight, singleLabel .Seven,
       singleLabel .Six, singleLabel .Five, singleLabel .Four, singleLabel .Three,
       singleLabel .Two}⟩ : Combinations).len_of_suited * SPEC_SUITED_COMBINATIONS
      + (⟨∅, ∅,
      {singleLabel .Ace, singleLabel .King, singleLabel .Queen, singleLabel .Jack,
       singleLabel .Ten, singleLabel .Nine, singleLabel .Eight, singleLabel .Seven,
       singleLabel .Six, singleLabel .Five, singleLabel .Four, singleLabel .Three,
       singleLabel .Two}⟩ : Combinations).len_of_paired * SPEC_PAIRED_COMBINATIONS : Nat) := by
    decide
  rw [hn]

/-- Witness for C5: the invariance applied to the concrete pair
`"KQ,KQ"` and `"KQ"`, whose tokens expand to the same label sets. -/
theorem measure_invariant_under_label_set_equality_witness :
    calculate_range_percent "KQ,KQ" = calculate_range_percent "KQ" :=
  measure_invariant_under_label_set_equality.1 "KQ,KQ" "KQ" rfl

theorem from_char_isSome_of_isRankChar {ch : Char} (h : isRankChar ch = true) :
    ∃ r, CardRank.from_char ch = some r := by
  unfold isRankChar at h
  simp only [Bool.or_eq_true_iff, decide_eq_true_eq] at h
  rcases h with ((((((((((((h | h) | h) | h) | h) | h) | h) | h) | h) | h) | h) | h) | h) <;>
    exact ⟨_, by unfold CardRank.from_char; rw [h]; exact rfl⟩

theorem parse_cards_isSome_of_matches {t : List Char} (h : matchesRange t = true) :
    (parse_cards t).isSome = true := by
  unfold matchesRange at h
  split at h
  · rw [Bool.and_eq_true] at h
    obtain ⟨r1, hr1⟩ := from_char_isSome_of_isRankChar h.1
    obtain ⟨r2, hr2⟩ := from_char_isSome_of_isRankChar h.2
    simp [parse_cards, hr1, hr2]
  · rw [Bool.and_eq_true, Bool.and_eq_true] at h
    obtain ⟨r1, hr1⟩ := from_char_isSome_of_isRankChar h.1.1
    obtain ⟨r2, hr2⟩ := from_char_isSome_of_isRankChar h.1.2
    simp [parse_cards, hr1, hr2]
  · rw [Bool.and_eq_true, Bool.and_eq_true, Bool.and_eq_true] at h
    obtain ⟨r1, hr1⟩ := from_char_isSome_of_isRankChar h.1.1.1
    obtain ⟨r2, hr2⟩ := from_char_isSome_of_isRankChar h.1.1.2
    simp [parse_cards, hr1, hr2]
  · exact absurd h (by simp)

theorem from_int_isSome_of_bounds {v : Int} (h2 : 2 ≤ v) (h14 : v ≤ 14) :
    ∃ r, CardRank.from_int v = some r := by
  interval_cases v <;> exact ⟨_, rfl⟩

theorem as_int_bounds (r : CardRank) : 2 ≤ r.as_int ∧ r.as_int ≤ 14 := by
  cases r <;> exact ⟨by decide, by decide⟩

theorem mapM_isSome_of_all {α β : Type} (f : α → Option β) :
    ∀ l : List α, (∀ x ∈ l, (f x).isSome = true) → ∃ ys, l.mapM f = some ys := by
  intro l
  induction l with
  | nil => exact fun _ => ⟨[], rfl⟩
  | cons a l' ih =>
    intro h
    obtain ⟨b, hb⟩ := Option.isSome_iff_exists.mp (h a (List.mem_cons_self a l'))
    obtain ⟨ys, hys⟩ := ih (fun x hx => h x (List.mem_cons_of_mem a hx))
    exact ⟨b :: ys, by rw [List.mapM_cons, hb, hys]; rfl⟩

theorem plus_labels_isSome (r1 r2 : CardRank)
    (hsafe : r1 = r2 ∨ r2.as_int < r1.as_int ∨ 2 * r2.as_int - r1.as_int - 1 ≤ 14) :
    ∃ ls, plus_labels r1 r2 = some ls := by
  unfold plus_labels
  apply mapM_isSome_of_all
  intro i hi
  have him : i < (r1.as_int - r2.as_int).natAbs := by
    have h0 := List.mem_range.mp hi
    unfold CardRank.gap at h0
    omega
  have hb1 := as_int_bounds r1
  have hb2 := as_int_bounds r2
  have hs' : r1.as_int = r2.as_int ∨ r2.as_int < r1.as_int
      ∨ 2 * r2.as_int - r1.as_int - 1 ≤ 14 := by
    rcases hsafe with h | h | h
    · left; rw [h]
    · right; left; exact h
    · right; right; exact h
  obtain ⟨r, hr⟩ := from_int_isSome_of_bounds (v := r2.as_int + i) (by omega) (by omega)
  simp [hr]

theorem paired_labels_isSome (r1 : CardRank) : ∃ ls, paired_labels r1 = some ls := by
  unfold paired_labels
  apply mapM_isSome_of_all
  intro i hi
  have him := List.mem_range.mp hi
  have hb1 := as_int_bounds r1
  have hace : CardRank.Ace.as_int = 14 := rfl
  have him' : (i : Int) ≤ 14 - r1.as_int := by
    unfold CardRank.gap_with_ace at him
    rw [hace] at him
    omega
  obtain ⟨r, hr⟩ := from_int_isSome_of_bounds (v := r1.as_int + i) (by omega) (by omega)
  simp [hr]

theorem apply_token_ok_of_safe {t : List Char} (hm : matchesRange t = true)
    (hs : token_safe t = true) (c : Combinations) : ∃ c', apply_token c t = .ok c' := by
  obtain ⟨⟨r1, r2, ht⟩, hpc⟩ := Option.isSome_iff_exists.mp (parse_cards_isSome_of_matches hm)
  unfold apply_token
  rw [if_pos hm]
  by_cases hp : t.contains '+'
  · rw [if_pos hp]
    have hsafe : r1 = r2 ∨ r2.as_int < r1.as_int ∨ 2 * r2.as_int - r1.as_int - 1 ≤ 14 := by
      unfold token_safe at hs
      simp only [hpc] at hs
      by_cases he : r1 = r2
      · exact Or.inl he
      · have hcond : (t.contains '+' && (r1 != r2)) = true := by
          rw [hp, Bool.true_and]
          exact bne_iff_ne.mpr he
        rw [if_pos hcond] at hs
        rcases Bool.or_eq_true_iff.mp hs with h | h
        · exact Or.inr (Or.inr (of_decide_eq_true h))
        · exact Or.inr (Or.inl (of_decide_eq_true h))
    rw [generate_plus_eq t c hpc]
    cases ht
    · obtain ⟨ls, hls⟩ := plus_labels_isSome r1 r2 hsafe
      rw [hls]
      exact ⟨_, rfl⟩
    · obtain ⟨ls, hls⟩ := plus_labels_isSome r1 r2 hsafe
      rw [hls]
      exact ⟨_, rfl⟩
    · obtain ⟨ls, hls⟩ := paired_labels_isSome r1
      rw [hls]
      exact ⟨_, rfl⟩
    · obtain ⟨ls, hls⟩ := plus_labels_isSome r1 r2 hsafe
      rw [hls]
      exact ⟨_, rfl⟩
  · rw [if_neg hp, generate_single_eq t c hpc]
    exact ⟨_, rfl⟩

theorem range_fold_ok :
    ∀ ts : List (List Char),
      (∀ t ∈ ts, matchesRange t = true ∧ token_safe t = true) →
      ∀ c : Combinations, ∃ c',
        ts.foldl (fun acc t => match acc with | RangeOutcome.ok c => apply_token c t | e => e)
          (RangeOutcome.ok c) = RangeOutcome.ok c' := by
  intro ts
  induction ts with
  | nil => intro _ c; exact ⟨c, rfl⟩
  | cons t ts' ih =>
    intro h c
    obtain ⟨c1, hc1⟩ := apply_token_ok_of_safe (h t (List.mem_cons_self t ts')).1
      (h t (List.mem_cons_self t ts')).2 c
    rw [List.foldl_cons,
      show (match RangeOutcome.ok c with | .ok c => apply_token c t | e => e)
        = apply_token c t from rfl,
      hc1]
    exact ih (fun x hx => h x (List.mem_cons_of_mem t hx)) c1

/-- C6 (amended): `calculate_range_percent` succeeds (returns a numeric
fraction, no error and no panic) on every range string all of whose
normalized tokens match the grammar AND, when a `+` token has two distinct
ranks with the lower rank written first, the expansion stays within the
valid rank integers (`2 * low2 - high1 - 1 ≤ 14`).  Tokens such as
`"JAo+"`/`"2Ao+"` violate that side condition and panic (see the
counterexample theorem). -/
theorem measure_succeeds_on_safe_grammar :
    ∀ s : String,
      ((tokens s).all (fun t => matchesRange t && token_safe t)) = true →
      ∃ q, calculate_range_percent s = .ok q := by
  intro s h
  have h' : ∀ t ∈ tokens s, matchesRange t = true ∧ token_safe t = true := by
    intro t ht
    have h2 := List.all_eq_true.mp h t ht
    rw [Bool.and_eq_true] at h2
    exact h2
  obtain ⟨c', hc'⟩ := range_fold_ok (tokens s) h' Combinations.new
  exact ⟨_, calculate_range_percent_ok hc'⟩

/-- Witness for C6 (amended): the theorem applied to the concrete safe
string `"88+, AJo+"`. -/
theorem measure_succeeds_on_safe_grammar_witness :
    ∃ q, calculate_range_percent "88+, AJo+" = .ok q :=
  measure_succeeds_on_safe_grammar "88+, AJo+" (by decide)

/-- C6 counterexample: the token `"JAo+"` matches the grammar
`<rank><rank>[o|s]?[+]?` (first rank character J lower than A), yet
`calculate_range_percent "JAo+"` panics (the kicker expansion runs past
Ace and `Rank::from_int(15).unwrap()` fails) instead of returning a
fraction. -/
theorem measure_panics_on_JAo_plus :
    matchesRange (trimChars "JAo+".data) = true
    ∧ calculate_range_percent "JAo+" = .panicked := ⟨rfl, rfl⟩

/-- C7 counterexample: the grammar-accepted equal-rank token `"AAs"` is
classified `Suited`, not `Paired`: it contributes the label `"AA"` to the
suited set (worth 4 combinations) and nothing to the paired set, because
`parse_cards` inspects the `o`/`s` suffix before comparing the ranks. -/
theorem aas_classified_suited_not_paired :
    parse_cards ['A', 'A', 's'] = some (.Ace, .Ace, .Suited)
    ∧ range_combinations "AAs" = .ok ⟨∅, {pairLabel .Ace .Ace}, ∅⟩ := ⟨rfl, rfl⟩

/-- C7 (amended): a grammar-accepted token whose two rank characters are
equal and which carries NO trailing `o`/`s` suffix is classified `Paired`
and contributes only to the paired label set: both generators leave the
offsuit and suited sets unchanged.  (With an `'o'`/`'s'` suffix such a
token is classified Offsuit/Suited instead — see the counterexample.) -/
theorem equal_rank_no_suffix_tokens_are_paired :
    ∀ (t : List Char) (r1 r2 : CardRank) (ht : HandType),
      parse_cards t = some (r1, r2, ht) → r1 = r2 →
      (∀ ch, (t.drop 2).head? = some ch → ch ≠ 'o' ∧ ch ≠ 's') →
      ht = .Paired
      ∧ (∀ c c' : Combinations, generate_single_combinations t c = some c' →
          c'.offsuit = c.offsuit ∧ c'.suited = c.suited
          ∧ c'.paired = insert (singleLabel r1) c.paired)
      ∧ (∀ c c' : Combinations, generate_plus_combinations t c = some c' →
          c'.offsuit = c.offsuit ∧ c'.suited = c.suited) := by
  intro t r1 r2 ht hpc heq hsuf
  have hht : ht = .Paired := by
    rcases t with _ | ⟨c1, t1⟩
    · exact absurd hpc (by simp [parse_cards])
    rcases t1 with _ | ⟨c2, rest⟩
    · exact absurd hpc (by simp [parse_cards])
    unfold parse_cards at hpc
    replace hpc : (match CardRank.from_char c1, CardRank.from_char c2 with
      | some rank1, some rank2 =>
        some (rank1, rank2,
          match rest.head? with
          | some 'o' => HandType.Offsuit
          | some 's' => HandType.Suited
          | _ => if rank1 = rank2 then HandType.Paired else HandType.UnPaired)
      | _, _ => none) = some (r1, r2, ht) := hpc
    rcases h1 : CardRank.from_char c1 with _ | rr1 <;> rw [h1] at hpc
    · simp at hpc
    rcases h2 : CardRank.from_char c2 with _ | rr2 <;> rw [h2] at hpc
    · simp at hpc
    simp only [Option.some.injEq, Prod.mk.injEq] at hpc
    obtain ⟨e1, e2, e3⟩ := hpc
    subst e1
    subst e2
    rcases hh : rest.head? with _ | ch <;> rw [hh] at e3
    · rw [← e3, if_pos heq]
    · obtain ⟨ho, hs2⟩ := hsuf ch hh
      rw [← e3]
      split
      · rename_i h
        exact absurd (by injection h) ho
      · rename_i h
        exact absurd (by injection h) hs2
      · rw [if_pos heq]
  refine ⟨hht, ?_, ?_⟩
  · intro c c' hg
    rw [generate_single_eq t c hpc, hht] at hg
    injection hg with hg
    rw [← hg]
    exact ⟨rfl, rfl, rfl⟩
  · intro c c' hg
    rw [generate_plus_eq t c hpc, hht] at hg
    rcases hl : paired_labels r1 with _ | ls <;> rw [hl] at hg
    · exact absurd hg (by simp)
    · injection hg with hg
      rw [← hg]
      exact ⟨rfl, rfl⟩

/-- Witness for C7 (amended): the theorem applied to the concrete
suffix-free equal-rank token `"KK"`. -/
theorem equal_rank_no_suffix_tokens_are_paired_witness :
    HandType.Paired = HandType.Paired
    ∧ ((⟨∅, ∅, {singleLabel .King}⟩ : Combinations).offsuit = Combinations.new.offsuit
      ∧ (⟨∅, ∅, {singleLabel .King}⟩ : Combinations).suited = Combinations.new.suited
      ∧ (⟨∅, ∅, {singleLabel .King}⟩ : Combinations).paired
          = insert (singleLabel .King) Combinations.new.paired) :=
  ⟨(equal_rank_no_suffix_tokens_are_paired ['K', 'K'] .King .King .Paired rfl rfl
      (fun ch h => absurd h (by simp))).1,
   (equal_rank_no_suffix_tokens_are_paired ['K', 'K'] .King .King .Paired rfl rfl
      (fun ch h => absurd h (by simp))).2.1 Combinations.new ⟨∅, ∅, {singleLabel .King}⟩ rfl⟩

theorem length_filter_range_eq_card (n : Nat) (p : Nat → Bool) :
    ((List.range n).filter p).length = ((Finset.range n).filter (fun i => p i = true)).card := by
  induction n with
  | zero => rfl
  | succ k ih =>
    rw [List.range_succ, List.filter_append, List.length_append, ih,
      Finset.range_succ, Finset.filter_insert]
    by_cases hp : p k = true
    · rw [if_pos hp,
        Finset.card_insert_of_not_mem (fun hmem => by
          have := Finset.mem_range.mp (Finset.mem_of_mem_filter k hmem)
          omega)]
      simp [hp]
    · rw [if_neg hp]
      simp [hp]

theorem count_ones_eq_card_bitsOf (m : Nat) : count_ones m = (bitsOf m).card :=
  length_filter_range_eq_card 16 _

theorem mem_bitsOf {m i : Nat} (hm : m < 2 ^ 16) : i ∈ bitsOf m ↔ m.testBit i = true := by
  unfold bitsOf
  rw [Finset.mem_filter, Finset.mem_range]
  constructor
  · exact fun h => h.2
  · intro h
    refine ⟨?_, h⟩
    by_contra hlt
    rw [Nat.testBit_lt_two_pow (Nat.lt_of_lt_of_le hm (Nat.pow_le_pow_right (by omega)
      (by omega)))] at h
    exact Bool.false_ne_true h

theorem count_ones_mono {a b : Nat} (hb : b < 2 ^ 16)
    (h : ∀ i, a.testBit i = true → b.testBit i = true) : count_ones a ≤ count_ones b := by
  rw [count_ones_eq_card_bitsOf, count_ones_eq_card_bitsOf]
  apply Finset.card_le_card
  intro i hi
  unfold bitsOf at hi ⊢
  rw [Finset.mem_filter] at hi ⊢
  exact ⟨hi.1, h i hi.2⟩

theorem eq_zero_iff_no_bits {m : Nat} : m = 0 ↔ ∀ i, m.testBit i = false := by
  constructor
  · intro h i; rw [h]; exact Nat.zero_testBit i
  · intro h
    exact Nat.eq_of_testBit_eq (fun i => by rw [h i, Nat.zero_testBit])

theorem lt_two_pow_16_of_subset {a b : Nat} (ha : a < 2 ^ 16)
    (h : ∀ i, b.testBit i = true → a.testBit i = true) : b < 2 ^ 16 := by
  apply Nat.lt_pow_two_of_testBit
  intro i hi
  by_contra hbi
  have h2 := h i (by revert hbi; cases b.testBit i <;> simp)
  rw [Nat.testBit_lt_two_pow (Nat.lt_of_lt_of_le ha
    (Nat.pow_le_pow_right (by omega) (by omega)))] at h2
  exact Bool.false_ne_true h2

theorem bitsOf_xor_of_subset {a b : Nat} (ha : a < 2 ^ 16)
    (h : ∀ i, b.testBit i = true → a.testBit i = true) :
    bitsOf (a ^^^ b) = bitsOf a \ bitsOf b := by
  have hb : b < 2 ^ 16 := lt_two_pow_16_of_subset ha h
  have hx : a ^^^ b < 2 ^ 16 := Nat.xor_lt_two_pow ha hb
  ext i
  rw [mem_bitsOf hx, Finset.mem_sdiff, mem_bitsOf ha, mem_bitsOf hb, Nat.testBit_xor]
  rcases hai : a.testBit i <;> rcases hbi : b.testBit i <;> simp_all

theorem count_ones_xor_of_subset {a b : Nat} (ha : a < 2 ^ 16)
    (h : ∀ i, b.testBit i = true → a.testBit i = true) :
    count_ones (a ^^^ b) = count_ones a - count_ones b := by
  rw [count_ones_eq_card_bitsOf, count_ones_eq_card_bitsOf, count_ones_eq_card_bitsOf,
    bitsOf_xor_of_subset ha h]
  apply Finset.card_sdiff
  intro i hi
  have hb : b < 2 ^ 16 := lt_two_pow_16_of_subset ha h
  rw [mem_bitsOf hb] at hi
  rw [mem_bitsOf ha]
  exact h i hi

theorem single_bit_of_count_ones_one {m : Nat} (hm : m < 2 ^ 16) (h : count_ones m = 1) :
    ∃ i < 16, m = 1 <<< i := by
  rw [count_ones_eq_card_bitsOf, Finset.card_eq_one] at h
  obtain ⟨i, hi⟩ := h
  have hiu : i ∈ bitsOf m := hi ▸ Finset.mem_singleton_self i
  have hilt : i < 16 := Finset.mem_range.mp (Finset.mem_filter.mp hiu).1
  refine ⟨i, hilt, ?_⟩
  apply Nat.eq_of_testBit_eq
  intro j
  rw [Nat.shiftLeft_eq, Nat.one_mul, Nat.testBit_two_pow]
  by_cases hj : m.testBit j = true
  · have hmem : j ∈ bitsOf m := (mem_bitsOf hm).mpr hj
    rw [hi, Finset.mem_singleton] at hmem
    subst hmem
    simp [hj]
  · rw [Bool.eq_false_iff.mpr hj]
    by_cases hij : i = j
    · subst hij
      rw [(mem_bitsOf hm).mp hiu] at hj
      exact absurd rfl hj
    · simp [hij]

theorem keep_highest_single_bit : ∀ i < 16, keep_highest (1 <<< i) = 1 <<< i := by decide

theorem keep_highest_of_count_ones_one {m : Nat} (hm : m < 2 ^ 16) (h : count_ones m = 1) :
    keep_highest m = m := by
  obtain ⟨i, hilt, hi⟩ := single_bit_of_count_ones_one hm h
  rw [hi, keep_highest_single_bit i hilt]

theorem keep_n_id_of_le {m k : Nat} (h : count_ones m ≤ k) : keep_n m k = m := by
  unfold keep_n keep_n_go
  rw [if_neg (by omega)]

theorem testBit_one_shift (t i : Nat) : (1 <<< t).testBit i = decide (t = i) := by
  rw [Nat.shiftLeft_eq, Nat.one_mul, Nat.testBit_two_pow]

theorem rank_toNat_lt (r : CardRank) : r.toNat < 13 := by cases r <;> decide

theorem testBit_value_set_aux :
    ∀ (cs : List Card) (acc i : Nat),
      (cs.foldl (fun a c => a ||| (1 <<< c.rank.toNat)) acc).testBit i
        = (acc.testBit i || cs.any (fun c => c.rank.toNat = i)) := by
  intro cs
  induction cs with
  | nil => intro acc i; simp
  | cons c cs' ih =>
    intro acc i
    rw [List.foldl_cons, ih, List.any_cons, Nat.testBit_lor, testBit_one_shift]
    rcases acc.testBit i <;> rcases h : decide (c.rank.toNat = i) <;> simp_all

theorem testBit_value_set (cs : List Card) (i : Nat) :
    (value_set cs).testBit i = cs.any (fun c => c.rank.toNat = i) := by
  unfold value_set
  rw [testBit_value_set_aux, Nat.zero_testBit, Bool.false_or]

theorem testBit_suit_value_set_aux :
    ∀ (cs : List Card) (s : Suit) (acc i : Nat),
      (cs.foldl (fun a c => if c.suit = s then a ||| (1 <<< c.rank.toNat) else a) acc).testBit i
        = (acc.testBit i || cs.any (fun c => c.suit = s && c.rank.toNat = i)) := by
  intro cs
  induction cs with
  | nil => intro s acc i; simp
  | cons c cs' ih =>
    intro s acc i
    rw [List.foldl_cons, List.any_cons]
    by_cases hs : c.suit = s
    · rw [if_pos hs, ih, Nat.testBit_lor, testBit_one_shift]
      rcases acc.testBit i <;> rcases h : decide (c.rank.toNat = i) <;> simp_all
    · rw [if_neg hs, ih, decide_eq_false hs, Bool.false_and, Bool.false_or]

theorem testBit_suit_value_set (cs : List Card) (s : Suit) (i : Nat) :
    (suit_value_set cs s).testBit i = cs.any (fun c => c.suit = s && c.rank.toNat = i) := by
  unfold suit_value_set
  rw [testBit_suit_value_set_aux, Nat.zero_testBit, Bool.false_or]

theorem testBit_count_to_value_aux (P : Nat → Prop) [DecidablePred P] :
    ∀ (l : List Nat) (acc i : Nat),
      ((l.foldl (fun a v => if P v then a ||| (1 <<< v) else a) acc).testBit i)
        = (acc.testBit i || l.any (fun v => decide (P v) && decide (v = i))) := by
  intro l
  induction l with
  | nil => intro acc i; simp
  | cons v l' ih =>
    intro acc i
    rw [List.foldl_cons, List.any_cons]
    by_cases hp : P v
    · rw [if_pos hp, ih, Nat.testBit_lor, testBit_one_shift, decide_eq_true hp]
      rcases acc.testBit i <;> rcases h : decide (v = i) <;> simp_all
    · rw [if_neg hp, ih, decide_eq_false hp, Bool.false_and, Bool.false_or]

theorem testBit_count_to_value (cs : List Card) (k i : Nat) :
    (count_to_value cs k).testBit i
      = (decide (i < 13) && decide (value_count cs i = k)) := by
  unfold count_to_value
  rw [testBit_count_to_value_aux (fun v => value_count cs v = k), Nat.zero_testBit,
    Bool.false_or]
  by_cases hi : i < 13
  · rw [decide_eq_true hi, Bool.true_and]
    by_cases hv : value_count cs i = k
    · rw [decide_eq_true hv]
      rw [List.any_eq_true]
      simp only [Bool.and_eq_true, decide_eq_true_eq]
      exact ⟨i, List.mem_range.mpr hi, hv, rfl⟩
    · rw [decide_eq_false hv, Bool.eq_false_iff]
      intro hany
      rw [List.any_eq_true] at hany
      obtain ⟨v, _, hv2⟩ := hany
      rw [Bool.and_eq_true] at hv2
      have he : v = i := by simpa using hv2.2
      exact hv (he ▸ (by simpa using hv2.1))
  · rw [decide_eq_false hi, Bool.false_and, Bool.eq_false_iff]
    intro hany
    rw [List.any_eq_true] at hany
    obtain ⟨v, hvmem, hv2⟩ := hany
    rw [Bool.and_eq_true] at hv2
    have he : v = i := by simpa using hv2.2
    exact hi (he ▸ List.mem_range.mp hvmem)

theorem value_set_lt (cs : List Card) : value_set cs < 2 ^ 13 := by
  apply Nat.lt_pow_two_of_testBit
  intro i hi
  rw [testBit_value_set, Bool.eq_false_iff]
  intro hany
  rw [List.any_eq_true] at hany
  obtain ⟨c, _, hc⟩ := hany
  have := rank_toNat_lt c.rank
  have he : c.rank.toNat = i := by simpa using hc
  omega

theorem suit_value_set_lt (cs : List Card) (s : Suit) : suit_value_set cs s < 2 ^ 13 := by
  apply Nat.lt_pow_two_of_testBit
  intro i hi
  rw [testBit_suit_value_set, Bool.eq_false_iff]
  intro hany
  rw [List.any_eq_true] at hany
  obtain ⟨c, _, hc⟩ := hany
  rw [Bool.and_eq_true] at hc
  have := rank_toNat_lt c.rank
  have he : c.rank.toNat = i := by simpa using hc.2
  omega

theorem count_to_value_lt (cs : List Card) (k : Nat) : count_to_value cs k < 2 ^ 13 := by
  apply Nat.lt_pow_two_of_testBit
  intro i hi
  rw [testBit_count_to_value, Bool.eq_false_iff]
  intro hc
  rw [Bool.and_eq_true] at hc
  have := of_decide_eq_true hc.1
  omega

theorem value_count_cons (c : Card) (cs : List Card) (v : Nat) :
    value_count (c :: cs) v = value_count cs v + (if c.rank.toNat = v then 1 else 0) := by
  unfold value_count
  rw [List.filter_cons]
  by_cases h : c.rank.toNat = v
  · rw [if_pos (by simpa using h), if_pos h, List.length_cons]
  · rw [if_neg (by simpa using h), if_neg h, Nat.add_zero]

theorem sum_value_count (cs : List Card) :
    ∑ v in Finset.range 13, value_count cs v = cs.length := by
  induction cs with
  | nil => simp [value_count]
  | cons c cs' ih =>
    have hstep : ∀ v ∈ Finset.range 13,
        value_count (c :: cs') v = value_count cs' v + (if c.rank.toNat = v then 1 else 0) :=
      fun v _ => value_count_cons c cs' v
    rw [Finset.sum_congr rfl hstep, Finset.sum_add_distrib, ih]
    have hone : ∑ v in Finset.range 13, (if c.rank.toNat = v then 1 else 0) = 1 := by
      rw [Finset.sum_ite_eq (Finset.range 13) c.rank.toNat (fun _ => 1),
        if_pos (Finset.mem_range.mpr (rank_toNat_lt c.rank))]
    rw [hone, List.length_cons]

theorem value_count_pos_iff (cs : List Card) (v : Nat) :
    0 < value_count cs v ↔ cs.any (fun c => c.rank.toNat = v) = true := by
  unfold value_count
  rw [List.any_eq_true, List.length_pos]
  constructor
  · intro h
    rcases hl : cs.filter (fun c => decide (c.rank.toNat = v)) with _ | ⟨c, l⟩
    · exact absurd hl h
    · have : c ∈ cs.filter (fun c => decide (c.rank.toNat = v)) := by rw [hl]; simp
      rw [List.mem_filter] at this
      exact ⟨c, this.1, this.2⟩
  · intro ⟨c, hmem, hc⟩ hnil
    have : c ∈ cs.filter (fun c => decide (c.rank.toNat = v)) := List.mem_filter.mpr ⟨hmem, hc⟩
    rw [hnil] at this
    exact absurd this (List.not_mem_nil c)

theorem toNat_inj : ∀ r1 r2 : CardRank, r1.toNat = r2.toNat → r1 = r2 := by decide

theorem card_ext {c1 c2 : Card} (hs : c1.suit = c2.suit) (hr : c1.rank = c2.rank) : c1 = c2 := by
  cases c1; cases c2; simp_all

theorem value_count_le_four {cs : List Card} (h : cs.Nodup) (v : Nat) : value_count cs v ≤ 4 := by
  unfold value_count
  have hnd : (cs.filter (fun c => decide (c.rank.toNat = v))).Nodup := h.filter _
  have hmap : ((cs.filter (fun c => decide (c.rank.toNat = v))).map Card.suit).Nodup := by
    apply List.Nodup.map_on ?_ hnd
    intro x hx y hy hxy
    rw [List.mem_filter] at hx hy
    apply card_ext hxy
    exact toNat_inj _ _ ((of_decide_eq_true hx.2).trans (of_decide_eq_true hy.2).symm)
  have hlen := hmap.length_le_card
  rw [List.length_map] at hlen
  simpa using hlen

theorem sum_ge_card {S : Finset ℕ} {f : ℕ → ℕ} (h1 : ∀ v ∈ S, 1 ≤ f v) :
    S.card ≤ ∑ v in S, f v := by
  calc S.card = ∑ _v in S, 1 := by rw [Finset.card_eq_sum_ones]
  _ ≤ ∑ v in S, f v := Finset.sum_le_sum h1

theorem sum_ge_one_plus {S : Finset ℕ} {f : ℕ → ℕ} (h1 : ∀ v ∈ S, 1 ≤ f v) {v0 : ℕ}
    (hv0 : v0 ∈ S) : f v0 + (S.card - 1) ≤ ∑ v in S, f v := by
  rw [← Finset.add_sum_erase S f hv0]
  have h2 : (S.erase v0).card ≤ ∑ v in S.erase v0, f v :=
    sum_ge_card (fun v hv => h1 v (Finset.mem_of_mem_erase hv))
  have h3 : (S.erase v0).card = S.card - 1 := Finset.card_erase_of_mem hv0
  omega

theorem sum_ge_two_plus {S : Finset ℕ} {f : ℕ → ℕ} (h1 : ∀ v ∈ S, 1 ≤ f v) {v0 v1 : ℕ}
    (hv0 : v0 ∈ S) (hv1 : v1 ∈ S) (hne : v0 ≠ v1) :
    f v0 + f v1 + (S.card - 2) ≤ ∑ v in S, f v := by
  rw [← Finset.add_sum_erase S f hv0]
  have hv1' : v1 ∈ S.erase v0 := Finset.mem_erase.mpr ⟨hne.symm, hv1⟩
  have h2 := sum_ge_one_plus (fun v hv => h1 v (Finset.mem_of_mem_erase hv)) hv1'
  have h3 : (S.erase v0).card = S.card - 1 := Finset.card_erase_of_mem hv0
  omega

theorem bitsOf_value_set (cs : List Card) :
    bitsOf (value_set cs) = (Finset.range 13).filter (fun v => 0 < value_count cs v) := by
  have hlt : value_set cs < 2 ^ 16 :=
    Nat.lt_of_lt_of_le (value_set_lt cs) (Nat.pow_le_pow_right (by omega) (by omega))
  ext i
  rw [mem_bitsOf hlt, Finset.mem_filter, Finset.mem_range, testBit_value_set,
    ← value_count_pos_iff]
  constructor
  · intro h
    refine ⟨?_, h⟩
    rw [value_count_pos_iff, List.any_eq_true] at h
    obtain ⟨c, _, hc⟩ := h
    have := rank_toNat_lt c.rank
    have he : c.rank.toNat = i := by simpa using hc
    omega
  · exact fun h => h.2

theorem count_ones_value_set (cs : List Card) :
    count_ones (value_set cs)
      = ((Finset.range 13).filter (fun v => 0 < value_count cs v)).card := by
  rw [count_ones_eq_card_bitsOf, bitsOf_value_set]

theorem sum_value_count_filter (cs : List Card) :
    ∑ v in (Finset.range 13).filter (fun v => 0 < value_count cs v), value_count cs v
      = cs.length := by
  rw [← sum_value_count cs]
  apply Finset.sum_filter_of_ne
  intro v _ hv
  omega

theorem value_count_ge_13 (cs : List Card) {v : Nat} (hv : 13 ≤ v) : value_count cs v = 0 := by
  unfold value_count
  rw [List.length_eq_zero, List.filter_eq_nil]
  intro c _
  have := rank_toNat_lt c.rank
  simp only [decide_eq_true_eq]
  omega

theorem ctv_eq_zero_iff (cs : List Card) (k : Nat) :
    count_to_value cs k = 0 ↔ ∀ v < 13, value_count cs v ≠ k := by
  rw [eq_zero_iff_no_bits]
  constructor
  · intro h v hv hk
    have h2 := h v
    rw [testBit_count_to_value, decide_eq_true hv, decide_eq_true hk] at h2
    simp at h2
  · intro h i
    rw [testBit_count_to_value]
    by_cases hi : i < 13
    · rw [decide_eq_false (h i hi)]
      simp
    · rw [decide_eq_false hi]
      simp

theorem ctv_ne_zero_iff (cs : List Card) (k : Nat) :
    count_to_value cs k ≠ 0 ↔ ∃ v, v < 13 ∧ value_count cs v = k := by
  rw [Ne, ctv_eq_zero_iff]
  push_neg
  constructor
  · intro ⟨v, hv, hk⟩
    exact ⟨v, hv, hk⟩
  · intro ⟨v, hv, hk⟩
    exact ⟨v, hv, hk⟩

theorem bitsOf_ctv (cs : List Card) (k : Nat) :
    bitsOf (count_to_value cs k)
      = (Finset.range 13).filter (fun v => value_count cs v = k) := by
  have hlt : count_to_value cs k < 2 ^ 16 :=
    Nat.lt_of_lt_of_le (count_to_value_lt cs k) (Nat.pow_le_pow_right (by omega) (by omega))
  ext i
  rw [mem_bitsOf hlt, Finset.mem_filter, Finset.mem_range, testBit_count_to_value]
  constructor
  · intro h
    rw [Bool.and_eq_true] at h
    exact ⟨of_decide_eq_true h.1, of_decide_eq_true h.2⟩
  · intro ⟨h1, h2⟩
    rw [decide_eq_true h1, decide_eq_true h2]
    rfl

theorem count_ones_ctv (cs : List Card) (k : Nat) :
    count_ones (count_to_value cs k)
      = ((Finset.range 13).filter (fun v => value_count cs v = k)).card := by
  rw [count_ones_eq_card_bitsOf, bitsOf_ctv]

theorem ctv_subset_vs (cs : List Card) {k : Nat} (hk : 1 ≤ k) :
    ∀ i, (count_to_value cs k).testBit i = true → (value_set cs).testBit i = true := by
  intro i h
  rw [testBit_count_to_value, Bool.and_eq_true] at h
  rw [testBit_value_set, ← value_count_pos_iff]
  have := of_decide_eq_true h.2
  omega

theorem suit_subset_vs (cs : List Card) (s : Suit) :
    ∀ i, (suit_value_set cs s).testBit i = true → (value_set cs).testBit i = true := by
  intro i h
  rw [testBit_suit_value_set, List.any_eq_true] at h
  rw [testBit_value_set, List.any_eq_true]
  obtain ⟨c, hc, hcc⟩ := h
  rw [Bool.and_eq_true] at hcc
  exact ⟨c, hc, hcc.2⟩

theorem vs_lt_16 (cs : List Card) : value_set cs < 2 ^ 16 :=
  Nat.lt_of_lt_of_le (value_set_lt cs) (Nat.pow_le_pow_right (by omega) (by omega))

theorem count_ones_suit_le (cs : List Card) (s : Suit) :
    count_ones (suit_value_set cs s) ≤ count_ones (value_set cs) :=
  count_ones_mono (vs_lt_16 cs) (suit_subset_vs cs s)

theorem mask_eq_of_subset_of_count {a b : Nat} (hb : b < 2 ^ 16)
    (hsub : ∀ i, a.testBit i = true → b.testBit i = true)
    (hcnt : count_ones b ≤ count_ones a) : a = b := by
  have ha := lt_two_pow_16_of_subset hb hsub
  have hset : bitsOf a = bitsOf b := by
    apply Finset.eq_of_subset_of_card_le
    · intro i hi
      rw [mem_bitsOf ha] at hi
      rw [mem_bitsOf hb]
      exact hsub i hi
    · rw [← count_ones_eq_card_bitsOf, ← count_ones_eq_card_bitsOf]
      exact hcnt
  apply Nat.eq_of_testBit_eq
  intro i
  by_cases hi : i < 16
  · rcases hai : a.testBit i
    · rcases hbi : b.testBit i
      · rfl
      · have h2 := (mem_bitsOf ha).mp (hset ▸ (mem_bitsOf hb).mpr hbi)
        rw [hai] at h2
        exact absurd h2 (by simp)
    · have h2 := (mem_bitsOf hb).mp (hset ▸ (mem_bitsOf ha).mpr hai)
      rw [h2]
  · rw [Nat.testBit_lt_two_pow (Nat.lt_of_lt_of_le ha
        (Nat.pow_le_pow_right (by omega) (by omega))),
      Nat.testBit_lt_two_pow (Nat.lt_of_lt_of_le hb
        (Nat.pow_le_pow_right (by omega) (by omega)))]

theorem suit_value_sets_mem (cs : List Card) {m : Nat} (h : m ∈ suit_value_sets cs) :
    ∃ s : Suit, m = suit_value_set cs s := by
  unfold suit_value_sets at h
  rw [List.mem_map] at h
  obtain ⟨s, _, hs⟩ := h
  exact ⟨s, hs.symm⟩

theorem find_flush_none_of_all (cs : List Card)
    (h : ∀ s : Suit, count_ones (suit_value_set cs s) < 5) :
    find_flush (suit_value_sets cs) = none := by
  unfold find_flush
  rw [List.findIdx?_eq_none_iff]
  intro m hm
  obtain ⟨s, hs⟩ := suit_value_sets_mem cs hm
  subst hs
  exact decide_eq_false (by have := h s; omega)

theorem find_flush_some_spec (cs : List Card) {i : Nat}
    (h : find_flush (suit_value_sets cs) = some i) :
    i < 4 ∧ ∃ s : Suit, (suit_value_sets cs).getD i 0 = suit_value_set cs s
      ∧ 5 ≤ count_ones (suit_value_set cs s) := by
  unfold find_flush at h
  rw [List.findIdx?_eq_some_iff_getElem] at h
  obtain ⟨hlen, hp, _⟩ := h
  have hlen4 : i < 4 := by
    have : (suit_value_sets cs).length = 4 := by
      unfold suit_value_sets
      rw [List.length_map]
      rfl
    omega
  refine ⟨hlen4, ?_⟩
  have hget : (suit_value_sets cs).getD i 0 = (suit_value_sets cs).get ⟨i, hlen⟩ := by
    rw [List.getD_eq_getElem?_getD, List.getElem?_eq_getElem hlen]
    rfl
  have hmem : (suit_value_sets cs).get ⟨i, hlen⟩ ∈ suit_value_sets cs :=
    List.get_mem (suit_value_sets cs) i hlen
  obtain ⟨s, hs⟩ := suit_value_sets_mem cs hmem
  refine ⟨s, by rw [hget, hs], ?_⟩
  rw [← hs]
  have : (suit_value_sets cs).get ⟨i, hlen⟩ = (suit_value_sets cs)[i] := rfl
  rw [this]
  exact of_decide_eq_true hp

theorem count_ones_zero : count_ones 0 = 0 := rfl

theorem suit_mem (cs : List Card) (s : Suit) :
    suit_value_set cs s ∈ suit_value_sets cs := by
  unfold suit_value_sets
  rw [List.mem_map]
  exact ⟨s, by cases s <;> simp⟩

theorem rank_eq_rank_five_u5 {cs : List Card} (hlen : cs.length = 5) (hnd : cs.Nodup)
    (hu : count_ones (value_set cs) = 5) : rank cs = rank_five cs := by
  have hS := count_ones_value_set cs
  have hsum := sum_value_count_filter cs
  rw [hlen] at hsum
  have hf1 : ∀ v ∈ (Finset.range 13).filter (fun v => 0 < value_count cs v),
      1 ≤ value_count cs v := by
    intro v hv
    have := (Finset.mem_filter.mp hv).2
    omega
  have hcnt1 : ∀ v, value_count cs v ≤ 1 := by
    intro v
    by_cases hv : v ∈ (Finset.range 13).filter (fun v => 0 < value_count cs v)
    · have := sum_ge_one_plus hf1 hv
      rw [hsum, ← hS, hu] at this
      omega
    · by_cases h13 : v < 13
      · have : ¬0 < value_count cs v := by
          intro hpos
          exact hv (Finset.mem_filter.mpr ⟨Finset.mem_range.mpr h13, hpos⟩)
        omega
      · rw [value_count_ge_13 cs (by omega)]
        omega
  have hctv2 : count_to_value cs 2 = 0 :=
    (ctv_eq_zero_iff _ _).mpr (fun v _ hk => by have := hcnt1 v; omega)
  have hctv3 : count_to_value cs 3 = 0 :=
    (ctv_eq_zero_iff _ _).mpr (fun v _ hk => by have := hcnt1 v; omega)
  have hctv4 : count_to_value cs 4 = 0 :=
    (ctv_eq_zero_iff _ _).mpr (fun v _ hk => by have := hcnt1 v; omega)
  rcases hff : find_flush (suit_value_sets cs) with _ | idx
  · have hnoflush : ∀ s : Suit, count_ones (suit_value_set cs s) ≠ 5 := by
      unfold find_flush at hff
      rw [List.findIdx?_eq_none_iff] at hff
      intro s h5
      have h2 := hff (suit_value_set cs s) (suit_mem cs s)
      rw [h5] at h2
      simp at h2
    have hisflush : ((suit_value_sets cs).any fun sv => count_ones sv = 5) = false := by
      rw [Bool.eq_false_iff]
      intro hany
      rw [List.any_eq_true] at hany
      obtain ⟨m, hm, hm5⟩ := hany
      obtain ⟨s, rfl⟩ := suit_value_sets_mem cs hm
      exact hnoflush s (of_decide_eq_true hm5)
    rcases hst : rank_straight (value_set cs) with _ | r
    · simp only [rank, rank_five, hff, hu, hisflush, hctv2, hctv3, hctv4, hst]
      simp [keep_n_id_of_le (le_of_eq hu), count_ones_zero]
    · simp only [rank, rank_five, hff, hu, hisflush, hctv2, hctv3, hctv4, hst]
      simp
  · obtain ⟨hidx4, s, hgetd, hge5⟩ := find_flush_some_spec cs hff
    have hle : count_ones (suit_value_set cs s) ≤ 5 := hu ▸ count_ones_suit_le cs s
    have heq5 : count_ones (suit_value_set cs s) = 5 := by omega
    have hmask : suit_value_set cs s = value_set cs :=
      mask_eq_of_subset_of_count (vs_lt_16 cs) (suit_subset_vs cs s) (by omega)
    have hisflush : ((suit_value_sets cs).any fun sv => count_ones sv = 5) = true := by
      rw [List.any_eq_true]
      exact ⟨suit_value_set cs s, suit_mem cs s, decide_eq_true heq5⟩
    rcases hst : rank_straight (value_set cs) with _ | r
    · simp only [rank, rank_five, hff, hu, hisflush, hgetd, hmask, hst]
      simp [keep_n_id_of_le (le_of_eq hu)]
    · simp only [rank, rank_five, hff, hu, hisflush, hgetd, hmask, hst]

theorem count_ones_eq_zero_iff {m : Nat} (hm : m < 2 ^ 16) : count_ones m = 0 ↔ m = 0 := by
  rw [count_ones_eq_card_bitsOf, Finset.card_eq_zero, eq_zero_iff_no_bits]
  constructor
  · intro h i
    by_contra hb
    have hmem : i ∈ bitsOf m := (mem_bitsOf hm).mpr (by revert hb; cases m.testBit i <;> simp)
    rw [h] at hmem
    exact absurd hmem (Finset.not_mem_empty i)
  · intro h
    ext i
    rw [mem_bitsOf hm, h i]
    simp

theorem ctv_lt16 (cs : List Card) (k : Nat) : count_to_value cs k < 2 ^ 16 :=
  Nat.lt_of_lt_of_le (count_to_value_lt cs k) (Nat.pow_le_pow_right (by omega) (by omega))

theorem testBit_vs_count (cs : List Card) (i : Nat) :
    (value_set cs).testBit i = decide (0 < value_count cs i) := by
  rw [testBit_value_set]
  by_cases h : 0 < value_count cs i
  · rw [decide_eq_true h, (value_count_pos_iff cs i).mp h]
  · rw [decide_eq_false h]
    rcases hb : cs.any (fun c => c.rank.toNat = i)
    · rfl
    · exact absurd ((value_count_pos_iff cs i).mpr hb) h

theorem rank_straight_none_of_few {m : Nat} (hm : m < 2 ^ 13) (hc : count_ones m < 5) :
    rank_straight m = none := by
  have h8 : (2 : ℕ) ^ 13 = 8192 := by norm_num
  rw [h8] at hm
  exact (straightCheck_sound (straightCheck_all m hm)).2.2.2 hc

theorem no_value_with_count {cs : List Card} {k : Nat}
    (h : count_ones (count_to_value cs k) = 0) : ∀ v < 13, value_count cs v ≠ k := by
  rw [count_ones_ctv, Finset.card_eq_zero] at h
  intro v hv hk
  have hmem : v ∈ (Finset.range 13).filter (fun v => value_count cs v = k) :=
    Finset.mem_filter.mpr ⟨Finset.mem_range.mpr hv, hk⟩
  rw [h] at hmem
  exact absurd hmem (Finset.not_mem_empty v)

theorem sum_filter_eq_card_mul (cs : List Card) (k : ℕ) :
    ∑ v in (Finset.range 13).filter (fun v => value_count cs v = k), value_count cs v
      = k * ((Finset.range 13).filter (fun v => value_count cs v = k)).card := by
  have h1 : ∑ v in (Finset.range 13).filter (fun v => value_count cs v = k), value_count cs v
      = ∑ _v in (Finset.range 13).filter (fun v => value_count cs v = k), k :=
    Finset.sum_congr rfl (fun v hv => (Finset.mem_filter.mp hv).2)
  rw [h1, Finset.sum_const, smul_eq_mul, Nat.mul_comm]

theorem ctv_profile {cs : List Card} (hnd : cs.Nodup) :
    (count_ones (count_to_value cs 1) + count_ones (count_to_value cs 2)
        + count_ones (count_to_value cs 3) + count_ones (count_to_value cs 4)
      = count_ones (value_set cs))
    ∧ (count_ones (count_to_value cs 1) + 2 * count_ones (count_to_value cs 2)
        + 3 * count_ones (count_to_value cs 3) + 4 * count_ones (count_to_value cs 4)
      = cs.length) := by
  have hmap : ∀ v ∈ (Finset.range 13).filter (fun v => 0 < value_count cs v),
      value_count cs v ∈ Finset.range 5 := by
    intro v _
    have := value_count_le_four hnd v
    exact Finset.mem_range.mpr (by omega)
  have hfib1 := Finset.sum_fiberwise_of_maps_to hmap (fun _ => (1 : ℕ))
  have hfib2 := Finset.sum_fiberwise_of_maps_to hmap (value_count cs)
  have hSfil : ∀ k : ℕ, 1 ≤ k →
      ((Finset.range 13).filter (fun v => 0 < value_count cs v)).filter
          (fun v => value_count cs v = k)
        = (Finset.range 13).filter (fun v => value_count cs v = k) := by
    intro k hk
    ext v
    simp only [Finset.mem_filter, Finset.mem_range]
    omega
  have hS0 : ((Finset.range 13).filter (fun v => 0 < value_count cs v)).filter
      (fun v => value_count cs v = 0) = (∅ : Finset ℕ) := by
    ext v
    simp only [Finset.mem_filter, Finset.mem_range, Finset.not_mem_empty, iff_false]
    omega
  rw [Finset.sum_range_succ, Finset.sum_range_succ, Finset.sum_range_succ,
    Finset.sum_range_succ, Finset.sum_range_one] at hfib1 hfib2
  rw [hSfil 1 (by omega), hSfil 2 (by omega), hSfil 3 (by omega), hSfil 4 (by omega), hS0]
    at hfib1 hfib2
  simp only [Finset.sum_const, smul_eq_mul, mul_one, Finset.sum_empty, Finset.card_empty] at hfib1
  rw [sum_filter_eq_card_mul cs 1, sum_filter_eq_card_mul cs 2, sum_filter_eq_card_mul cs 3,
    sum_filter_eq_card_mul cs 4, Finset.sum_empty, sum_value_count_filter] at hfib2
  constructor
  · rw [count_ones_ctv, count_ones_ctv, count_ones_ctv, count_ones_ctv, count_ones_value_set]
    omega
  · rw [count_ones_ctv, count_ones_ctv, count_ones_ctv, count_ones_ctv]
    omega

theorem xor_ctv3_eq_ctv2 {cs : List Card}
    (h : ∀ v < 13, value_count cs v = 0 ∨ value_count cs v = 2 ∨ value_count cs v = 3) :
    value_set cs ^^^ count_to_value cs 3 = count_to_value cs 2 := by
  apply Nat.eq_of_testBit_eq
  intro i
  rw [Nat.testBit_xor, testBit_vs_count, testBit_count_to_value, testBit_count_to_value]
  by_cases hi : i < 13
  · rcases h i hi with h0 | h2 | h3
    · rw [h0]
      simp
    · rw [h2]
      simp [hi]
    · rw [h3]
      simp [hi]
  · rw [value_count_ge_13 cs (by omega)]
    simp [hi]

theorem rank_eq_rank_five_u4 {cs : List Card} (hlen : cs.length = 5) (hnd : cs.Nodup)
    (hu : count_ones (value_set cs) = 4) : rank cs = rank_five cs := by
  obtain ⟨hp1, hp2⟩ := ctv_profile hnd
  rw [hlen] at hp2
  rw [hu] at hp1
  have hn2 : count_ones (count_to_value cs 2) = 1 := by omega
  have hn3 : count_ones (count_to_value cs 3) = 0 := by omega
  have hn4 : count_ones (count_to_value cs 4) = 0 := by omega
  have hctv3 : count_to_value cs 3 = 0 := (count_ones_eq_zero_iff (ctv_lt16 cs 3)).mp hn3
  have hctv4 : count_to_value cs 4 = 0 := (count_ones_eq_zero_iff (ctv_lt16 cs 4)).mp hn4
  have hctv2ne : count_to_value cs 2 ≠ 0 := by
    intro h
    rw [h, count_ones_zero] at hn2
    omega
  have hff : find_flush (suit_value_sets cs) = none := by
    apply find_flush_none_of_all
    intro s
    have := count_ones_suit_le cs s
    omega
  have hst : rank_straight (value_set cs) = none :=
    rank_straight_none_of_few (value_set_lt cs) (by omega)
  have hxor : count_ones (value_set cs ^^^ count_to_value cs 2) = 3 := by
    rw [count_ones_xor_of_subset (vs_lt_16 cs) (ctv_subset_vs cs (by omega))]
    omega
  simp only [rank, rank_five, hff, hu, hctv3, hctv4, hst, hn2,
    keep_n_id_of_le (le_of_eq hxor)]
  simp [hctv2ne]

theorem rank_eq_rank_five_u3 {cs : List Card} (hlen : cs.length = 5) (hnd : cs.Nodup)
    (hu : count_ones (value_set cs) = 3) : rank cs = rank_five cs := by
  obtain ⟨hp1, hp2⟩ := ctv_profile hnd
  rw [hlen] at hp2
  rw [hu] at hp1
  have hff : find_flush (suit_value_sets cs) = none := by
    apply find_flush_none_of_all
    intro s
    have := count_ones_suit_le cs s
    omega
  have hst : rank_straight (value_set cs) = none :=
    rank_straight_none_of_few (value_set_lt cs) (by omega)
  by_cases hc3 : count_to_value cs 3 = 0
  · have hn3 : count_ones (count_to_value cs 3) = 0 := by rw [hc3, count_ones_zero]
    have hn2 : count_ones (count_to_value cs 2) = 2 := by omega
    have hn4 : count_ones (count_to_value cs 4) = 0 := by omega
    have hctv4 : count_to_value cs 4 = 0 := (count_ones_eq_zero_iff (ctv_lt16 cs 4)).mp hn4
    have hxor : count_ones (value_set cs ^^^ count_to_value cs 2) = 1 := by
      rw [count_ones_xor_of_subset (vs_lt_16 cs) (ctv_subset_vs cs (by omega))]
      omega
    have hkh : keep_highest (value_set cs ^^^ count_to_value cs 2)
        = value_set cs ^^^ count_to_value cs 2 :=
      keep_highest_of_count_ones_one
        (Nat.xor_lt_two_pow (vs_lt_16 cs) (ctv_lt16 cs 2)) hxor
    simp only [rank, rank_five, hff, hu, hc3, hctv4, hst, hn2,
      keep_n_id_of_le (le_of_eq hn2), hkh]
    simp
  · have hn3pos : count_ones (count_to_value cs 3) ≠ 0 := by
      intro h
      exact hc3 ((count_ones_eq_zero_iff (ctv_lt16 cs 3)).mp h)
    have hn3 : count_ones (count_to_value cs 3) = 1 := by omega
    have hn2 : count_ones (count_to_value cs 2) = 0 := by omega
    have hn4 : count_ones (count_to_value cs 4) = 0 := by omega
    have hctv2 : count_to_value cs 2 = 0 := (count_ones_eq_zero_iff (ctv_lt16 cs 2)).mp hn2
    have hctv4 : count_to_value cs 4 = 0 := (count_ones_eq_zero_iff (ctv_lt16 cs 4)).mp hn4
    have hxor : count_ones (value_set cs ^^^ count_to_value cs 3) = 2 := by
      rw [count_ones_xor_of_subset (vs_lt_16 cs) (ctv_subset_vs cs (by omega))]
      omega
    simp only [rank, rank_five, hff, hu, hctv2, hctv4, hst, hn3,
      keep_n_id_of_le (le_of_eq hxor)]
    simp [hc3]

theorem rank_eq_rank_five_u2 {cs : List Card} (hlen : cs.length = 5) (hnd : cs.Nodup)
    (hu : count_ones (value_set cs) = 2) : rank cs = rank_five cs := by
  obtain ⟨hp1, hp2⟩ := ctv_profile hnd
  rw [hlen] at hp2
  rw [hu] at hp1
  have hff : find_flush (suit_value_sets cs) = none := by
    apply find_flush_none_of_all
    intro s
    have := count_ones_suit_le cs s
    omega
  by_cases hc3 : count_to_value cs 3 = 0
  · have hn3 : count_ones (count_to_value cs 3) = 0 := by rw [hc3, count_ones_zero]
    have hn4 : count_ones (count_to_value cs 4) = 1 := by omega
    have hn2 : count_ones (count_to_value cs 2) = 0 := by omega
    have hctv2 : count_to_value cs 2 = 0 := (count_ones_eq_zero_iff (ctv_lt16 cs 2)).mp hn2
    have hctv4ne : count_to_value cs 4 ≠ 0 := by
      intro h
      rw [h, count_ones_zero] at hn4
      omega
    have hxor : count_ones (value_set cs ^^^ count_to_value cs 4) = 1 := by
      rw [count_ones_xor_of_subset (vs_lt_16 cs) (ctv_subset_vs cs (by omega))]
      omega
    have hkh : keep_highest (value_set cs ^^^ count_to_value cs 4)
        = value_set cs ^^^ count_to_value cs 4 :=
      keep_highest_of_count_ones_one
        (Nat.xor_lt_two_pow (vs_lt_16 cs) (ctv_lt16 cs 4)) hxor
    simp only [rank, rank_five, hff, hu, hc3, hkh]
    simp [hctv4ne]
  · have hn3pos : count_ones (count_to_value cs 3) ≠ 0 := by
      intro h
      exact hc3 ((count_ones_eq_zero_iff (ctv_lt16 cs 3)).mp h)
    have hn3 : count_ones (count_to_value cs 3) = 1 := by omega
    have hn2 : count_ones (count_to_value cs 2) = 1 := by omega
    have hn1 : count_ones (count_to_value cs 1) = 0 := by omega
    have hn4 : count_ones (count_to_value cs 4) = 0 := by omega
    have hctv2ne : count_to_value cs 2 ≠ 0 := by
      intro h
      rw [h, count_ones_zero] at hn2
      omega
    have hctv4 : count_to_value cs 4 = 0 := (count_ones_eq_zero_iff (ctv_lt16 cs 4)).mp hn4
    have h1 := no_value_with_count hn1
    have h4 := no_value_with_count hn4
    have hfree : ∀ v < 13,
        value_count cs v = 0 ∨ value_count cs v = 2 ∨ value_count cs v = 3 := by
      intro v hv
      have := value_count_le_four hnd v
      have := h1 v hv
      have := h4 v hv
      omega
    have hmask : value_set cs ^^^ count_to_value cs 3 = count_to_value cs 2 :=
      xor_ctv3_eq_ctv2 hfree
    have hkh : keep_highest (count_to_value cs 2) = count_to_value cs 2 :=
      keep_highest_of_count_ones_one (ctv_lt16 cs 2) hn2
    simp only [rank, rank_five, hff, hu, hctv4, hn3, hkh, hmask]
    simp [hc3, hctv2ne]

/-- C10: for every hand of exactly 5 distinct cards, the general entry
point `rank` returns a hand rank equal — in both category tag and
tie-break payload — to the fast path `rank_five` applied to the same
cards. -/
theorem rank_agrees_with_rank_five_on_five_cards (cs : List Card)
    (hlen : cs.length = 5) (hnd : cs.Nodup) : rank cs = rank_five cs := by
  obtain ⟨hp1, hp2⟩ := ctv_profile hnd
  rw [hlen] at hp2
  have hcases : count_ones (value_set cs) = 2 ∨ count_ones (value_set cs) = 3
      ∨ count_ones (value_set cs) = 4 ∨ count_ones (value_set cs) = 5 := by omega
  rcases hcases with hu | hu | hu | hu
  · exact rank_eq_rank_five_u2 hlen hnd hu
  · exact rank_eq_rank_five_u3 hlen hnd hu
  · exact rank_eq_rank_five_u4 hlen hnd hu
  · exact rank_eq_rank_five_u5 hlen hnd hu

/-- Witness for C10: the agreement applied to the concrete one-pair hand
[A♦,A♣,9♦,8♣,T♠]. -/
theorem rank_agrees_with_rank_five_on_five_cards_witness :
    ([⟨.Diamond, .Ace⟩, ⟨.Club, .Ace⟩, ⟨.Diamond, .Nine⟩, ⟨.Club, .Eight⟩,
        ⟨.Spade, .Ten⟩] : List Card).length = 5
    ∧ ([⟨.Diamond, .Ace⟩, ⟨.Club, .Ace⟩, ⟨.Diamond, .Nine⟩, ⟨.Club, .Eight⟩,
        ⟨.Spade, .Ten⟩] : List Card).Nodup
    ∧ rank [⟨.Diamond, .Ace⟩, ⟨.Club, .Ace⟩, ⟨.Diamond, .Nine⟩, ⟨.Club, .Eight⟩,
        ⟨.Spade, .Ten⟩]
      = rank_five [⟨.Diamond, .Ace⟩, ⟨.Club, .Ace⟩, ⟨.Diamond, .Nine⟩, ⟨.Club, .Eight⟩,
        ⟨.Spade, .Ten⟩] :=
  ⟨by decide, by decide,
    rank_agrees_with_rank_five_on_five_cards _ (by decide) (by decide)⟩

theorem and_pred_spec : ∀ m : Nat, m ≠ 0 →
    ∃ t, m.testBit t = true ∧ (∀ i, i < t → m.testBit i = false)
      ∧ ∀ i, (m &&& (m - 1)).testBit i = (m.testBit i && decide (i ≠ t)) := by
  intro m
  induction m using Nat.strong_induction_on with
  | _ m ih =>
    intro hm
    rcases Nat.even_or_odd m with he | ho
    · obtain ⟨q, hq⟩ := he
      have hq2 : m = 2 * q := by omega
      have hqne : q ≠ 0 := by omega
      obtain ⟨t, p1, p2, p3⟩ := ih q (by omega) hqne
      have hdiv : m / 2 = q := by omega
      have hpred : (m - 1) / 2 = q - 1 := by omega
      have hbit : ∀ i, m.testBit (i + 1) = q.testBit i := by
        intro i
        rw [Nat.testBit_succ, hdiv]
      have hbit0 : m.testBit 0 = false := by
        rw [Nat.testBit_zero]
        apply decide_eq_false
        omega
      refine ⟨t + 1, by rw [hbit]; exact p1, ?_, ?_⟩
      · intro i hi
        rcases i with _ | i
        · exact hbit0
        · rw [hbit]
          exact p2 i (by omega)
      · intro i
        rcases i with _ | i
        · rw [Nat.testBit_and, hbit0]
          simp
        · have he1 : (m &&& (m - 1)).testBit (i + 1) = (q &&& (q - 1)).testBit i := by
            rw [Nat.testBit_and, Nat.testBit_and, Nat.testBit_succ, Nat.testBit_succ,
              hdiv, hpred]
          rw [he1, p3 i, hbit i]
          congr 1
          exact decide_eq_decide.mpr (by omega)
    · obtain ⟨q, hq⟩ := ho
      have hdiv : m / 2 = q := by omega
      have hpred : (m - 1) / 2 = q := by omega
      refine ⟨0, ?_, by omega, ?_⟩
      · rw [Nat.testBit_zero]
        apply decide_eq_true
        omega
      · intro i
        rcases i with _ | i
        · rw [Nat.testBit_and]
          have h0 : (m - 1).testBit 0 = false := by
            rw [Nat.testBit_zero]
            apply decide_eq_false
            omega
          rw [h0]
          simp
        · rw [Nat.testBit_and, Nat.testBit_succ, Nat.testBit_succ, hdiv, hpred]
          rw [Bool.and_self]
          rw [show (decide (i + 1 ≠ 0)) = true from decide_eq_true (by omega)]
          rw [Bool.and_true]

theorem count_ones_le_16 (m : Nat) : count_ones m ≤ 16 := by
  unfold count_ones
  have h := List.length_filter_le (fun i => m.testBit i) (List.range 16)
  simpa using h

theorem and_pred_facts {m : Nat} (hm : m < 2 ^ 16) (hne : m ≠ 0) :
    ∃ t, m.testBit t = true ∧ (∀ i, i < t → m.testBit i = false)
      ∧ (∀ i, (m &&& (m - 1)).testBit i = (m.testBit i && decide (i ≠ t)))
      ∧ count_ones (m &&& (m - 1)) = count_ones m - 1 := by
  obtain ⟨t, p1, p2, p3⟩ := and_pred_spec m hne
  refine ⟨t, p1, p2, p3, ?_⟩
  have hsub : ∀ i, (m &&& (m - 1)).testBit i = true → m.testBit i = true := by
    intro i h
    rw [p3] at h
    rw [Bool.and_eq_true] at h
    exact h.1
  have hlt : m &&& (m - 1) < 2 ^ 16 := lt_two_pow_16_of_subset hm hsub
  have hbits : bitsOf (m &&& (m - 1)) = (bitsOf m).erase t := by
    ext i
    rw [mem_bitsOf hlt, Finset.mem_erase, mem_bitsOf hm, p3]
    constructor
    · intro h
      rw [Bool.and_eq_true] at h
      exact ⟨of_decide_eq_true h.2, h.1⟩
    · intro ⟨h1, h2⟩
      rw [h2, decide_eq_true h1]
      rfl
  rw [count_ones_eq_card_bitsOf, count_ones_eq_card_bitsOf, hbits,
    Finset.card_erase_of_mem ((mem_bitsOf hm).mpr p1)]

theorem keep_n_go_spec : ∀ (fuel r k : Nat), r < 2 ^ 16 → count_ones r ≤ k + fuel →
    (∀ i, (keep_n_go fuel r k).testBit i = true → r.testBit i = true)
    ∧ count_ones (keep_n_go fuel r k) = min k (count_ones r)
    ∧ (∀ i j, r.testBit i = true → (keep_n_go fuel r k).testBit i = false →
        (keep_n_go fuel r k).testBit j = true → i < j) := by
  intro fuel
  induction fuel with
  | zero =>
    intro r k hr hcnt
    rw [show keep_n_go 0 r k = r from rfl]
    refine ⟨fun i h => h, by omega, ?_⟩
    intro i j h1 h2 h3
    simp [h1] at h2
  | succ fuel ih =>
    intro r k hr hcnt
    by_cases hgt : k < count_ones r
    · have hne : r ≠ 0 := by
        intro h
        rw [h, count_ones_zero] at hgt
        omega
      obtain ⟨t, p1, p2, p3, pcnt⟩ := and_pred_facts hr hne
      have hsub : ∀ i, (r &&& (r - 1)).testBit i = true → r.testBit i = true := by
        intro i h
        rw [p3] at h
        rw [Bool.and_eq_true] at h
        exact h.1
      have hlt : r &&& (r - 1) < 2 ^ 16 := lt_two_pow_16_of_subset hr hsub
      have hstep : keep_n_go (fuel + 1) r k = keep_n_go fuel (r &&& (r - 1)) k := by
        show (if k < count_ones r then keep_n_go fuel (r &&& (r - 1)) k else r) = _
        rw [if_pos hgt]
      obtain ⟨q1, q2, q3⟩ := ih (r &&& (r - 1)) k hlt (by omega)
      rw [hstep]
      refine ⟨fun i h => hsub i (q1 i h), by omega, ?_⟩
      intro i j h1 h2 h3
      by_cases hr' : (r &&& (r - 1)).testBit i = true
      · exact q3 i j hr' h2 h3
      · have hit : i = t := by
          have hp := p3 i
          rw [h1, Bool.true_and] at hp
          by_contra hne2
          rw [decide_eq_true hne2] at hp
          exact hr' hp
      
        have hj' : (r &&& (r - 1)).testBit j = true := q1 j h3
        have hjt : j ≠ t := by
          intro heq
          rw [heq, p3 t] at hj'
          simp at hj'
        have hjr : r.testBit j = true := hsub j hj'
        subst hit
        by_contra hle
        have hjlt : j < i := by omega
        rw [p2 j hjlt] at hjr
        exact Bool.false_ne_true hjr
    · have hstep : keep_n_go (fuel + 1) r k = r := by
        show (if k < count_ones r then keep_n_go fuel (r &&& (r - 1)) k else r) = r
        rw [if_neg hgt]
      rw [hstep]
      refine ⟨fun i h => h, by omega, ?_⟩
      intro i j h1 h2 h3
      simp [h1] at h2

theorem keep_n_spec {m : Nat} (hm : m < 2 ^ 16) (k : Nat) :
    (∀ i, (keep_n m k).testBit i = true → m.testBit i = true)
    ∧ count_ones (keep_n m k) = min k (count_ones m)
    ∧ (∀ i j, m.testBit i = true → (keep_n m k).testBit i = false →
        (keep_n m k).testBit j = true → i < j) :=
  keep_n_go_spec 16 m k hm (by have := count_ones_le_16 m; omega)

theorem le_keep_n_of_subset {m S k : Nat} (hm : m < 2 ^ 16)
    (hsub : ∀ i, S.testBit i = true → m.testBit i = true)
    (hcard : count_ones S ≤ k) (hk : k ≤ count_ones m) :
    S ≤ keep_n m k := by
  have hS16 : S < 2 ^ 16 := lt_two_pow_16_of_subset hm hsub
  obtain ⟨k1, k2, k3⟩ := keep_n_spec hm k
  have hK16 : keep_n m k < 2 ^ 16 := lt_two_pow_16_of_subset hm k1
  by_cases heq : S = keep_n m k
  · exact le_of_eq heq
  · have hne : ((Finset.range 16).filter
        (fun i => ¬(S.testBit i = (keep_n m k).testBit i))).Nonempty := by
      by_contra hcon
      rw [Finset.not_nonempty_iff_eq_empty] at hcon
      apply heq
      apply Nat.eq_of_testBit_eq
      intro i
      by_cases hi : i < 16
      · by_contra hne2
        have hmem : i ∈ (Finset.range 16).filter
            (fun i => ¬(S.testBit i = (keep_n m k).testBit i)) :=
          Finset.mem_filter.mpr ⟨Finset.mem_range.mpr hi, hne2⟩
        rw [hcon] at hmem
        exact absurd hmem (Finset.not_mem_empty i)
      · rw [Nat.testBit_lt_two_pow
            (lt_of_lt_of_le hS16 (Nat.pow_le_pow_right (by omega) (by omega))),
          Nat.testBit_lt_two_pow
            (lt_of_lt_of_le hK16 (Nat.pow_le_pow_right (by omega) (by omega)))]
    have hdiff := (Finset.mem_filter.mp (Finset.max'_mem _ hne)).2
    have habove : ∀ j, ((Finset.range 16).filter
        (fun i => ¬(S.testBit i = (keep_n m k).testBit i))).max' hne < j →
        S.testBit j = (keep_n m k).testBit j := by
      intro j hj
      by_contra hne2
      by_cases hj16 : j < 16
      · have hmem : j ∈ (Finset.range 16).filter
            (fun i => ¬(S.testBit i = (keep_n m k).testBit i)) :=
          Finset.mem_filter.mpr ⟨Finset.mem_range.mpr hj16, hne2⟩
        have := Finset.le_max' _ j hmem
        omega
      · apply hne2
        rw [Nat.testBit_lt_two_pow
            (lt_of_lt_of_le hS16 (Nat.pow_le_pow_right (by omega) (by omega))),
          Nat.testBit_lt_two_pow
            (lt_of_lt_of_le hK16 (Nat.pow_le_pow_right (by omega) (by omega)))]
    set h := ((Finset.range 16).filter
      (fun i => ¬(S.testBit i = (keep_n m k).testBit i))).max' hne with hh
    rcases hS : S.testBit h
    · have hKh : (keep_n m k).testBit h = true := by
        rcases hKb : (keep_n m k).testBit h
        · rw [hS, hKb] at hdiff
          exact absurd rfl hdiff
        · rfl
      exact le_of_lt (Nat.lt_of_testBit h hS hKh habove)
    · have hKh : (keep_n m k).testBit h = false := by
        rcases hKb : (keep_n m k).testBit h
        · rfl
        · rw [hS, hKb] at hdiff
          exact absurd rfl hdiff
      have hmh : m.testBit h = true := hsub h hS
      have hKS : bitsOf (keep_n m k) ⊆ bitsOf S := by
        intro j hj
        rw [mem_bitsOf hK16] at hj
        rw [mem_bitsOf hS16]
        have hhj : h < j := k3 h j hmh hKh hj
        rw [habove j hhj]
        exact hj
      have hss : bitsOf (keep_n m k) ⊂ bitsOf S := by
        refine ⟨hKS, fun hcon => ?_⟩
        have hmem := hcon ((mem_bitsOf hS16).mpr hS)
        rw [mem_bitsOf hK16] at hmem
        rw [hmem] at hKh
        exact absurd hKh (by simp)
      have hcard2 := Finset.card_lt_card hss
      rw [← count_ones_eq_card_bitsOf, ← count_ones_eq_card_bitsOf] at hcard2
      omega

theorem bitlen_go_zero (fuel : Nat) : bitlen_go fuel 0 = 0 := by
  cases fuel <;> simp [bitlen_go]

theorem bitlen_spec : ∀ (fuel m : Nat), m < 2 ^ fuel → m ≠ 0 →
    ∃ h, m.testBit h = true ∧ (∀ j, h < j → m.testBit j = false)
      ∧ bitlen_go fuel m = h + 1 := by
  intro fuel
  induction fuel with
  | zero =>
    intro m hm hne
    omega
  | succ fuel ih =>
    intro m hm hne
    rw [show bitlen_go (fuel + 1) m = if m = 0 then 0 else bitlen_go fuel (m / 2) + 1
      from rfl, if_neg hne]
    by_cases hq : m / 2 = 0
    · have hm1 : m = 1 := by omega
      subst hm1
      refine ⟨0, by decide, ?_, by rw [hq, bitlen_go_zero]⟩
      intro j hj
      apply Nat.testBit_lt_two_pow
      have hle : (2:ℕ) ^ 1 ≤ 2 ^ j := Nat.pow_le_pow_right (by omega) (by omega)
      omega
    · have hq2 : m / 2 < 2 ^ fuel := by
        rw [Nat.div_lt_iff_lt_mul (by omega)]
        rw [Nat.pow_succ] at hm
        exact hm
      obtain ⟨h, p1, p2, p3⟩ := ih (m / 2) hq2 hq
      refine ⟨h + 1, ?_, ?_, by rw [p3]⟩
      · rw [Nat.testBit_succ]
        exact p1
      · intro j hj
        rcases j with _ | j
        · omega
        · rw [Nat.testBit_succ]
          exact p2 j (by omega)

theorem keep_highest_spec {m : Nat} (hm : m < 2 ^ 16) (hne : m ≠ 0) :
    ∃ h, h < 16 ∧ m.testBit h = true ∧ (∀ j, h < j → m.testBit j = false)
      ∧ keep_highest m = 1 <<< h := by
  obtain ⟨h, p1, p2, p3⟩ := bitlen_spec 16 m hm hne
  have h16 : h < 16 := by
    by_contra hcon
    rw [Nat.testBit_lt_two_pow
      (lt_of_lt_of_le hm (Nat.pow_le_pow_right (by omega) (by omega)))] at p1
    exact Bool.false_ne_true p1
  refine ⟨h, h16, p1, p2, ?_⟩
  unfold keep_highest leading_zeros USIZE_BIT
  rw [p3]
  congr 1
  omega

theorem shiftLeft_le_keep_highest {m b : Nat} (hm : m < 2 ^ 16) (hb : m.testBit b = true) :
    1 <<< b ≤ keep_highest m := by
  have hne : m ≠ 0 := by
    intro h
    rw [h, Nat.zero_testBit] at hb
    exact Bool.false_ne_true hb
  obtain ⟨h, h16, p1, p2, p4⟩ := keep_highest_spec hm hne
  have hble : b ≤ h := by
    by_contra hcon
    rw [p2 b (by omega)] at hb
    exact Bool.false_ne_true hb
  rw [p4, Nat.shiftLeft_eq, Nat.shiftLeft_eq, Nat.one_mul, Nat.one_mul]
  exact Nat.pow_le_pow_right (by omega) hble

theorem pack_eq_add {a b : Nat} (hb : b < 2 ^ 13) :
    (a <<< 13) ||| b = 2 ^ 13 * a + b := by
  apply Nat.eq_of_testBit_eq
  intro j
  rw [Nat.testBit_lor, Nat.testBit_shiftLeft, Nat.testBit_mul_pow_two_add a hb j]
  by_cases hj : j < 13
  · rw [if_pos hj, decide_eq_false (by omega)]
    simp
  · rw [if_neg hj, decide_eq_true (by omega), Bool.true_and,
      Nat.testBit_lt_two_pow (lt_of_lt_of_le hb (Nat.pow_le_pow_right (by omega) (by omega)))]
    simp

theorem ble_of_tag_lt {a b : Rank} (h : a.tagNat < b.tagNat) : a.ble b = true := by
  rw [Rank.ble_iff]
  omega

theorem ble_of_tag_eq_payload_le {a b : Rank} (ht : a.tagNat = b.tagNat)
    (hp : a.payload ≤ b.payload) : a.ble b = true := by
  rw [Rank.ble_iff]
  omega


theorem hasRunAt_iff {m low : Nat} :
    hasRunAt m low = true ↔ ∀ j, j < 5 → m.testBit (low + j) = true := by
  unfold hasRunAt
  rw [List.all_eq_true]
  exact ⟨fun h j hj => h j (List.mem_range.mpr hj), fun h x hx => h x (List.mem_range.mp hx)⟩

theorem hasRunAt_mono {sub m low : Nat}
    (hsub : ∀ i, sub.testBit i = true → m.testBit i = true)
    (h : hasRunAt sub low = true) : hasRunAt m low = true := by
  rw [hasRunAt_iff] at h ⊢
  exact fun j hj => hsub _ (h j hj)

theorem hasRun_iff {m : Nat} : hasRun m = true ↔ ∃ low, low < 9 ∧ hasRunAt m low = true := by
  unfold hasRun
  rw [List.any_eq_true]
  constructor
  · intro ⟨low, hmem, hr⟩
    exact ⟨low, List.mem_range.mp hmem, hr⟩
  · intro ⟨low, hlow, hr⟩
    exact ⟨low, List.mem_range.mpr hlow, hr⟩

theorem hasRun_mono {sub m : Nat}
    (hsub : ∀ i, sub.testBit i = true → m.testBit i = true)
    (h : hasRun sub = true) : hasRun m = true := by
  rw [hasRun_iff] at h ⊢
  obtain ⟨low, h1, h2⟩ := h
  exact ⟨low, h1, hasRunAt_mono hsub h2⟩

theorem le_foldl_max_init : ∀ (l : List ℕ) (a : ℕ), a ≤ l.foldl Nat.max a := by
  intro l
  induction l with
  | nil => intro a; exact le_refl a
  | cons b t ih =>
    intro a
    exact le_trans (Nat.le_max_left a b) (ih (Nat.max a b))

theorem le_foldl_max_of_mem : ∀ (l : List ℕ) (a x : ℕ), x ∈ l → x ≤ l.foldl Nat.max a := by
  intro l
  induction l with
  | nil => intro a x hx; exact absurd hx (List.not_mem_nil x)
  | cons b t ih =>
    intro a x hx
    rcases List.mem_cons.mp hx with rfl | hx'
    · exact le_trans (Nat.le_max_right a x) (le_foldl_max_init t (Nat.max a x))
    · exact ih (Nat.max a b) x hx'

theorem nat_max_cases (a b : Nat) : Nat.max a b = a ∨ Nat.max a b = b := by
  by_cases h : a ≤ b
  · exact Or.inr (Nat.max_eq_right h)
  · exact Or.inl (Nat.max_eq_left (by omega))

theorem foldl_max_mem :
    ∀ (l : List ℕ) (a : ℕ), l.foldl Nat.max a ∈ l ∨ l.foldl Nat.max a = a := by
  intro l
  induction l with
  | nil => intro a; exact Or.inr rfl
  | cons b t ih =>
    intro a
    have hgoal : List.foldl Nat.max a (b :: t) = List.foldl Nat.max (Nat.max a b) t := rfl
    rcases ih (Nat.max a b) with h | h
    · rw [hgoal]
      exact Or.inl (List.mem_cons_of_mem b h)
    · rcases nat_max_cases a b with hm | hm
      · rw [hgoal, h, hm]
        exact Or.inr rfl
      · rw [hgoal, h, hm]
        exact Or.inl (List.mem_cons_self b t)

theorem hasRunAt_bestRun {m : Nat} (h : hasRun m = true) :
    hasRunAt m (bestRun m - 1) = true ∧ bestRun m - 1 < 9 := by
  obtain ⟨low, hlow, hr⟩ := hasRun_iff.mp h
  have hmem : low ∈ (List.range 9).filter (fun low => hasRunAt m low) :=
    List.mem_filter.mpr ⟨List.mem_range.mpr hlow, hr⟩
  have hF : ((List.range 9).filter (fun low => hasRunAt m low)).foldl Nat.max 0
      ∈ (List.range 9).filter (fun low => hasRunAt m low) := by
    rcases foldl_max_mem ((List.range 9).filter (fun low => hasRunAt m low)) 0 with h2 | h2
    · exact h2
    · have hle := le_foldl_max_of_mem _ 0 low hmem
      rw [h2] at hle ⊢
      have hlow0 : low = 0 := by omega
      subst hlow0
      exact hmem
  rw [List.mem_filter] at hF
  have hbr : bestRun m - 1
      = ((List.range 9).filter (fun low => hasRunAt m low)).foldl Nat.max 0 := by
    unfold bestRun
    omega
  rw [hbr]
  exact ⟨hF.2, List.mem_range.mp hF.1⟩

theorem bestRun_ge {m low : Nat} (h : hasRunAt m low = true) (hlow : low < 9) :
    low + 1 ≤ bestRun m := by
  have hmem : low ∈ (List.range 9).filter (fun low => hasRunAt m low) :=
    List.mem_filter.mpr ⟨List.mem_range.mpr hlow, h⟩
  have := le_foldl_max_of_mem _ 0 low hmem
  unfold bestRun
  omega

theorem bestRun_mono {sub m : Nat}
    (hsub : ∀ i, sub.testBit i = true → m.testBit i = true)
    (h : hasRun sub = true) : bestRun sub ≤ bestRun m := by
  obtain ⟨h1, h2⟩ := hasRunAt_bestRun h
  have h3 := bestRun_ge (hasRunAt_mono hsub h1) h2
  have h4 := bestRun_pos sub
  omega

theorem and_wheel_iff {a : Nat} :
    a &&& WHEEL = WHEEL ↔ ∀ i, WHEEL.testBit i = true → a.testBit i = true := by
  constructor
  · intro h i hw
    have h2 := congrArg (fun x => x.testBit i) h
    simp only [Nat.testBit_and] at h2
    rw [hw, Bool.and_true] at h2
    exact h2
  · intro h
    apply Nat.eq_of_testBit_eq
    intro i
    rw [Nat.testBit_and]
    rcases hw : WHEEL.testBit i
    · simp
    · rw [h i hw]
      rfl

theorem lt_two_pow_of_subset {a b n : Nat} (ha : a < 2 ^ n)
    (h : ∀ i, b.testBit i = true → a.testBit i = true) : b < 2 ^ n := by
  apply Nat.lt_pow_two_of_testBit
  intro i hi
  rcases hb : b.testBit i
  · rfl
  · have h2 := h i hb
    rw [Nat.testBit_lt_two_pow (lt_of_lt_of_le ha (Nat.pow_le_pow_right (by omega) hi))] at h2
    exact absurd h2 (by simp)

theorem rank_straight_some_cases {m r : Nat} (hm : m < 8192) (h : rank_straight m = some r) :
    (hasRun m = true ∧ r = bestRun m)
    ∨ (hasRun m = false ∧ m &&& WHEEL = WHEEL ∧ r = 0) := by
  obtain ⟨c1, c2, c3, _⟩ := straightCheck_sound (straightCheck_all m hm)
  rcases hr : hasRun m
  · by_cases hw : m &&& WHEEL = WHEEL
    · have h2 := c2 hr hw
      rw [h] at h2
      injection h2 with h0
      exact Or.inr ⟨rfl, hw, h0⟩
    · have h2 := c3 hr hw
      rw [h] at h2
      exact absurd h2 (by simp)
  · have h2 := c1 hr
    rw [h] at h2
    injection h2 with h0
    exact Or.inl ⟨rfl, h0⟩

theorem rank_straight_le_of_subset {sub m r r' : Nat} (hm : m < 8192)
    (hsub : ∀ i, sub.testBit i = true → m.testBit i = true)
    (hrm : rank_straight m = some r) (hrs : rank_straight sub = some r') : r' ≤ r := by
  have hm13 : m < 2 ^ 13 := by
    have h13 : (2:ℕ) ^ 13 = 8192 := by norm_num
    omega
  have hs13 : sub < 2 ^ 13 := lt_two_pow_of_subset hm13 hsub
  have hs8 : sub < 8192 := by
    have h13 : (2:ℕ) ^ 13 = 8192 := by norm_num
    omega
  rcases rank_straight_some_cases hm hrm with ⟨hrunm, hrbest⟩ | ⟨hrunm, hwm, hr0⟩
  · rcases rank_straight_some_cases hs8 hrs with ⟨hruns, hrbest'⟩ | ⟨_, _, hr0'⟩
    · rw [hrbest, hrbest']
      exact bestRun_mono hsub hruns
    · have := bestRun_pos m
      omega
  · rcases rank_straight_some_cases hs8 hrs with ⟨hruns, _⟩ | ⟨_, _, hr0'⟩
    · have := hasRun_mono hsub hruns
      rw [hrunm] at this
      exact absurd this (by simp)
    · omega

theorem rank_straight_none_of_subset {sub m : Nat} (hm : m < 8192)
    (hsub : ∀ i, sub.testBit i = true → m.testBit i = true)
    (hrm : rank_straight m = none) : rank_straight sub = none := by
  have hm13 : m < 2 ^ 13 := by
    have h13 : (2:ℕ) ^ 13 = 8192 := by norm_num
    omega
  have hs13 : sub < 2 ^ 13 := lt_two_pow_of_subset hm13 hsub
  have hs8 : sub < 8192 := by
    have h13 : (2:ℕ) ^ 13 = 8192 := by norm_num
    omega
  obtain ⟨c1m, c2m, c3m, _⟩ := straightCheck_sound (straightCheck_all m hm)
  obtain ⟨c1s, c2s, c3s, _⟩ := straightCheck_sound (straightCheck_all sub hs8)
  have hrunm : hasRun m = false := by
    rcases h : hasRun m
    · rfl
    · have h2 := c1m h
      rw [hrm] at h2
      exact absurd h2 (by simp)
  have hwm : m &&& WHEEL ≠ WHEEL := by
    intro h
    have h2 := c2m hrunm h
    rw [hrm] at h2
    exact absurd h2 (by simp)
  have hruns : hasRun sub = false := by
    rcases h : hasRun sub
    · rfl
    · have h2 := hasRun_mono hsub h
      rw [hrunm] at h2
      exact absurd h2 (by simp)
  have hws : sub &&& WHEEL ≠ WHEEL := by
    intro h
    apply hwm
    rw [and_wheel_iff] at h ⊢
    exact fun i hw => hsub i (h i hw)
  exact c3s hruns hws

theorem rank_straight_runMask : ∀ low, low < 9 → rank_straight (31 <<< low) = some (low + 1) := by
  decide

theorem count_ones_runMask : ∀ low, low < 9 → count_ones (31 <<< low) = 5 := by decide

theorem runMask_subset {m low : Nat} (h : hasRunAt m low = true) :
    ∀ i, (31 <<< low).testBit i = true → m.testBit i = true := by
  intro i hi
  rw [Nat.testBit_shiftLeft, Bool.and_eq_true] at hi
  have h1 : low ≤ i := of_decide_eq_true hi.1
  have h2 : (31 : Nat).testBit (i - low) = true := hi.2
  have h3 : i - low < 5 := by
    by_contra hcon
    rw [Nat.testBit_lt_two_pow (lt_of_lt_of_le (by norm_num : (31:ℕ) < 2 ^ 5)
      (Nat.pow_le_pow_right (by omega) (by omega)))] at h2
    exact absurd h2 (by simp)
  have h4 := hasRunAt_iff.mp h (i - low) h3
  rw [show low + (i - low) = i from by omega] at h4
  exact h4

theorem wheel_count_ones : count_ones WHEEL = 5 := by decide

theorem rank_straight_WHEEL : rank_straight WHEEL = some 0 := by decide


theorem value_count_sublist_le {s cs : List Card} (h : s.Sublist cs) (v : Nat) :
    value_count s v ≤ value_count cs v :=
  (List.Sublist.filter _ h).length_le

theorem vs_subset_of_sublist {s cs : List Card} (h : s.Sublist cs) :
    ∀ i, (value_set s).testBit i = true → (value_set cs).testBit i = true := by
  intro i hi
  rw [testBit_vs_count] at hi ⊢
  have h1 := of_decide_eq_true hi
  have h2 := value_count_sublist_le h i
  exact decide_eq_true (by omega)

theorem suit_subset_of_sublist {s cs : List Card} (h : s.Sublist cs) (su : Suit) :
    ∀ i, (suit_value_set s su).testBit i = true → (suit_value_set cs su).testBit i = true := by
  intro i hi
  rw [testBit_suit_value_set] at hi ⊢
  rw [List.any_eq_true] at hi ⊢
  obtain ⟨c, hc, hp⟩ := hi
  exact ⟨c, h.subset hc, hp⟩

theorem find_flush_none_iff (cs : List Card) :
    find_flush (suit_value_sets cs) = none
      ↔ ∀ su : Suit, count_ones (suit_value_set cs su) < 5 := by
  constructor
  · intro h su
    unfold find_flush at h
    rw [List.findIdx?_eq_none_iff] at h
    have h2 := h (suit_value_set cs su) (suit_mem cs su)
    simp at h2
    exact h2
  · exact find_flush_none_of_all cs

theorem sub_no_flush {s cs : List Card} (h : s.Sublist cs)
    (hnf : ∀ su : Suit, count_ones (suit_value_set cs su) < 5) :
    ((suit_value_sets s).any (fun sv => count_ones sv = 5)) = false := by
  rw [Bool.eq_false_iff]
  intro hany
  rw [List.any_eq_true] at hany
  obtain ⟨m, hm, hm5⟩ := hany
  obtain ⟨su, rfl⟩ := suit_value_sets_mem s hm
  have h5 : count_ones (suit_value_set s su) = 5 := of_decide_eq_true hm5
  have hle : count_ones (suit_value_set s su) ≤ count_ones (suit_value_set cs su) :=
    count_ones_mono
      (lt_of_lt_of_le (suit_value_set_lt cs su) (by norm_num))
      (suit_subset_of_sublist h su)
  have h6 := hnf su
  omega

theorem filter_mem_of_sublist : ∀ {l cs : List Card}, l.Sublist cs → cs.Nodup →
    cs.filter (fun c => decide (c ∈ l)) = l := by
  intro l cs h
  induction h with
  | slnil => intro _; rfl
  | @cons l₁ l₂ a h ih =>
    intro hnd
    have ha : a ∉ l₁ := by
      intro hmem
      exact (List.nodup_cons.mp hnd).1 (h.subset hmem)
    rw [List.filter_cons, decide_eq_false ha]
    simp only [Bool.false_eq_true, if_false]
    exact ih (List.nodup_cons.mp hnd).2
  | @cons₂ l₁ l₂ a h ih =>
    intro hnd
    have hna : a ∉ l₂ := (List.nodup_cons.mp hnd).1
    have hcong : ∀ c ∈ l₂, (decide (c ∈ a :: l₁)) = (decide (c ∈ l₁)) := by
      intro c hc
      have hca : c ≠ a := fun heq => hna (heq ▸ hc)
      apply decide_eq_decide.mpr
      rw [List.mem_cons]
      constructor
      · rintro (h1 | h1)
        · exact absurd h1 hca
        · exact h1
      · exact Or.inr
    rw [List.filter_cons, decide_eq_true (List.mem_cons_self a l₁)]
    simp only [if_true]
    rw [List.filter_congr hcong, ih (List.nodup_cons.mp hnd).2]


theorem pickCards_sublist (cs : List Card) (B : List (Nat × Nat)) :
    (pickCards cs B).Sublist cs := List.filter_sublist cs

theorem length_rankCards (cs : List Card) (v : Nat) :
    (rankCards cs v).length = value_count cs v := rfl

theorem mem_rankCards {cs : List Card} {v : Nat} {c : Card} :
    c ∈ rankCards cs v ↔ c ∈ cs ∧ c.rank.toNat = v := by
  unfold rankCards
  rw [List.mem_filter]
  constructor
  · intro ⟨h1, h2⟩
    exact ⟨h1, of_decide_eq_true h2⟩
  · intro ⟨h1, h2⟩
    exact ⟨h1, decide_eq_true h2⟩

theorem key_unique : ∀ {B : List (Nat × Nat)} {v n : Nat} {p : Nat × Nat},
    (B.map Prod.fst).Nodup → (v, n) ∈ B → p ∈ B → p.1 = v → p = (v, n) := by
  intro B
  induction B with
  | nil =>
    intro v n p _ hmem _ _
    exact absurd hmem (List.not_mem_nil _)
  | cons b t ih =>
    intro v n p hB hmem hp hk
    rw [List.map_cons, List.nodup_cons] at hB
    rcases List.mem_cons.mp hmem with h1 | h1
    · rcases List.mem_cons.mp hp with h2 | h2
      · rw [h2, ← h1]
      · exfalso
        apply hB.1
        have hb1 : b.1 = v := by rw [← h1]
        exact List.mem_map.mpr ⟨p, h2, hk.trans hb1.symm⟩
    · rcases List.mem_cons.mp hp with h2 | h2
      · exfalso
        apply hB.1
        exact List.mem_map.mpr ⟨(v, n), h1, by rw [← h2]; exact hk.symm⟩
      · exact ih hB.2 h1 h2 hk

theorem value_count_pickCards_not_mem {cs : List Card} {B : List (Nat × Nat)} {v : Nat}
    (hv : ∀ p ∈ B, p.1 ≠ v) : value_count (pickCards cs B) v = 0 := by
  unfold value_count pickCards
  rw [List.filter_filter]
  have hcong : ∀ c ∈ cs,
      (decide (c.rank.toNat = v)
        && (B.any (fun p => decide (c ∈ List.take p.2 (rankCards cs p.1))))) = false := by
    intro c _
    rcases hrv : decide (c.rank.toNat = v) with _ | _
    · rw [Bool.false_and]
    · rw [Bool.true_and]
      rw [Bool.eq_false_iff]
      intro hany
      rw [List.any_eq_true] at hany
      obtain ⟨p, hp, hc⟩ := hany
      have hc2 : c ∈ List.take p.2 (rankCards cs p.1) := of_decide_eq_true hc
      have hc3 : c ∈ rankCards cs p.1 := (List.take_sublist _ _).subset hc2
      have hc4 := (mem_rankCards.mp hc3).2
      exact hv p hp (by rw [← hc4]; exact of_decide_eq_true hrv)
  rw [List.filter_congr hcong]
  simp

theorem value_count_pickCards_mem {cs : List Card} (hnd : cs.Nodup)
    {B : List (Nat × Nat)} (hB : (B.map Prod.fst).Nodup) {v n : Nat}
    (hmem : (v, n) ∈ B) :
    value_count (pickCards cs B) v = min n (value_count cs v) := by
  unfold value_count pickCards
  rw [List.filter_filter]
  have hsubl : (List.take n (rankCards cs v)).Sublist cs :=
    (List.take_sublist _ _).trans (List.filter_sublist cs)
  have hcong : ∀ c ∈ cs,
      (decide (c.rank.toNat = v)
        && (B.any (fun p => decide (c ∈ List.take p.2 (rankCards cs p.1)))))
        = decide (c ∈ List.take n (rankCards cs v)) := by
    intro c hc
    rcases hin : decide (c ∈ List.take n (rankCards cs v)) with _ | _
    · have hnot : c ∉ List.take n (rankCards cs v) := of_decide_eq_false hin
      rcases hrv : decide (c.rank.toNat = v) with _ | _
      · rw [Bool.false_and]
      · rw [Bool.true_and]
        rw [Bool.eq_false_iff]
        intro hany
        rw [List.any_eq_true] at hany
        obtain ⟨p, hp, hcp⟩ := hany
        have hc2 : c ∈ List.take p.2 (rankCards cs p.1) := of_decide_eq_true hcp
        have hc3 : c ∈ rankCards cs p.1 := (List.take_sublist _ _).subset hc2
        have hc4 := (mem_rankCards.mp hc3).2
        have hpk : p.1 = v := by
          rw [← hc4]
          exact of_decide_eq_true hrv
        have hpe := key_unique hB hmem hp hpk
        rw [hpe] at hc2
        exact hnot hc2
    · have hin2 : c ∈ List.take n (rankCards cs v) := of_decide_eq_true hin
      have hin3 : c ∈ rankCards cs v := (List.take_sublist _ _).subset hin2
      have hrv := (mem_rankCards.mp hin3).2
      rw [decide_eq_true hrv, Bool.true_and]
      rw [List.any_eq_true]
      exact ⟨(v, n), hmem, decide_eq_true hin2⟩
  rw [List.filter_congr hcong, filter_mem_of_sublist hsubl hnd, List.length_take,
    length_rankCards]
  rfl


theorem rank_five_u5_hc {s : List Card} (hu : count_ones (value_set s) = 5)
    (hst : rank_straight (value_set s) = none)
    (hfl : ((suit_value_sets s).any (fun sv => count_ones sv = 5)) = false) :
    rank_five s = .HighCard (value_set s) := by
  simp only [rank_five, hu, hst, hfl]

theorem rank_five_u5_st {s : List Card} {r : Nat} (hu : count_ones (value_set s) = 5)
    (hst : rank_straight (value_set s) = some r)
    (hfl : ((suit_value_sets s).any (fun sv => count_ones sv = 5)) = false) :
    rank_five s = .Straight r := by
  simp only [rank_five, hu, hst, hfl]

theorem rank_five_u5_fl {s : List Card} (hu : count_ones (value_set s) = 5)
    (hst : rank_straight (value_set s) = none)
    (hfl : ((suit_value_sets s).any (fun sv => count_ones sv = 5)) = true) :
    rank_five s = .Flush (value_set s) := by
  simp only [rank_five, hu, hst, hfl]

theorem rank_five_u5_sf {s : List Card} {r : Nat} (hu : count_ones (value_set s) = 5)
    (hst : rank_straight (value_set s) = some r)
    (hfl : ((suit_value_sets s).any (fun sv => count_ones sv = 5)) = true) :
    rank_five s = .StraightFlush r := by
  simp only [rank_five, hu, hst, hfl]

theorem rank_five_u4_eq {s : List Card} (hu : count_ones (value_set s) = 4) :
    rank_five s = .OnePair ((count_to_value s 2 <<< 13)
      ||| (value_set s ^^^ count_to_value s 2)) := by
  simp only [rank_five, hu]

theorem rank_five_u3_trips {s : List Card} (hu : count_ones (value_set s) = 3)
    (h3 : count_to_value s 3 ≠ 0) :
    rank_five s = .ThreeOfAKind ((count_to_value s 3 <<< 13)
      ||| (value_set s ^^^ count_to_value s 3)) := by
  simp only [rank_five, hu]
  rw [if_pos h3]

theorem rank_five_u3_tp {s : List Card} (hu : count_ones (value_set s) = 3)
    (h3 : count_to_value s 3 = 0) :
    rank_five s = .TwoPair ((count_to_value s 2 <<< 13)
      ||| (value_set s ^^^ count_to_value s 2)) := by
  simp only [rank_five, hu]
  rw [if_neg (show ¬(count_to_value s 3 ≠ 0) from fun hc => hc h3)]

theorem rank_five_u2_fh {s : List Card} (hu : count_ones (value_set s) = 2)
    (h3 : count_to_value s 3 ≠ 0) :
    rank_five s = .FullHouse ((count_to_value s 3 <<< 13)
      ||| (value_set s ^^^ count_to_value s 3)) := by
  simp only [rank_five, hu]
  rw [if_pos h3]

theorem rank_five_u2_quad {s : List Card} (hu : count_ones (value_set s) = 2)
    (h3 : count_to_value s 3 = 0) :
    rank_five s = .FourOfAKind ((count_to_value s 4 <<< 13)
      ||| (value_set s ^^^ count_to_value s 4)) := by
  simp only [rank_five, hu]
  rw [if_neg (show ¬(count_to_value s 3 ≠ 0) from fun hc => hc h3)]

theorem pack_le_pack {a1 b1 a2 b2 : Nat} (hb1 : b1 < 2 ^ 13) (hb2 : b2 < 2 ^ 13)
    (h : a1 < a2 ∨ (a1 = a2 ∧ b1 ≤ b2)) :
    (a1 <<< 13) ||| b1 ≤ (a2 <<< 13) ||| b2 := by
  rw [pack_eq_add hb1, pack_eq_add hb2]
  have h13 : (2:ℕ) ^ 13 = 8192 := by norm_num
  rcases h with h | ⟨h1, h2⟩ <;> omega

theorem ctv_single_bit {cs : List Card} {k : Nat}
    (h : count_ones (count_to_value cs k) = 1) :
    ∃ q, q < 13 ∧ count_to_value cs k = 1 <<< q ∧ value_count cs q = k := by
  obtain ⟨q, hq16, hqe⟩ := single_bit_of_count_ones_one (ctv_lt16 cs k) h
  have hbit : (count_to_value cs k).testBit q = true := by
    rw [hqe, testBit_one_shift]
    exact decide_eq_true rfl
  rw [testBit_count_to_value, Bool.and_eq_true] at hbit
  exact ⟨q, of_decide_eq_true hbit.1, hqe, of_decide_eq_true hbit.2⟩

theorem xor_bits_mem {a b w : Nat}
    (hsub : ∀ i, b.testBit i = true → a.testBit i = true)
    (hw : (a ^^^ b).testBit w = true) : a.testBit w = true ∧ b.testBit w = false := by
  rw [Nat.testBit_xor] at hw
  rcases hat : a.testBit w <;> rcases hbt : b.testBit w
  · rw [hat, hbt] at hw
    exact absurd hw (by simp)
  · have h2 := hsub w hbt
    rw [hat] at h2
    exact absurd h2 (by simp)
  · exact ⟨rfl, rfl⟩
  · rw [hat, hbt] at hw
    exact absurd hw (by simp)

theorem nodup_all_eq_length_le_one {α : Type} {l : List α} (h : l.Nodup)
    (heq : ∀ a ∈ l, ∀ b ∈ l, a = b) : l.length ≤ 1 := by
  rcases l with _ | ⟨a, t⟩
  · simp
  · rcases t with _ | ⟨b, t2⟩
    · simp
    · exfalso
      have hab : a = b := heq a (by simp) b (by simp)
      rw [List.nodup_cons] at h
      exact h.1 (hab ▸ List.mem_cons_self b t2)

theorem count_ones_13 {m : Nat} (hm : m < 2 ^ 13) :
    count_ones m = ((Finset.range 13).filter (fun i => m.testBit i)).card := by
  rw [count_ones_eq_card_bitsOf]
  congr 1
  unfold bitsOf
  ext i
  simp only [Finset.mem_filter, Finset.mem_range]
  constructor
  · intro ⟨h1, h2⟩
    refine ⟨?_, h2⟩
    by_contra hcon
    rw [Nat.testBit_lt_two_pow (lt_of_lt_of_le hm (Nat.pow_le_pow_right (by omega)
      (by omega)))] at h2
    exact absurd h2 (by simp)
  · intro ⟨h1, h2⟩
    exact ⟨by omega, h2⟩

theorem suit_bit_count_pos {cs : List Card} {su : Suit} {v : Nat}
    (h : (suit_value_set cs su).testBit v = true) : 0 < value_count cs v := by
  have h2 := suit_subset_vs cs su v h
  rw [testBit_vs_count] at h2
  exact of_decide_eq_true h2

theorem sum_indicator_suit (cs : List Card) (su : Suit) :
    (∑ v in Finset.range 13,
        if (suit_value_set cs su).testBit v = true then 1 else 0)
      = count_ones (suit_value_set cs su) := by
  rw [Finset.sum_boole, count_ones_13 (suit_value_set_lt cs su)]
  simp

theorem flush_excludes_pair {cs : List Card} (hlen : cs.length = 7)
    {su : Suit} (hsu : 5 ≤ count_ones (suit_value_set cs su))
    {v w : Nat} (hv : v < 13) (hw : w < 13) (hvw : v ≠ w)
    (hcv : 3 ≤ value_count cs v) (hcw : 2 ≤ value_count cs w) : False := by
  have h1 : ∑ x in Finset.range 13, value_count cs x = 7 := by
    rw [sum_value_count, hlen]
  have h2 := sum_indicator_suit cs su
  have hvmem : v ∈ Finset.range 13 := Finset.mem_range.mpr hv
  have hwmem : w ∈ (Finset.range 13).erase v :=
    Finset.mem_erase.mpr ⟨Ne.symm hvw, Finset.mem_range.mpr hw⟩
  have ec1 := Finset.add_sum_erase (Finset.range 13) (value_count cs) hvmem
  have ec2 := Finset.add_sum_erase ((Finset.range 13).erase v) (value_count cs) hwmem
  have ei1 := Finset.add_sum_erase (Finset.range 13)
    (fun x => if (suit_value_set cs su).testBit x = true then 1 else 0) hvmem
  have ei2 := Finset.add_sum_erase ((Finset.range 13).erase v)
    (fun x => if (suit_value_set cs su).testBit x = true then 1 else 0) hwmem
  have hmono : (∑ x in ((Finset.range 13).erase v).erase w,
      if (suit_value_set cs su).testBit x = true then 1 else 0)
      ≤ ∑ x in ((Finset.range 13).erase v).erase w, value_count cs x := by
    apply Finset.sum_le_sum
    intro i _
    by_cases hb : (suit_value_set cs su).testBit i = true
    · rw [if_pos hb]
      exact suit_bit_count_pos hb
    · rw [if_neg hb]
      omega
  have hiv : (if (suit_value_set cs su).testBit v = true then 1 else 0) ≤ 1 := by
    by_cases hb : (suit_value_set cs su).testBit v = true
    · rw [if_pos hb]
    · rw [if_neg hb]
      omega
  have hiw : (if (suit_value_set cs su).testBit w = true then 1 else 0) ≤ 1 := by
    by_cases hb : (suit_value_set cs su).testBit w = true
    · rw [if_pos hb]
    · rw [if_neg hb]
      omega
  simp only at ei1 ei2
  omega

theorem flush_excludes_quad {cs : List Card} (hlen : cs.length = 7)
    {su : Suit} (hsu : 5 ≤ count_ones (suit_value_set cs su))
    {v : Nat} (hv : v < 13) (hcv : 4 ≤ value_count cs v) : False := by
  have h1 : ∑ x in Finset.range 13, value_count cs x = 7 := by
    rw [sum_value_count, hlen]
  have h2 := sum_indicator_suit cs su
  have hvmem : v ∈ Finset.range 13 := Finset.mem_range.mpr hv
  have ec1 := Finset.add_sum_erase (Finset.range 13) (value_count cs) hvmem
  have ei1 := Finset.add_sum_erase (Finset.range 13)
    (fun x => if (suit_value_set cs su).testBit x = true then 1 else 0) hvmem
  have hmono : (∑ x in (Finset.range 13).erase v,
      if (suit_value_set cs su).testBit x = true then 1 else 0)
      ≤ ∑ x in (Finset.range 13).erase v, value_count cs x := by
    apply Finset.sum_le_sum
    intro i _
    by_cases hb : (suit_value_set cs su).testBit i = true
    · rw [if_pos hb]
      exact suit_bit_count_pos hb
    · rw [if_neg hb]
      omega
  have hiv : (if (suit_value_set cs su).testBit v = true then 1 else 0) ≤ 1 := by
    by_cases hb : (suit_value_set cs su).testBit v = true
    · rw [if_pos hb]
    · rw [if_neg hb]
      omega
  simp only at ei1
  omega

theorem flush_suit_unique {cs : List Card} (hlen : cs.length = 7) {s1 s2 : Suit}
    (h1 : 5 ≤ count_ones (suit_value_set cs s1))
    (h2 : 5 ≤ count_ones (suit_value_set cs s2)) : s1 = s2 := by
  by_contra hne
  have hc1 : (∑ v in Finset.range 13,
      if (suit_value_set cs s1).testBit v = true then 1 else 0)
      + (∑ v in Finset.range 13,
        if (suit_value_set cs s2).testBit v = true then 1 else 0)
      ≤ ∑ v in Finset.range 13, value_count cs v := by
    rw [← Finset.sum_add_distrib]
    apply Finset.sum_le_sum
    intro v _
    -- cards of suit s1 rank v and suit s2 rank v are distinct cards of rank v
    by_cases hb1 : (suit_value_set cs s1).testBit v = true
    · by_cases hb2 : (suit_value_set cs s2).testBit v = true
      · rw [if_pos hb1, if_pos hb2]
        -- two distinct cards of rank v
        rw [testBit_suit_value_set, List.any_eq_true] at hb1 hb2
        obtain ⟨c1, hc1m, hp1⟩ := hb1
        obtain ⟨c2, hc2m, hp2⟩ := hb2
        rw [Bool.and_eq_true] at hp1 hp2
        have hs1 : c1.suit = s1 := of_decide_eq_true hp1.1
        have hs2 : c2.suit = s2 := of_decide_eq_true hp2.1
        have hr1 : c1.rank.toNat = v := of_decide_eq_true hp1.2
        have hr2 : c2.rank.toNat = v := of_decide_eq_true hp2.2
        have hcne : c1 ≠ c2 := by
          intro heq
          rw [heq] at hs1
          rw [hs1] at hs2
          exact hne hs2
        -- both are in the rank-v filter list, distinct → length ≥ 2
        have hm1 : c1 ∈ rankCards cs v := mem_rankCards.mpr ⟨hc1m, hr1⟩
        have hm2 : c2 ∈ rankCards cs v := mem_rankCards.mpr ⟨hc2m, hr2⟩
        have h2le : 1 < (rankCards cs v).toFinset.card :=
          Finset.one_lt_card.mpr
            ⟨c1, List.mem_toFinset.mpr hm1, c2, List.mem_toFinset.mpr hm2, hcne⟩
        have h3le := (rankCards cs v).toFinset_card_le
        rw [← length_rankCards cs v]
        omega
      · rw [if_pos hb1, if_neg hb2]
        have := suit_bit_count_pos hb1
        omega
    · rw [if_neg hb1]
      by_cases hb2 : (suit_value_set cs s2).testBit v = true
      · rw [if_pos hb2]
        have := suit_bit_count_pos hb2
        omega
      · rw [if_neg hb2]
        omega
  rw [sum_indicator_suit, sum_indicator_suit, sum_value_count, hlen] at hc1
  omega



theorem maskPicks_keys (m : Nat) :
    (maskPicks m).map Prod.fst = (List.range 13).filter (fun v => m.testBit v) := by
  unfold maskPicks
  rw [List.map_map]
  exact List.map_id _

theorem maskPicks_keys_nodup (m : Nat) : ((maskPicks m).map Prod.fst).Nodup := by
  rw [maskPicks_keys]
  exact (List.nodup_range 13).filter _

theorem maskPicks_key {m : Nat} {p : Nat × Nat} (h : p ∈ maskPicks m) :
    p.1 < 13 ∧ m.testBit p.1 = true ∧ p.2 = 1 := by
  obtain ⟨w, hw, hwe⟩ := List.mem_map.mp h
  rw [List.mem_filter] at hw
  subst hwe
  exact ⟨List.mem_range.mp hw.1, hw.2, rfl⟩

theorem mem_maskPicks {m v n : Nat} :
    (v, n) ∈ maskPicks m ↔ v < 13 ∧ m.testBit v = true ∧ n = 1 := by
  constructor
  · intro h
    exact maskPicks_key h
  · intro ⟨h1, h2, h3⟩
    unfold maskPicks
    rw [List.mem_map]
    exact ⟨v, List.mem_filter.mpr ⟨List.mem_range.mpr h1, h2⟩, by rw [h3]⟩

theorem value_count_pick_gen {cs : List Card} (hnd : cs.Nodup) {E : List (Nat × Nat)}
    {m : Nat} (hm13 : m < 2 ^ 13)
    (hkeysE : (E.map Prod.fst).Nodup)
    (hEm : ∀ p ∈ E, m.testBit p.1 = false)
    (hEcnt : ∀ p ∈ E, p.2 ≤ value_count cs p.1)
    (hmsub : ∀ i, m.testBit i = true → 0 < value_count cs i) :
    (∀ p ∈ E, value_count (pickCards cs (E ++ maskPicks m)) p.1 = p.2)
    ∧ ∀ v, (∀ p ∈ E, p.1 ≠ v) →
        value_count (pickCards cs (E ++ maskPicks m)) v
          = if m.testBit v = true then 1 else 0 := by
  have hkeys : ((E ++ maskPicks m).map Prod.fst).Nodup := by
    rw [List.map_append, List.nodup_append]
    refine ⟨hkeysE, maskPicks_keys_nodup m, ?_⟩
    intro a haE haM
    obtain ⟨p, hp, hpe⟩ := List.mem_map.mp haE
    obtain ⟨p2, hp2, hpe2⟩ := List.mem_map.mp haM
    have h1 := hEm p hp
    have h2 := (maskPicks_key hp2).2.1
    rw [hpe] at h1
    rw [hpe2] at h2
    rw [h2] at h1
    exact absurd h1 (by simp)
  constructor
  · intro p hp
    have hpmem : (p.1, p.2) ∈ E ++ maskPicks m := by
      rw [List.mem_append]
      exact Or.inl ((show (p.1, p.2) = p from rfl) ▸ hp)
    rw [value_count_pickCards_mem hnd hkeys hpmem]
    have := hEcnt p hp
    omega
  · intro v hv
    by_cases hb : m.testBit v = true
    · have hv13 : v < 13 := by
        by_contra hcon
        rw [Nat.testBit_lt_two_pow
          (lt_of_lt_of_le hm13 (Nat.pow_le_pow_right (by omega) (by omega)))] at hb
        exact absurd hb (by simp)
      rw [if_pos hb]
      have hmem : (v, 1) ∈ E ++ maskPicks m :=
        List.mem_append.mpr (Or.inr (mem_maskPicks.mpr ⟨hv13, hb, rfl⟩))
      rw [value_count_pickCards_mem hnd hkeys hmem]
      have := hmsub v hb
      omega
    · rw [if_neg hb]
      apply value_count_pickCards_not_mem
      intro p hp
      rcases List.mem_append.mp hp with h | h
      · exact hv p h
      · intro he
        have h2 := (maskPicks_key h).2.1
        rw [he] at h2
        exact hb h2


theorem sum_indicator_mask {m : Nat} (hm : m < 2 ^ 13) :
    (∑ v in Finset.range 13, if m.testBit v = true then 1 else 0) = count_ones m := by
  rw [Finset.sum_boole, count_ones_13 hm]
  simp

theorem sum_one_special {q n m : Nat} (hq : q < 13) (hm : m < 2 ^ 13)
    (hqm : m.testBit q = false) :
    (∑ v in Finset.range 13,
        if v = q then n else if m.testBit v = true then 1 else 0)
      = n + count_ones m := by
  rw [← Finset.add_sum_erase _ _ (Finset.mem_range.mpr hq), if_pos rfl]
  congr 1
  have hcong : ∀ v ∈ (Finset.range 13).erase q,
      (if v = q then n else if m.testBit v = true then 1 else 0)
        = if m.testBit v = true then 1 else 0 := by
    intro v hv
    rw [if_neg (Finset.mem_erase.mp hv).1]
  rw [Finset.sum_congr rfl hcong, Finset.sum_boole]
  rw [count_ones_13 hm]
  have hfil : ((Finset.range 13).erase q).filter (fun v => m.testBit v = true)
      = (Finset.range 13).filter (fun v => m.testBit v = true) := by
    ext v
    simp only [Finset.mem_filter, Finset.mem_erase, Finset.mem_range]
    constructor
    · intro ⟨⟨_, h1⟩, h2⟩
      exact ⟨h1, h2⟩
    · intro ⟨h1, h2⟩
      refine ⟨⟨?_, h1⟩, h2⟩
      intro he
      rw [he, hqm] at h2
      exact absurd h2 (by simp)
  rw [hfil]
  simp

theorem sum_two_special {t p a b m : Nat} (ht : t < 13) (hp : p < 13) (htp : t ≠ p)
    (hm : m < 2 ^ 13) (htm : m.testBit t = false) (hpm : m.testBit p = false) :
    (∑ v in Finset.range 13,
        if v = t then a else if v = p then b
          else if m.testBit v = true then 1 else 0)
      = a + b + count_ones m := by
  rw [← Finset.add_sum_erase _ _ (Finset.mem_range.mpr ht), if_pos rfl]
  have hpmem : p ∈ (Finset.range 13).erase t :=
    Finset.mem_erase.mpr ⟨Ne.symm htp, Finset.mem_range.mpr hp⟩
  rw [← Finset.add_sum_erase _ _ hpmem]
  rw [if_neg (Ne.symm htp), if_pos rfl]
  have hcong : ∀ v ∈ ((Finset.range 13).erase t).erase p,
      (if v = t then a else if v = p then b else if m.testBit v = true then 1 else 0)
        = if m.testBit v = true then 1 else 0 := by
    intro v hv
    have h1 := (Finset.mem_erase.mp hv).1
    have h2 := (Finset.mem_erase.mp (Finset.mem_erase.mp hv).2).1
    rw [if_neg h2, if_neg h1]
  rw [Finset.sum_congr rfl hcong, Finset.sum_boole]
  rw [count_ones_13 hm]
  have hfil : (((Finset.range 13).erase t).erase p).filter (fun v => m.testBit v = true)
      = (Finset.range 13).filter (fun v => m.testBit v = true) := by
    ext v
    simp only [Finset.mem_filter, Finset.mem_erase, Finset.mem_range]
    constructor
    · intro ⟨⟨_, _, h1⟩, h2⟩
      exact ⟨h1, h2⟩
    · intro ⟨h1, h2⟩
      refine ⟨⟨?_, ?_, h1⟩, h2⟩
      · intro he
        rw [he, hpm] at h2
        exact absurd h2 (by simp)
      · intro he
        rw [he, htm] at h2
        exact absurd h2 (by simp)
  rw [hfil]
  have hadd : a + b + ((Finset.range 13).filter (fun v => m.testBit v = true)).card
      = a + (b + ((Finset.range 13).filter (fun v => m.testBit v = true)).card) := by
    omega
  rw [hadd]
  simp

theorem testBit_false_of_ne {m i : Nat} (h : ¬(m.testBit i = true)) : m.testBit i = false :=
  Bool.eq_false_iff.mpr h

theorem value_set_of_counts_mask {s : List Card} {m : Nat}
    (hcount : ∀ v, value_count s v = if m.testBit v = true then 1 else 0) :
    value_set s = m := by
  apply Nat.eq_of_testBit_eq
  intro i
  rw [testBit_vs_count, hcount i]
  by_cases hb : m.testBit i = true
  · rw [if_pos hb, hb]
    exact decide_eq_true (by omega)
  · rw [if_neg hb, testBit_false_of_ne hb]
    exact decide_eq_false (by omega)

theorem value_set_of_counts_one {s : List Card} {q n m : Nat} (hn : 0 < n)
    (hcount : ∀ v, value_count s v
      = if v = q then n else if m.testBit v = true then 1 else 0) :
    value_set s = (1 <<< q) ||| m := by
  apply Nat.eq_of_testBit_eq
  intro i
  rw [testBit_vs_count, hcount i, Nat.testBit_lor, testBit_one_shift]
  by_cases hiq : i = q
  · rw [if_pos hiq, decide_eq_true (show q = i from hiq.symm), Bool.true_or]
    exact decide_eq_true (by omega)
  · rw [if_neg hiq, decide_eq_false (show ¬(q = i) from fun h => hiq h.symm), Bool.false_or]
    by_cases hb : m.testBit i = true
    · rw [if_pos hb, hb]
      exact decide_eq_true (by omega)
    · rw [if_neg hb, testBit_false_of_ne hb]
      exact decide_eq_false (by omega)

theorem value_set_of_counts_two {s : List Card} {t p a b m : Nat} (ha : 0 < a) (hb : 0 < b)
    (hcount : ∀ v, value_count s v
      = if v = t then a else if v = p then b else if m.testBit v = true then 1 else 0) :
    value_set s = (1 <<< t) ||| ((1 <<< p) ||| m) := by
  apply Nat.eq_of_testBit_eq
  intro i
  rw [testBit_vs_count, hcount i, Nat.testBit_lor, Nat.testBit_lor,
    testBit_one_shift, testBit_one_shift]
  by_cases hit : i = t
  · rw [if_pos hit, decide_eq_true (show t = i from hit.symm), Bool.true_or]
    exact decide_eq_true (by omega)
  · rw [if_neg hit, decide_eq_false (show ¬(t = i) from fun h => hit h.symm), Bool.false_or]
    by_cases hip : i = p
    · rw [if_pos hip, decide_eq_true (show p = i from hip.symm), Bool.true_or]
      exact decide_eq_true (by omega)
    · rw [if_neg hip, decide_eq_false (show ¬(p = i) from fun h => hip h.symm), Bool.false_or]
      by_cases hbm : m.testBit i = true
      · rw [if_pos hbm, hbm]
        exact decide_eq_true (by omega)
      · rw [if_neg hbm, testBit_false_of_ne hbm]
        exact decide_eq_false (by omega)

theorem ctv_of_counts_mask {s : List Card} {m : Nat}
    (hcount : ∀ v, value_count s v = if m.testBit v = true then 1 else 0) :
    ∀ k, 2 ≤ k → count_to_value s k = 0 := by
  intro k hk
  rw [ctv_eq_zero_iff]
  intro v _ hv
  rw [hcount v] at hv
  by_cases hb : m.testBit v = true
  · rw [if_pos hb] at hv
    omega
  · rw [if_neg hb] at hv
    omega

theorem ctv_of_counts_one {s : List Card} {q n m : Nat} (hq : q < 13)
    (hcount : ∀ v, value_count s v
      = if v = q then n else if m.testBit v = true then 1 else 0) :
    ∀ k, 2 ≤ k → count_to_value s k = if n = k then 1 <<< q else 0 := by
  intro k hk
  by_cases hnk : n = k
  · rw [if_pos hnk]
    apply Nat.eq_of_testBit_eq
    intro i
    rw [testBit_count_to_value, hcount i, testBit_one_shift]
    by_cases hiq : i = q
    · rw [if_pos hiq, decide_eq_true (show q = i from hiq.symm)]
      rw [decide_eq_true (show i < 13 from hiq ▸ hq), decide_eq_true hnk]
      rfl
    · rw [if_neg hiq, decide_eq_false (show ¬(q = i) from fun h => hiq h.symm)]
      by_cases hb : m.testBit i = true
      · rw [if_pos hb, decide_eq_false (show ¬((1:ℕ) = k) by omega), Bool.and_false]
      · rw [if_neg hb, decide_eq_false (show ¬((0:ℕ) = k) by omega), Bool.and_false]
  · rw [if_neg hnk]
    rw [ctv_eq_zero_iff]
    intro v _ hv
    rw [hcount v] at hv
    by_cases hvq : v = q
    · rw [if_pos hvq] at hv
      exact hnk hv
    · rw [if_neg hvq] at hv
      by_cases hb : m.testBit v = true
      · rw [if_pos hb] at hv
        omega
      · rw [if_neg hb] at hv
        omega

theorem ctv_of_counts_two {s : List Card} {t p a b m : Nat} (ht : t < 13) (hp : p < 13)
    (htp : t ≠ p)
    (hcount : ∀ v, value_count s v
      = if v = t then a else if v = p then b else if m.testBit v = true then 1 else 0) :
    ∀ k, 2 ≤ k → count_to_value s k
      = (if a = k then 1 <<< t else 0) ||| (if b = k then 1 <<< p else 0) := by
  intro k hk
  apply Nat.eq_of_testBit_eq
  intro i
  rw [testBit_count_to_value, hcount i, Nat.testBit_lor]
  by_cases hit : i = t
  · subst hit
    rw [if_pos rfl, decide_eq_true ht]
    have hpbit : (if b = k then 1 <<< p else 0).testBit i = false := by
      by_cases hbk : b = k
      · rw [if_pos hbk, testBit_one_shift]
        exact decide_eq_false (fun h => htp h.symm)
      · rw [if_neg hbk]
        exact Nat.zero_testBit i
    rw [hpbit, Bool.or_false, Bool.true_and]
    by_cases hak : a = k
    · rw [if_pos hak, testBit_one_shift, decide_eq_true (rfl : i = i)]
      exact decide_eq_true hak
    · rw [if_neg hak, Nat.zero_testBit]
      exact decide_eq_false hak
  · rw [if_neg hit]
    have htbit : (if a = k then 1 <<< t else 0).testBit i = false := by
      by_cases hak : a = k
      · rw [if_pos hak, testBit_one_shift]
        exact decide_eq_false (fun h => hit h.symm)
      · rw [if_neg hak]
        exact Nat.zero_testBit i
    rw [htbit, Bool.false_or]
    by_cases hip : i = p
    · subst hip
      rw [if_pos rfl, decide_eq_true hp, Bool.true_and]
      by_cases hbk : b = k
      · rw [if_pos hbk, testBit_one_shift, decide_eq_true (rfl : i = i)]
        exact decide_eq_true hbk
      · rw [if_neg hbk, Nat.zero_testBit]
        exact decide_eq_false hbk
    · rw [if_neg hip]
      have hlhs : (if b = k then 1 <<< p else 0).testBit i = false := by
        by_cases hbk : b = k
        · rw [if_pos hbk, testBit_one_shift]
          exact decide_eq_false (fun h => hip h.symm)
        · rw [if_neg hbk]
          exact Nat.zero_testBit i
      rw [hlhs]
      by_cases hb2 : m.testBit i = true
      · rw [if_pos hb2, decide_eq_false (show ¬((1:ℕ) = k) by omega), Bool.and_false]
      · rw [if_neg hb2, decide_eq_false (show ¬((0:ℕ) = k) by omega), Bool.and_false]


theorem vs_bit_count {cs : List Card} {i : Nat} (h : (value_set cs).testBit i = true) :
    0 < value_count cs i := by
  rw [testBit_vs_count] at h
  exact of_decide_eq_true h

theorem vs_lt_8192 (cs : List Card) : value_set cs < 8192 := by
  have h := value_set_lt cs
  have h13 : (2:ℕ) ^ 13 = 8192 := by norm_num
  omega

theorem count_ones_one_shift : ∀ q, q < 16 → count_ones (1 <<< q) = 1 := by decide

theorem lor_xor_self {a b : Nat} (hd : ∀ i, a.testBit i = true → b.testBit i = false) :
    (a ||| b) ^^^ a = b := by
  apply Nat.eq_of_testBit_eq
  intro i
  rw [Nat.testBit_xor, Nat.testBit_lor]
  rcases ha : a.testBit i
  · rcases hb : b.testBit i <;> rfl
  · rw [hd i ha]
    rfl

theorem ctv_s_bit {s : List Card} {k i : Nat} (h : (count_to_value s k).testBit i = true) :
    i < 13 ∧ value_count s i = k := by
  rw [testBit_count_to_value, Bool.and_eq_true] at h
  exact ⟨of_decide_eq_true h.1, of_decide_eq_true h.2⟩

theorem counts_le_one {cs : List Card} (hnd : cs.Nodup)
    (h2 : count_to_value cs 2 = 0) (h3 : count_to_value cs 3 = 0)
    (h4 : count_to_value cs 4 = 0) : ∀ v, value_count cs v ≤ 1 := by
  intro v
  by_cases hv : v < 13
  · have ha := value_count_le_four hnd v
    have hb := (ctv_eq_zero_iff cs 2).mp h2 v hv
    have hc := (ctv_eq_zero_iff cs 3).mp h3 v hv
    have he := (ctv_eq_zero_iff cs 4).mp h4 v hv
    omega
  · rw [value_count_ge_13 cs (by omega)]
    omega

theorem highcard_branch {cs : List Card} (hlen : cs.length = 7) (hnd : cs.Nodup)
    (hnf : ∀ su : Suit, count_ones (suit_value_set cs su) < 5)
    (h2 : count_to_value cs 2 = 0) (h3 : count_to_value cs 3 = 0)
    (h4 : count_to_value cs 4 = 0)
    (hst : rank_straight (value_set cs) = none) :
    (∃ s, s.Sublist cs ∧ s.length = 5
        ∧ rank_five s = .HighCard (keep_n (value_set cs) 5))
    ∧ ∀ s, s.Sublist cs → s.length = 5 →
        (rank_five s).ble (.HighCard (keep_n (value_set cs) 5)) = true := by
  have hc1 : ∀ v, value_count cs v ≤ 1 := counts_le_one hnd h2 h3 h4
  have hu7 : count_ones (value_set cs) = 7 := by
    obtain ⟨hp1, hp2⟩ := ctv_profile hnd
    rw [hlen] at hp2
    rw [h2, h3, h4, count_ones_zero] at hp1 hp2
    omega
  obtain ⟨k1, k2, k3⟩ := keep_n_spec (vs_lt_16 cs) 5
  have hK13 : keep_n (value_set cs) 5 < 2 ^ 13 :=
    lt_two_pow_of_subset (value_set_lt cs) k1
  have hKcnt : count_ones (keep_n (value_set cs) 5) = 5 := by
    rw [k2]
    omega
  constructor
  · have hgen := value_count_pick_gen hnd (E := []) hK13 (by simp) (by simp) (by simp)
      (fun i hi => vs_bit_count (k1 i hi))
    have hcount : ∀ v, value_count (pickCards cs ([] ++ maskPicks (keep_n (value_set cs) 5))) v
        = if (keep_n (value_set cs) 5).testBit v = true then 1 else 0 :=
      fun v => hgen.2 v (by simp)
    have hvs := value_set_of_counts_mask hcount
    have hlen5 : (pickCards cs ([] ++ maskPicks (keep_n (value_set cs) 5))).length = 5 := by
      rw [← sum_value_count, Finset.sum_congr rfl (fun v _ => hcount v),
        sum_indicator_mask hK13, hKcnt]
    have hsubl := pickCards_sublist cs ([] ++ maskPicks (keep_n (value_set cs) 5))
    refine ⟨_, hsubl, hlen5, ?_⟩
    rw [rank_five_u5_hc (by rw [hvs, hKcnt])
      (by rw [hvs]; exact rank_straight_none_of_subset (vs_lt_8192 cs) k1 hst)
      (sub_no_flush hsubl hnf), hvs]
  · intro s hsubl hlen5
    have hnds : s.Nodup := hnd.sublist hsubl
    have hcs1 : ∀ v, value_count s v ≤ 1 :=
      fun v => le_trans (value_count_sublist_le hsubl v) (hc1 v)
    have h2s : count_to_value s 2 = 0 :=
      (ctv_eq_zero_iff s 2).mpr (fun v _ hv => by have := hcs1 v; omega)
    have h3s : count_to_value s 3 = 0 :=
      (ctv_eq_zero_iff s 3).mpr (fun v _ hv => by have := hcs1 v; omega)
    have h4s : count_to_value s 4 = 0 :=
      (ctv_eq_zero_iff s 4).mpr (fun v _ hv => by have := hcs1 v; omega)
    obtain ⟨hp1, hp2⟩ := ctv_profile hnds
    rw [hlen5] at hp2
    rw [h2s, h3s, h4s, count_ones_zero] at hp1 hp2
    have hu5 : count_ones (value_set s) = 5 := by omega
    have hstS : rank_straight (value_set s) = none :=
      rank_straight_none_of_subset (vs_lt_8192 cs) (vs_subset_of_sublist hsubl) hst
    rw [rank_five_u5_hc hu5 hstS (sub_no_flush hsubl hnf)]
    refine ble_of_tag_eq_payload_le rfl ?_
    show value_set s ≤ keep_n (value_set cs) 5
    exact le_keep_n_of_subset (vs_lt_16 cs) (vs_subset_of_sublist hsubl)
      (by omega) (by omega)


theorem count_unique_of_single {cs : List Card} {t k : Nat}
    (h : count_to_value cs k = 1 <<< t) :
    ∀ v, v < 13 → value_count cs v = k → v = t := by
  intro v hv hc
  have hb : (count_to_value cs k).testBit v = true := by
    rw [testBit_count_to_value, decide_eq_true hv, decide_eq_true hc]
    rfl
  rw [h, testBit_one_shift] at hb
  exact (of_decide_eq_true hb).symm

theorem straight_branch {cs : List Card} {r : Nat} (hlen : cs.length = 7) (hnd : cs.Nodup)
    (hnf : ∀ su : Suit, count_ones (suit_value_set cs su) < 5)
    (h4 : count_to_value cs 4 = 0)
    (hfh : count_to_value cs 3 = 0
      ∨ (count_ones (count_to_value cs 3) = 1 ∧ count_to_value cs 2 = 0))
    (hst : rank_straight (value_set cs) = some r) :
    (∃ s, s.Sublist cs ∧ s.length = 5 ∧ rank_five s = .Straight r)
    ∧ ∀ s, s.Sublist cs → s.length = 5 → (rank_five s).ble (.Straight r) = true := by
  have hmax3 : ∀ v, value_count cs v ≤ 3 := by
    intro v
    by_cases hv : v < 13
    · have ha := value_count_le_four hnd v
      have hb := (ctv_eq_zero_iff cs 4).mp h4 v hv
      omega
    · rw [value_count_ge_13 cs (by omega)]
      omega
  constructor
  · -- attainment: a 5-bit straight mask inside the value set
    have hM : ∃ M, M < 2 ^ 13 ∧ count_ones M = 5 ∧ rank_straight M = some r
        ∧ ∀ i, M.testBit i = true → (value_set cs).testBit i = true := by
      rcases rank_straight_some_cases (vs_lt_8192 cs) hst with ⟨hrun, hbest⟩ | ⟨_, hw, hr0⟩
      · obtain ⟨hAt, hlt9⟩ := hasRunAt_bestRun hrun
        have hsub := runMask_subset hAt
        refine ⟨31 <<< (bestRun (value_set cs) - 1),
          lt_two_pow_of_subset (value_set_lt cs) hsub,
          count_ones_runMask _ hlt9, ?_, hsub⟩
        rw [rank_straight_runMask _ hlt9]
        have hpos := bestRun_pos (value_set cs)
        have h5 : bestRun (value_set cs) - 1 + 1 = r := by
          rw [hbest]
          omega
        rw [h5]
      · refine ⟨WHEEL, by decide, wheel_count_ones, ?_, and_wheel_iff.mp hw⟩
        rw [rank_straight_WHEEL, hr0]
    obtain ⟨M, hM13, hMcnt, hMst, hMsub⟩ := hM
    have hgen := value_count_pick_gen hnd (E := []) hM13 (by simp) (by simp) (by simp)
      (fun i hi => vs_bit_count (hMsub i hi))
    have hcount : ∀ v, value_count (pickCards cs ([] ++ maskPicks M)) v
        = if M.testBit v = true then 1 else 0 :=
      fun v => hgen.2 v (by simp)
    have hvs := value_set_of_counts_mask hcount
    have hlen5 : (pickCards cs ([] ++ maskPicks M)).length = 5 := by
      rw [← sum_value_count, Finset.sum_congr rfl (fun v _ => hcount v),
        sum_indicator_mask hM13, hMcnt]
    have hsubl := pickCards_sublist cs ([] ++ maskPicks M)
    refine ⟨_, hsubl, hlen5, ?_⟩
    rw [rank_five_u5_st (by rw [hvs, hMcnt]) (by rw [hvs]; exact hMst)
      (sub_no_flush hsubl hnf)]
  · intro s hsubl hlen5
    have hnds : s.Nodup := hnd.sublist hsubl
    have hcnt : ∀ v, value_count s v ≤ 3 :=
      fun v => le_trans (value_count_sublist_le hsubl v) (hmax3 v)
    have h4s : count_to_value s 4 = 0 :=
      (ctv_eq_zero_iff s 4).mpr (fun v _ hv => by have := hcnt v; omega)
    obtain ⟨hp1, hp2⟩ := ctv_profile hnds
    rw [hlen5] at hp2
    rw [h4s, count_ones_zero] at hp1 hp2
    have hu : count_ones (value_set s) = 2 ∨ count_ones (value_set s) = 3
        ∨ count_ones (value_set s) = 4 ∨ count_ones (value_set s) = 5 := by
      omega
    rcases hu with hu | hu | hu | hu
    · -- u = 2 impossible here: would need a full house or quads in the subset
      exfalso
      have hn3 : count_ones (count_to_value s 3) = 1 := by omega
      have hn2 : count_ones (count_to_value s 2) = 1 := by omega
      obtain ⟨v, hv13, _, hvc⟩ := ctv_single_bit hn3
      obtain ⟨w, hw13, _, hwc⟩ := ctv_single_bit hn2
      have hvcs : value_count cs v = 3 := by
        have := value_count_sublist_le hsubl v
        have := hmax3 v
        omega
      have hwcs : 2 ≤ value_count cs w := by
        have := value_count_sublist_le hsubl w
        omega
      rcases hfh with hfh | ⟨hfh1, hfh2⟩
      · exact (ctv_eq_zero_iff cs 3).mp hfh v hv13 hvcs
      · obtain ⟨t, _, hte, _⟩ := ctv_single_bit hfh1
        have hvt : v = t := count_unique_of_single hte v hv13 hvcs
        have hw2 : value_count cs w ≠ 2 := (ctv_eq_zero_iff cs 2).mp hfh2 w hw13
        have hwcs3 : value_count cs w = 3 := by
          have := hmax3 w
          omega
        have hwt : w = t := count_unique_of_single hte w hw13 hwcs3
        have : v ≠ w := by
          intro he
          rw [he, hwc] at hvc
          omega
        exact this (hvt.trans hwt.symm)
    · by_cases hc3s : count_to_value s 3 = 0
      · rw [rank_five_u3_tp hu hc3s]
        exact ble_of_tag_lt (by simp [Rank.tagNat])
      · rw [rank_five_u3_trips hu hc3s]
        exact ble_of_tag_lt (by simp [Rank.tagNat])
    · rw [rank_five_u4_eq hu]
      exact ble_of_tag_lt (by simp [Rank.tagNat])
    · have hfl := sub_no_flush hsubl hnf
      rcases hsts : rank_straight (value_set s) with _ | r'
      · rw [rank_five_u5_hc hu hsts hfl]
        exact ble_of_tag_lt (by simp [Rank.tagNat])
      · rw [rank_five_u5_st hu hsts hfl]
        refine ble_of_tag_eq_payload_le rfl ?_
        show r' ≤ r
        exact rank_straight_le_of_subset (vs_lt_8192 cs) (vs_subset_of_sublist hsubl)
          hst hsts


theorem onepair_branch {cs : List Card} (hlen : cs.length = 7) (hnd : cs.Nodup)
    (hnf : ∀ su : Suit, count_ones (suit_value_set cs su) < 5)
    (h3 : count_to_value cs 3 = 0) (h4 : count_to_value cs 4 = 0)
    (hst : rank_straight (value_set cs) = none)
    (hn2 : count_ones (count_to_value cs 2) = 1) :
    (∃ s, s.Sublist cs ∧ s.length = 5
        ∧ rank_five s = .OnePair ((count_to_value cs 2 <<< 13)
            ||| keep_n (value_set cs ^^^ count_to_value cs 2) 3))
    ∧ ∀ s, s.Sublist cs → s.length = 5 →
        (rank_five s).ble (.OnePair ((count_to_value cs 2 <<< 13)
            ||| keep_n (value_set cs ^^^ count_to_value cs 2) 3)) = true := by
  obtain ⟨q, hq13, hqe, hqc⟩ := ctv_single_bit hn2
  have hother : ∀ v, v ≠ q → value_count cs v ≤ 1 := by
    intro v hv
    by_cases hv13 : v < 13
    · have ha := value_count_le_four hnd v
      have hb := (ctv_eq_zero_iff cs 3).mp h3 v hv13
      have hc := (ctv_eq_zero_iff cs 4).mp h4 v hv13
      have hd : value_count cs v ≠ 2 := fun hcc => hv (count_unique_of_single hqe v hv13 hcc)
      omega
    · rw [value_count_ge_13 cs (by omega)]
      omega
  have hu6 : count_ones (value_set cs) = 6 := by
    obtain ⟨hp1, hp2⟩ := ctv_profile hnd
    rw [hlen] at hp2
    rw [h3, h4, count_ones_zero, hn2] at hp1 hp2
    omega
  have hxsub : ∀ i, (value_set cs ^^^ count_to_value cs 2).testBit i = true →
      (value_set cs).testBit i = true :=
    fun i h => (xor_bits_mem (ctv_subset_vs cs (by omega)) h).1
  have hxcnt : count_ones (value_set cs ^^^ count_to_value cs 2) = 5 := by
    rw [count_ones_xor_of_subset (vs_lt_16 cs) (ctv_subset_vs cs (by omega)), hu6, hn2]
  have hx13 : value_set cs ^^^ count_to_value cs 2 < 2 ^ 13 :=
    lt_two_pow_of_subset (value_set_lt cs) hxsub
  obtain ⟨j1, j2, j3⟩ := keep_n_spec
    (lt_of_lt_of_le hx13 (by norm_num)) (k := 3)
    (m := value_set cs ^^^ count_to_value cs 2)
  have hK13 : keep_n (value_set cs ^^^ count_to_value cs 2) 3 < 2 ^ 13 :=
    lt_two_pow_of_subset hx13 j1
  have hKcnt : count_ones (keep_n (value_set cs ^^^ count_to_value cs 2) 3) = 3 := by
    rw [j2, hxcnt]
    omega
  have hvsq : (value_set cs).testBit q = true := by
    rw [testBit_vs_count]
    exact decide_eq_true (by omega)
  have hxq : (value_set cs ^^^ count_to_value cs 2).testBit q = false := by
    rw [Nat.testBit_xor, hvsq, hqe, testBit_one_shift, decide_eq_true (rfl : q = q)]
    rfl
  have hKq : (keep_n (value_set cs ^^^ count_to_value cs 2) 3).testBit q = false := by
    rcases hb : (keep_n (value_set cs ^^^ count_to_value cs 2) 3).testBit q
    · rfl
    · have := j1 q hb
      rw [hxq] at this
      exact absurd this (by simp)
  constructor
  · -- attainment: the pair plus the three highest kickers
    have hgen := value_count_pick_gen hnd (E := [(q, 2)]) hK13 (by simp)
      (by
        intro p hp
        rcases List.mem_cons.mp hp with h | h
        · rw [h]
          exact hKq
        · exact absurd h (List.not_mem_nil p))
      (by
        intro p hp
        rcases List.mem_cons.mp hp with h | h
        · rw [h]
          show 2 ≤ value_count cs q
          omega
        · exact absurd h (List.not_mem_nil p))
      (fun i hi => vs_bit_count (hxsub i (j1 i hi)))
    have hcount : ∀ v,
        value_count (pickCards cs ([(q, 2)]
          ++ maskPicks (keep_n (value_set cs ^^^ count_to_value cs 2) 3))) v
        = if v = q then 2
          else if (keep_n (value_set cs ^^^ count_to_value cs 2) 3).testBit v = true
            then 1 else 0 := by
      intro v
      by_cases hv : v = q
      · subst hv
        rw [if_pos rfl]
        exact hgen.1 (v, 2) (List.mem_cons_self _ _)
      · rw [if_neg hv]
        apply hgen.2 v
        intro p hp
        rcases List.mem_cons.mp hp with h | h
        · rw [h]
          exact fun he => hv he.symm
        · exact absurd h (List.not_mem_nil p)
    have hvs := value_set_of_counts_one (by omega) hcount
    have hc2s := ctv_of_counts_one hq13 hcount 2 (by omega)
    have hc3s := ctv_of_counts_one hq13 hcount 3 (by omega)
    have hc4s := ctv_of_counts_one hq13 hcount 4 (by omega)
    rw [if_pos rfl] at hc2s
    rw [if_neg (by omega)] at hc3s
    rw [if_neg (by omega)] at hc4s
    have hsubl := pickCards_sublist cs ([(q, 2)]
      ++ maskPicks (keep_n (value_set cs ^^^ count_to_value cs 2) 3))
    have hnds := hnd.sublist hsubl
    have hlen5 : (pickCards cs ([(q, 2)]
        ++ maskPicks (keep_n (value_set cs ^^^ count_to_value cs 2) 3))).length = 5 := by
      rw [← sum_value_count, Finset.sum_congr rfl (fun v _ => hcount v),
        sum_one_special hq13 hK13 hKq, hKcnt]
    have hu4 : count_ones (value_set (pickCards cs ([(q, 2)]
        ++ maskPicks (keep_n (value_set cs ^^^ count_to_value cs 2) 3)))) = 4 := by
      obtain ⟨hp1, hp2⟩ := ctv_profile hnds
      rw [hlen5] at hp2
      rw [hc2s, hc3s, hc4s, count_ones_zero,
        count_ones_one_shift q (by omega)] at hp1 hp2
      omega
    refine ⟨_, hsubl, hlen5, ?_⟩
    rw [rank_five_u4_eq hu4, hc2s, hvs]
    have hd : ∀ i, (1 <<< q).testBit i = true →
        (keep_n (value_set cs ^^^ count_to_value cs 2) 3).testBit i = false := by
      intro i hi
      rw [testBit_one_shift] at hi
      rw [← of_decide_eq_true hi]
      exact hKq
    rw [lor_xor_self hd, hqe]
  · intro s hsubl hlen5
    have hnds : s.Nodup := hnd.sublist hsubl
    have hsq : value_count s q ≤ 2 := le_trans (value_count_sublist_le hsubl q) (by omega)
    have hso : ∀ v, v ≠ q → value_count s v ≤ 1 :=
      fun v hv => le_trans (value_count_sublist_le hsubl v) (hother v hv)
    have hsall : ∀ v, value_count s v ≤ 2 := by
      intro v
      by_cases hv : v = q
      · rw [hv]
        exact hsq
      · have := hso v hv
        omega
    have h3s : count_to_value s 3 = 0 :=
      (ctv_eq_zero_iff s 3).mpr (fun v _ hv => by have := hsall v; omega)
    have h4s : count_to_value s 4 = 0 :=
      (ctv_eq_zero_iff s 4).mpr (fun v _ hv => by have := hsall v; omega)
    have hsub2 : ∀ i, (count_to_value s 2).testBit i = true → (1 <<< q).testBit i = true := by
      intro i hi
      obtain ⟨hi13, hic⟩ := ctv_s_bit hi
      have hiq : i = q := by
        by_contra hcon
        have := hso i hcon
        omega
      rw [testBit_one_shift]
      exact decide_eq_true hiq.symm
    have hn2s : count_ones (count_to_value s 2) ≤ 1 := by
      have := count_ones_mono (show (1 <<< q : Nat) < 2 ^ 16 by
        have : q < 13 := hq13
        have h2 : (1 <<< q : Nat) = 2 ^ q := by rw [Nat.shiftLeft_eq, Nat.one_mul]
        rw [h2]
        exact Nat.pow_lt_pow_right (by omega) (by omega)) hsub2
      rw [count_ones_one_shift q (by omega)] at this
      exact this
    obtain ⟨hp1, hp2⟩ := ctv_profile hnds
    rw [hlen5] at hp2
    rw [h3s, h4s, count_ones_zero] at hp1 hp2
    have hcases : (count_ones (value_set s) = 5 ∧ count_ones (count_to_value s 2) = 0)
        ∨ (count_ones (value_set s) = 4 ∧ count_ones (count_to_value s 2) = 1) := by
      omega
    rcases hcases with ⟨hu5, _⟩ | ⟨hu4, hn2s1⟩
    · have hstS : rank_straight (value_set s) = none :=
        rank_straight_none_of_subset (vs_lt_8192 cs) (vs_subset_of_sublist hsubl) hst
      rw [rank_five_u5_hc hu5 hstS (sub_no_flush hsubl hnf)]
      exact ble_of_tag_lt (by simp [Rank.tagNat])
    · have hc2seq : count_to_value s 2 = 1 <<< q := by
        apply mask_eq_of_subset_of_count
          (show (1 <<< q : Nat) < 2 ^ 16 by
            have h2 : (1 <<< q : Nat) = 2 ^ q := by rw [Nat.shiftLeft_eq, Nat.one_mul]
            rw [h2]
            exact Nat.pow_lt_pow_right (by omega) (by omega))
          hsub2
        rw [count_ones_one_shift q (by omega), hn2s1]
      rw [rank_five_u4_eq hu4]
      refine ble_of_tag_eq_payload_le (by simp [Rank.tagNat]) ?_
      show (count_to_value s 2 <<< 13) ||| (value_set s ^^^ count_to_value s 2)
        ≤ (count_to_value cs 2 <<< 13) ||| keep_n (value_set cs ^^^ count_to_value cs 2) 3
      have hminor13 : value_set s ^^^ count_to_value s 2 < 2 ^ 13 := by
        apply lt_two_pow_of_subset (value_set_lt cs)
        intro i hi
        exact vs_subset_of_sublist hsubl i
          (xor_bits_mem (ctv_subset_vs s (by omega)) hi).1
      apply pack_le_pack hminor13 hK13
      refine Or.inr ⟨hc2seq.trans hqe.symm, ?_⟩
      apply le_keep_n_of_subset (lt_of_lt_of_le hx13 (by norm_num))
      · intro i hi
        obtain ⟨hvi, hci⟩ := xor_bits_mem (ctv_subset_vs s (by omega)) hi
        have hvcs := vs_subset_of_sublist hsubl i hvi
        have hiq : i ≠ q := by
          intro he
          rw [he, hc2seq, testBit_one_shift, decide_eq_true (rfl : q = q)] at hci
          exact absurd hci (by simp)
        rw [Nat.testBit_xor, hvcs, hqe, testBit_one_shift,
          decide_eq_false (fun h => hiq h.symm)]
        rfl
      · rw [count_ones_xor_of_subset
          (lt_two_pow_of_subset (lt_of_lt_of_le (value_set_lt cs) (by norm_num))
            (vs_subset_of_sublist hsubl))
          (ctv_subset_vs s (by omega)), hu4, hn2s1]
      · omega


theorem one_shift_lt {q : Nat} (h : q < 16) : (1 <<< q : Nat) < 2 ^ 16 := by
  rw [Nat.shiftLeft_eq, Nat.one_mul]
  exact Nat.pow_lt_pow_right (by omega) h

theorem one_shift_ne_zero (q : Nat) : (1 <<< q : Nat) ≠ 0 := by
  rw [Nat.shiftLeft_eq, Nat.one_mul]
  exact (Nat.pos_pow_of_pos q (by omega)).ne'

theorem exists_bit_of_ne_zero {m : Nat} (h : m ≠ 0) : ∃ i, m.testBit i = true := by
  by_contra hcon
  push_neg at hcon
  exact h (eq_zero_iff_no_bits.mpr (fun i => testBit_false_of_ne (hcon i)))

theorem trips_branch {cs : List Card} (hlen : cs.length = 7) (hnd : cs.Nodup)
    (hnf : ∀ su : Suit, count_ones (suit_value_set cs su) < 5)
    (h2 : count_to_value cs 2 = 0) (h4 : count_to_value cs 4 = 0)
    (hst : rank_straight (value_set cs) = none)
    (hn3 : count_ones (count_to_value cs 3) = 1) :
    (∃ s, s.Sublist cs ∧ s.length = 5
        ∧ rank_five s = .ThreeOfAKind ((count_to_value cs 3 <<< 13)
            ||| keep_n (value_set cs ^^^ count_to_value cs 3) 2))
    ∧ ∀ s, s.Sublist cs → s.length = 5 →
        (rank_five s).ble (.ThreeOfAKind ((count_to_value cs 3 <<< 13)
            ||| keep_n (value_set cs ^^^ count_to_value cs 3) 2)) = true := by
  obtain ⟨t, ht13, hte, htc⟩ := ctv_single_bit hn3
  have hother : ∀ v, v ≠ t → value_count cs v ≤ 1 := by
    intro v hv
    by_cases hv13 : v < 13
    · have ha := value_count_le_four hnd v
      have hb := (ctv_eq_zero_iff cs 2).mp h2 v hv13
      have hc := (ctv_eq_zero_iff cs 4).mp h4 v hv13
      have hd : value_count cs v ≠ 3 := fun hcc => hv (count_unique_of_single hte v hv13 hcc)
      omega
    · rw [value_count_ge_13 cs (by omega)]
      omega
  have hu5 : count_ones (value_set cs) = 5 := by
    obtain ⟨hp1, hp2⟩ := ctv_profile hnd
    rw [hlen] at hp2
    rw [h2, h4, count_ones_zero, hn3] at hp1 hp2
    omega
  have hxsub : ∀ i, (value_set cs ^^^ count_to_value cs 3).testBit i = true →
      (value_set cs).testBit i = true :=
    fun i h => (xor_bits_mem (ctv_subset_vs cs (by omega)) h).1
  have hxcnt : count_ones (value_set cs ^^^ count_to_value cs 3) = 4 := by
    rw [count_ones_xor_of_subset (vs_lt_16 cs) (ctv_subset_vs cs (by omega)), hu5, hn3]
  have hx13 : value_set cs ^^^ count_to_value cs 3 < 2 ^ 13 :=
    lt_two_pow_of_subset (value_set_lt cs) hxsub
  obtain ⟨j1, j2, j3⟩ := keep_n_spec
    (lt_of_lt_of_le hx13 (by norm_num)) (k := 2)
    (m := value_set cs ^^^ count_to_value cs 3)
  have hK13 : keep_n (value_set cs ^^^ count_to_value cs 3) 2 < 2 ^ 13 :=
    lt_two_pow_of_subset hx13 j1
  have hKcnt : count_ones (keep_n (value_set cs ^^^ count_to_value cs 3) 2) = 2 := by
    rw [j2, hxcnt]
    omega
  have hvst : (value_set cs).testBit t = true := by
    rw [testBit_vs_count]
    exact decide_eq_true (by omega)
  have hxt : (value_set cs ^^^ count_to_value cs 3).testBit t = false := by
    rw [Nat.testBit_xor, hvst, hte, testBit_one_shift, decide_eq_true (rfl : t = t)]
    rfl
  have hKt : (keep_n (value_set cs ^^^ count_to_value cs 3) 2).testBit t = false := by
    rcases hb : (keep_n (value_set cs ^^^ count_to_value cs 3) 2).testBit t
    · rfl
    · have h5 := j1 t hb
      rw [hxt] at h5
      exact absurd h5 (by simp)
  constructor
  · have hgen := value_count_pick_gen hnd (E := [(t, 3)]) hK13 (by simp)
      (by
        intro p hp
        rcases List.mem_cons.mp hp with h | h
        · rw [h]
          exact hKt
        · exact absurd h (List.not_mem_nil p))
      (by
        intro p hp
        rcases List.mem_cons.mp hp with h | h
        · rw [h]
          show 3 ≤ value_count cs t
          omega
        · exact absurd h (List.not_mem_nil p))
      (fun i hi => vs_bit_count (hxsub i (j1 i hi)))
    have hcount : ∀ v,
        value_count (pickCards cs ([(t, 3)]
          ++ maskPicks (keep_n (value_set cs ^^^ count_to_value cs 3) 2))) v
        = if v = t then 3
          else if (keep_n (value_set cs ^^^ count_to_value cs 3) 2).testBit v = true
            then 1 else 0 := by
      intro v
      by_cases hv : v = t
      · subst hv
        rw [if_pos rfl]
        exact hgen.1 (v, 3) (List.mem_cons_self _ _)
      · rw [if_neg hv]
        apply hgen.2 v
        intro p hp
        rcases List.mem_cons.mp hp with h | h
        · rw [h]
          exact fun he => hv he.symm
        · exact absurd h (List.not_mem_nil p)
    have hvs := value_set_of_counts_one (by omega) hcount
    have hc2s := ctv_of_counts_one ht13 hcount 2 (by omega)
    have hc3s := ctv_of_counts_one ht13 hcount 3 (by omega)
    have hc4s := ctv_of_counts_one ht13 hcount 4 (by omega)
    rw [if_neg (by omega)] at hc2s
    rw [if_pos rfl] at hc3s
    rw [if_neg (by omega)] at hc4s
    have hsubl := pickCards_sublist cs ([(t, 3)]
      ++ maskPicks (keep_n (value_set cs ^^^ count_to_value cs 3) 2))
    have hnds := hnd.sublist hsubl
    have hlen5 : (pickCards cs ([(t, 3)]
        ++ maskPicks (keep_n (value_set cs ^^^ count_to_value cs 3) 2))).length = 5 := by
      rw [← sum_value_count, Finset.sum_congr rfl (fun v _ => hcount v),
        sum_one_special ht13 hK13 hKt, hKcnt]
    have hu3 : count_ones (value_set (pickCards cs ([(t, 3)]
        ++ maskPicks (keep_n (value_set cs ^^^ count_to_value cs 3) 2)))) = 3 := by
      obtain ⟨hp1, hp2⟩ := ctv_profile hnds
      rw [hlen5] at hp2
      rw [hc2s, hc3s, hc4s, count_ones_zero,
        count_ones_one_shift t (by omega)] at hp1 hp2
      omega
    refine ⟨_, hsubl, hlen5, ?_⟩
    rw [rank_five_u3_trips hu3 (by rw [hc3s]; exact one_shift_ne_zero t), hc3s, hvs]
    have hd : ∀ i, (1 <<< t).testBit i = true →
        (keep_n (value_set cs ^^^ count_to_value cs 3) 2).testBit i = false := by
      intro i hi
      rw [testBit_one_shift] at hi
      rw [← of_decide_eq_true hi]
      exact hKt
    rw [lor_xor_self hd, hte]
  · intro s hsubl hlen5
    have hnds : s.Nodup := hnd.sublist hsubl
    have hst3 : value_count s t ≤ 3 := le_trans (value_count_sublist_le hsubl t) (by omega)
    have hso : ∀ v, v ≠ t → value_count s v ≤ 1 :=
      fun v hv => le_trans (value_count_sublist_le hsubl v) (hother v hv)
    have hsall : ∀ v, value_count s v ≤ 3 := by
      intro v
      by_cases hv : v = t
      · rw [hv]
        exact hst3
      · have := hso v hv
        omega
    have h4s : count_to_value s 4 = 0 :=
      (ctv_eq_zero_iff s 4).mpr (fun v _ hv => by have := hsall v; omega)
    have hsub2 : ∀ i, (count_to_value s 2).testBit i = true → (1 <<< t).testBit i = true := by
      intro i hi
      obtain ⟨hi13, hic⟩ := ctv_s_bit hi
      have hit : i = t := by
        by_contra hcon
        have := hso i hcon
        omega
      rw [testBit_one_shift]
      exact decide_eq_true hit.symm
    have hsub3 : ∀ i, (count_to_value s 3).testBit i = true → (1 <<< t).testBit i = true := by
      intro i hi
      obtain ⟨hi13, hic⟩ := ctv_s_bit hi
      have hit : i = t := by
        by_contra hcon
        have := hso i hcon
        omega
      rw [testBit_one_shift]
      exact decide_eq_true hit.symm
    have hn2s : count_ones (count_to_value s 2) ≤ 1 := by
      have h5 := count_ones_mono (one_shift_lt (by omega)) hsub2
      rw [count_ones_one_shift t (by omega)] at h5
      exact h5
    have hn3s : count_ones (count_to_value s 3) ≤ 1 := by
      have h5 := count_ones_mono (one_shift_lt (by omega)) hsub3
      rw [count_ones_one_shift t (by omega)] at h5
      exact h5
    have hn23 : count_ones (count_to_value s 2) = 0 ∨ count_ones (count_to_value s 3) = 0 := by
      by_contra hcon
      push_neg at hcon
      obtain ⟨hc2, hc3⟩ := hcon
      have he2 : count_to_value s 2 ≠ 0 := by
        intro h
        rw [h, count_ones_zero] at hc2
        exact hc2 rfl
      have he3 : count_to_value s 3 ≠ 0 := by
        intro h
        rw [h, count_ones_zero] at hc3
        exact hc3 rfl
      obtain ⟨i2, hb2⟩ := exists_bit_of_ne_zero he2
      obtain ⟨i3, hb3⟩ := exists_bit_of_ne_zero he3
      have hv2 := (ctv_s_bit hb2).2
      have hv3 := (ctv_s_bit hb3).2
      have hi2 : i2 = t := by
        have h5 := hsub2 i2 hb2
        rw [testBit_one_shift] at h5
        exact (of_decide_eq_true h5).symm
      have hi3 : i3 = t := by
        have h5 := hsub3 i3 hb3
        rw [testBit_one_shift] at h5
        exact (of_decide_eq_true h5).symm
      rw [hi2] at hv2
      rw [hi3] at hv3
      rw [hv2] at hv3
      omega
    obtain ⟨hp1, hp2⟩ := ctv_profile hnds
    rw [hlen5] at hp2
    rw [h4s, count_ones_zero] at hp1 hp2
    have hcases : (count_ones (value_set s) = 5 ∧ count_ones (count_to_value s 2) = 0
          ∧ count_ones (count_to_value s 3) = 0)
        ∨ (count_ones (value_set s) = 4 ∧ count_ones (count_to_value s 2) = 1
          ∧ count_ones (count_to_value s 3) = 0)
        ∨ (count_ones (value_set s) = 3 ∧ count_ones (count_to_value s 2) = 0
          ∧ count_ones (count_to_value s 3) = 1) := by
      rcases hn23 with h | h <;> omega
    rcases hcases with ⟨hu, _, _⟩ | ⟨hu, _, _⟩ | ⟨hu, _, hn3s1⟩
    · have hstS : rank_straight (value_set s) = none :=
        rank_straight_none_of_subset (vs_lt_8192 cs) (vs_subset_of_sublist hsubl) hst
      rw [rank_five_u5_hc hu hstS (sub_no_flush hsubl hnf)]
      exact ble_of_tag_lt (by simp [Rank.tagNat])
    · rw [rank_five_u4_eq hu]
      exact ble_of_tag_lt (by simp [Rank.tagNat])
    · have hc3seq : count_to_value s 3 = 1 <<< t := by
        apply mask_eq_of_subset_of_count (one_shift_lt (by omega)) hsub3
        rw [count_ones_one_shift t (by omega), hn3s1]
      rw [rank_five_u3_trips hu (by rw [hc3seq]; exact one_shift_ne_zero t)]
      refine ble_of_tag_eq_payload_le (by simp [Rank.tagNat]) ?_
      show (count_to_value s 3 <<< 13) ||| (value_set s ^^^ count_to_value s 3)
        ≤ (count_to_value cs 3 <<< 13) ||| keep_n (value_set cs ^^^ count_to_value cs 3) 2
      have hminor13 : value_set s ^^^ count_to_value s 3 < 2 ^ 13 := by
        apply lt_two_pow_of_subset (value_set_lt cs)
        intro i hi
        exact vs_subset_of_sublist hsubl i
          (xor_bits_mem (ctv_subset_vs s (by omega)) hi).1
      apply pack_le_pack hminor13 hK13
      refine Or.inr ⟨hc3seq.trans hte.symm, ?_⟩
      apply le_keep_n_of_subset (lt_of_lt_of_le hx13 (by norm_num))
      · intro i hi
        obtain ⟨hvi, hci⟩ := xor_bits_mem (ctv_subset_vs s (by omega)) hi
        have hvcs := vs_subset_of_sublist hsubl i hvi
        have hit : i ≠ t := by
          intro he
          rw [he, hc3seq, testBit_one_shift, decide_eq_true (rfl : t = t)] at hci
          exact absurd hci (by simp)
        rw [Nat.testBit_xor, hvcs, hte, testBit_one_shift,
          decide_eq_false (fun h => hit h.symm)]
        rfl
      · rw [count_ones_xor_of_subset
          (lt_two_pow_of_subset (lt_of_lt_of_le (value_set_lt cs) (by norm_num))
            (vs_subset_of_sublist hsubl))
          (ctv_subset_vs s (by omega)), hu, hn3s1]
      · omega


theorem two_bits_of_count_two {m : Nat} (hm : m < 2 ^ 16) (h : count_ones m = 2) :
    ∃ p1 p2, p1 < 16 ∧ p2 < 16 ∧ p1 ≠ p2 ∧ m = (1 <<< p1) ||| (1 <<< p2) := by
  rw [count_ones_eq_card_bitsOf, Finset.card_eq_two] at h
  obtain ⟨p1, p2, hne, hset⟩ := h
  have h1 : p1 ∈ bitsOf m := by
    rw [hset]
    simp
  have h2 : p2 ∈ bitsOf m := by
    rw [hset]
    simp
  have hp1 : p1 < 16 := by
    have := (Finset.mem_filter.mp h1).1
    exact Finset.mem_range.mp this
  have hp2 : p2 < 16 := by
    have := (Finset.mem_filter.mp h2).1
    exact Finset.mem_range.mp this
  refine ⟨p1, p2, hp1, hp2, hne, ?_⟩
  apply Nat.eq_of_testBit_eq
  intro i
  rw [Nat.testBit_lor, testBit_one_shift, testBit_one_shift]
  by_cases hi : m.testBit i = true
  · have hmem : i ∈ bitsOf m := (mem_bitsOf hm).mpr hi
    rw [hset, Finset.mem_insert, Finset.mem_singleton] at hmem
    rw [hi]
    rcases hmem with rfl | rfl
    · rw [decide_eq_true (rfl : i = i), Bool.true_or]
    · rw [decide_eq_true (rfl : i = i), Bool.or_true]
  · rw [testBit_false_of_ne hi]
    have hi1 : i ≠ p1 := by
      intro he
      exact hi (he ▸ (mem_bitsOf hm).mp h1)
    have hi2 : i ≠ p2 := by
      intro he
      exact hi (he ▸ (mem_bitsOf hm).mp h2)
    rw [decide_eq_false (fun he => hi1 he.symm), decide_eq_false (fun he => hi2 he.symm)]
    rfl

theorem twopair_branch {cs : List Card} (hlen : cs.length = 7) (hnd : cs.Nodup)
    (hnf : ∀ su : Suit, count_ones (suit_value_set cs su) < 5)
    (h3 : count_to_value cs 3 = 0) (h4 : count_to_value cs 4 = 0)
    (hst : rank_straight (value_set cs) = none)
    (hn2 : 2 ≤ count_ones (count_to_value cs 2)) :
    (∃ s, s.Sublist cs ∧ s.length = 5
        ∧ rank_five s = .TwoPair ((keep_n (count_to_value cs 2) 2 <<< 13)
            ||| keep_highest (value_set cs ^^^ keep_n (count_to_value cs 2) 2)))
    ∧ ∀ s, s.Sublist cs → s.length = 5 →
        (rank_five s).ble (.TwoPair ((keep_n (count_to_value cs 2) 2 <<< 13)
            ||| keep_highest (value_set cs ^^^ keep_n (count_to_value cs 2) 2))) = true := by
  have hctv2bit : ∀ i, (count_to_value cs 2).testBit i = true ↔
      (i < 13 ∧ value_count cs i = 2) := by
    intro i
    constructor
    · exact ctv_s_bit
    · intro ⟨h1, h2⟩
      rw [testBit_count_to_value, decide_eq_true h1, decide_eq_true h2]
      rfl
  have hother : ∀ v, (count_to_value cs 2).testBit v = false → value_count cs v ≤ 1 := by
    intro v hv
    by_cases hv13 : v < 13
    · have ha := value_count_le_four hnd v
      have hb := (ctv_eq_zero_iff cs 3).mp h3 v hv13
      have hc := (ctv_eq_zero_iff cs 4).mp h4 v hv13
      have hd : value_count cs v ≠ 2 := by
        intro hcc
        rw [(hctv2bit v).mpr ⟨hv13, hcc⟩] at hv
        exact absurd hv (by simp)
      omega
    · rw [value_count_ge_13 cs (by omega)]
      omega
  have hprof := ctv_profile hnd
  obtain ⟨hp1c, hp2c⟩ := hprof
  rw [hlen] at hp2c
  rw [h3, h4, count_ones_zero] at hp1c hp2c
  have hn2le3 : count_ones (count_to_value cs 2) ≤ 3 := by omega
  have hu : count_ones (value_set cs) = 7 - count_ones (count_to_value cs 2) := by omega
  obtain ⟨j1, j2, j3⟩ := keep_n_spec (ctv_lt16 cs 2) (k := 2) (m := count_to_value cs 2)
  have hPcnt : count_ones (keep_n (count_to_value cs 2) 2) = 2 := by
    rw [j2]
    omega
  have hP13 : keep_n (count_to_value cs 2) 2 < 2 ^ 13 :=
    lt_two_pow_of_subset (count_to_value_lt cs 2)
      (fun i hi => j1 i hi)
  have hPsubvs : ∀ i, (keep_n (count_to_value cs 2) 2).testBit i = true →
      (value_set cs).testBit i = true :=
    fun i hi => ctv_subset_vs cs (by omega) i (j1 i hi)
  have hXsub : ∀ i, (value_set cs ^^^ keep_n (count_to_value cs 2) 2).testBit i = true →
      (value_set cs).testBit i = true :=
    fun i h => (xor_bits_mem hPsubvs h).1
  have hX13 : value_set cs ^^^ keep_n (count_to_value cs 2) 2 < 2 ^ 13 :=
    lt_two_pow_of_subset (value_set_lt cs) hXsub
  have hXcnt : count_ones (value_set cs ^^^ keep_n (count_to_value cs 2) 2)
      = count_ones (value_set cs) - 2 := by
    rw [count_ones_xor_of_subset (vs_lt_16 cs) hPsubvs, hPcnt]
  have hXne : value_set cs ^^^ keep_n (count_to_value cs 2) 2 ≠ 0 := by
    intro h
    rw [h, count_ones_zero] at hXcnt
    omega
  obtain ⟨hbit, hbit13, hbitset, hbitmax, hkh⟩ :
      ∃ hb, hb < 13
        ∧ (value_set cs ^^^ keep_n (count_to_value cs 2) 2).testBit hb = true
        ∧ (∀ j, hb < j →
            (value_set cs ^^^ keep_n (count_to_value cs 2) 2).testBit j = false)
        ∧ keep_highest (value_set cs ^^^ keep_n (count_to_value cs 2) 2) = 1 <<< hb := by
    obtain ⟨hb, hb16, hbt, hbm, hbe⟩ :=
      keep_highest_spec (lt_of_lt_of_le hX13 (by norm_num)) hXne
    refine ⟨hb, ?_, hbt, hbm, hbe⟩
    by_contra hcon
    rw [Nat.testBit_lt_two_pow (lt_of_lt_of_le hX13
      (Nat.pow_le_pow_right (by omega) (by omega)))] at hbt
    exact absurd hbt (by simp)
  obtain ⟨p1, p2, hp116, hp216, hp12, hPdec⟩ :=
    two_bits_of_count_two (lt_of_lt_of_le hP13 (by norm_num)) hPcnt
  have hPb1 : (keep_n (count_to_value cs 2) 2).testBit p1 = true := by
    rw [hPdec, Nat.testBit_lor, testBit_one_shift, decide_eq_true (rfl : p1 = p1),
      Bool.true_or]
  have hPb2 : (keep_n (count_to_value cs 2) 2).testBit p2 = true := by
    rw [hPdec, Nat.testBit_lor, testBit_one_shift, testBit_one_shift,
      decide_eq_true (rfl : p2 = p2), Bool.or_true]
  have hp1facts := (hctv2bit p1).mp (j1 p1 hPb1)
  have hp2facts := (hctv2bit p2).mp (j1 p2 hPb2)
  have hbP : (keep_n (count_to_value cs 2) 2).testBit hbit = false := by
    rcases hb : (keep_n (count_to_value cs 2) 2).testBit hbit
    · rfl
    · have h5 := hPsubvs hbit hb
      rw [Nat.testBit_xor, h5, hb] at hbitset
      exact absurd hbitset (by simp)
  have hb1 : hbit ≠ p1 := by
    intro he
    rw [he, hPb1] at hbP
    exact absurd hbP (by simp)
  have hb2 : hbit ≠ p2 := by
    intro he
    rw [he, hPb2] at hbP
    exact absurd hbP (by simp)
  constructor
  · -- attainment: both pairs plus the highest remaining card
    have hgen := value_count_pick_gen hnd (E := [(p1, 2), (p2, 2)])
      (m := (1 : Nat) <<< hbit)
      (by
        rw [Nat.shiftLeft_eq, Nat.one_mul]
        exact Nat.pow_lt_pow_right (by omega) (by omega))
      (by simp [hp12])
      (by
        intro p hp
        rcases List.mem_cons.mp hp with h | h
        · rw [h]
          show ((1 : Nat) <<< hbit).testBit p1 = false
          rw [testBit_one_shift]
          exact decide_eq_false hb1
        · rcases List.mem_cons.mp h with h' | h'
          · rw [h']
            show ((1 : Nat) <<< hbit).testBit p2 = false
            rw [testBit_one_shift]
            exact decide_eq_false hb2
          · exact absurd h' (List.not_mem_nil p))
      (by
        intro p hp
        rcases List.mem_cons.mp hp with h | h
        · rw [h]
          show 2 ≤ value_count cs p1
          omega
        · rcases List.mem_cons.mp h with h' | h'
          · rw [h']
            show 2 ≤ value_count cs p2
            omega
          · exact absurd h' (List.not_mem_nil p))
      (by
        intro i hi
        rw [testBit_one_shift] at hi
        have : hbit = i := of_decide_eq_true hi
        subst this
        exact vs_bit_count (hXsub hbit hbitset))
    have hcount : ∀ v,
        value_count (pickCards cs ([(p1, 2), (p2, 2)] ++ maskPicks ((1 : Nat) <<< hbit))) v
        = if v = p1 then 2 else if v = p2 then 2
          else if ((1 : Nat) <<< hbit).testBit v = true then 1 else 0 := by
      intro v
      by_cases hv1 : v = p1
      · subst hv1
        rw [if_pos rfl]
        exact hgen.1 (v, 2) (List.mem_cons_self _ _)
      · rw [if_neg hv1]
        by_cases hv2 : v = p2
        · subst hv2
          rw [if_pos rfl]
          exact hgen.1 (v, 2) (List.mem_cons_of_mem _ (List.mem_cons_self _ _))
        · rw [if_neg hv2]
          apply hgen.2 v
          intro p hp
          rcases List.mem_cons.mp hp with h | h
          · rw [h]
            exact fun he => hv1 he.symm
          · rcases List.mem_cons.mp h with h' | h'
            · rw [h']
              exact fun he => hv2 he.symm
            · exact absurd h' (List.not_mem_nil p)
    have hp113 : p1 < 13 := hp1facts.1
    have hp213 : p2 < 13 := hp2facts.1
    have hvs := value_set_of_counts_two (by omega) (by omega) hcount
    have hc2s := ctv_of_counts_two hp113 hp213 hp12 hcount 2 (by omega)
    have hc3s := ctv_of_counts_two hp113 hp213 hp12 hcount 3 (by omega)
    have hc4s := ctv_of_counts_two hp113 hp213 hp12 hcount 4 (by omega)
    rw [if_pos rfl, if_pos rfl] at hc2s
    rw [if_neg (by omega), if_neg (by omega),
      show ((0 : Nat) ||| 0) = 0 by decide] at hc3s
    rw [if_neg (by omega), if_neg (by omega),
      show ((0 : Nat) ||| 0) = 0 by decide] at hc4s
    have hshl : ((1 : Nat) <<< hbit) < 2 ^ 13 := by
      rw [Nat.shiftLeft_eq, Nat.one_mul]
      exact Nat.pow_lt_pow_right (by omega) (by omega)
    have hbt1 : ((1 : Nat) <<< hbit).testBit p1 = false := by
      rw [testBit_one_shift]
      exact decide_eq_false hb1
    have hbt2 : ((1 : Nat) <<< hbit).testBit p2 = false := by
      rw [testBit_one_shift]
      exact decide_eq_false hb2
    have hsubl := pickCards_sublist cs ([(p1, 2), (p2, 2)] ++ maskPicks ((1 : Nat) <<< hbit))
    have hnds := hnd.sublist hsubl
    have hlen5 : (pickCards cs ([(p1, 2), (p2, 2)]
        ++ maskPicks ((1 : Nat) <<< hbit))).length = 5 := by
      rw [← sum_value_count, Finset.sum_congr rfl (fun v _ => hcount v),
        sum_two_special hp113 hp213 hp12 hshl hbt1 hbt2,
        count_ones_one_shift hbit (by omega)]
    have hu3 : count_ones (value_set (pickCards cs ([(p1, 2), (p2, 2)]
        ++ maskPicks ((1 : Nat) <<< hbit)))) = 3 := by
      obtain ⟨hq1, hq2⟩ := ctv_profile hnds
      rw [hlen5] at hq2
      rw [hc2s, hc3s, hc4s, count_ones_zero] at hq1 hq2
      have hcnt2 : count_ones ((1 <<< p1) ||| (1 <<< p2)) = 2 := by
        rw [← hPdec, hPcnt]
      rw [hcnt2] at hq1 hq2
      omega
    refine ⟨_, hsubl, hlen5, ?_⟩
    rw [rank_five_u3_tp hu3 hc3s, hc2s, hvs, ← hPdec, hkh]
    have hd : ∀ i, (keep_n (count_to_value cs 2) 2).testBit i = true →
        ((1 : Nat) <<< hbit).testBit i = false := by
      intro i hi
      rw [testBit_one_shift]
      apply decide_eq_false
      intro he
      rw [← he] at hi
      rw [hi] at hbP
      exact absurd hbP (by simp)
    have hre : ((1 <<< p1) ||| ((1 <<< p2) ||| (1 <<< hbit)))
        = (keep_n (count_to_value cs 2) 2 ||| (1 <<< hbit)) := by
      rw [hPdec, Nat.lor_assoc]
    rw [hre, lor_xor_self hd]
  · intro s hsubl hlen5
    have hnds : s.Nodup := hnd.sublist hsubl
    have hsall : ∀ v, value_count s v ≤ 2 := by
      intro v
      have hle := value_count_sublist_le hsubl v
      rcases hb : (count_to_value cs 2).testBit v
      · have := hother v hb
        omega
      · have := ((hctv2bit v).mp hb).2
        omega
    have h3s : count_to_value s 3 = 0 :=
      (ctv_eq_zero_iff s 3).mpr (fun v _ hv => by have := hsall v; omega)
    have h4s : count_to_value s 4 = 0 :=
      (ctv_eq_zero_iff s 4).mpr (fun v _ hv => by have := hsall v; omega)
    have hsub2 : ∀ i, (count_to_value s 2).testBit i = true →
        (count_to_value cs 2).testBit i = true := by
      intro i hi
      obtain ⟨hi13, hic⟩ := ctv_s_bit hi
      have hcs2 : value_count cs i = 2 := by
        have h5 := value_count_sublist_le hsubl i
        rcases hb : (count_to_value cs 2).testBit i
        · have := hother i hb
          omega
        · exact ((hctv2bit i).mp hb).2
      exact (hctv2bit i).mpr ⟨hi13, hcs2⟩
    obtain ⟨hq1, hq2⟩ := ctv_profile hnds
    rw [hlen5] at hq2
    rw [h3s, h4s, count_ones_zero] at hq1 hq2
    have hcases : (count_ones (value_set s) = 5 ∧ count_ones (count_to_value s 2) = 0)
        ∨ (count_ones (value_set s) = 4 ∧ count_ones (count_to_value s 2) = 1)
        ∨ (count_ones (value_set s) = 3 ∧ count_ones (count_to_value s 2) = 2) := by
      omega
    rcases hcases with ⟨hu5, _⟩ | ⟨hu4, _⟩ | ⟨hu3, hn2s⟩
    · have hstS : rank_straight (value_set s) = none :=
        rank_straight_none_of_subset (vs_lt_8192 cs) (vs_subset_of_sublist hsubl) hst
      rw [rank_five_u5_hc hu5 hstS (sub_no_flush hsubl hnf)]
      exact ble_of_tag_lt (by simp [Rank.tagNat])
    · rw [rank_five_u4_eq hu4]
      exact ble_of_tag_lt (by simp [Rank.tagNat])
    · rw [rank_five_u3_tp hu3 h3s]
      refine ble_of_tag_eq_payload_le (by simp [Rank.tagNat]) ?_
      show (count_to_value s 2 <<< 13) ||| (value_set s ^^^ count_to_value s 2)
        ≤ (keep_n (count_to_value cs 2) 2 <<< 13)
          ||| keep_highest (value_set cs ^^^ keep_n (count_to_value cs 2) 2)
      have hminor13 : value_set s ^^^ count_to_value s 2 < 2 ^ 13 := by
        apply lt_two_pow_of_subset (value_set_lt cs)
        intro i hi
        exact vs_subset_of_sublist hsubl i
          (xor_bits_mem (ctv_subset_vs s (by omega)) hi).1
      have hkh13 : keep_highest (value_set cs ^^^ keep_n (count_to_value cs 2) 2)
          < 2 ^ 13 := by
        rw [hkh, Nat.shiftLeft_eq, Nat.one_mul]
        exact Nat.pow_lt_pow_right (by omega) (by omega)
      apply pack_le_pack hminor13 hkh13
      have hmaj : count_to_value s 2 ≤ keep_n (count_to_value cs 2) 2 := by
        apply le_keep_n_of_subset (ctv_lt16 cs 2) hsub2
        · omega
        · omega
      rcases lt_or_eq_of_le hmaj with hlt | heq
      · exact Or.inl hlt
      · refine Or.inr ⟨heq, ?_⟩
        have hmcnt : count_ones (value_set s ^^^ count_to_value s 2) = 1 := by
          rw [count_ones_xor_of_subset
            (lt_two_pow_of_subset (lt_of_lt_of_le (value_set_lt cs) (by norm_num))
              (vs_subset_of_sublist hsubl))
            (ctv_subset_vs s (by omega)), hu3, hn2s]
        obtain ⟨w, hw16, hwe⟩ := single_bit_of_count_ones_one
          (lt_of_lt_of_le hminor13 (by norm_num)) hmcnt
        rw [hwe]
        apply shiftLeft_le_keep_highest (lt_of_lt_of_le hX13 (by norm_num))
        have hwbit : (value_set s ^^^ count_to_value s 2).testBit w = true := by
          rw [hwe, testBit_one_shift]
          exact decide_eq_true rfl
        obtain ⟨hvsw, hcw⟩ := xor_bits_mem (ctv_subset_vs s (by omega)) hwbit
        have hvcsw := vs_subset_of_sublist hsubl w hvsw
        have hwP : (keep_n (count_to_value cs 2) 2).testBit w = false := by
          rw [← heq]
          exact hcw
        rw [Nat.testBit_xor, hvcsw, hwP]
        rfl


theorem quads_branch {cs : List Card} (hlen : cs.length = 7) (hnd : cs.Nodup)
    (hnf : ∀ su : Suit, count_ones (suit_value_set cs su) < 5)
    (hn4 : count_ones (count_to_value cs 4) = 1) :
    (∃ s, s.Sublist cs ∧ s.length = 5
        ∧ rank_five s = .FourOfAKind ((count_to_value cs 4 <<< 13)
            ||| keep_highest (value_set cs ^^^ count_to_value cs 4)))
    ∧ ∀ s, s.Sublist cs → s.length = 5 →
        (rank_five s).ble (.FourOfAKind ((count_to_value cs 4 <<< 13)
            ||| keep_highest (value_set cs ^^^ count_to_value cs 4))) = true := by
  obtain ⟨q, hq13, hqe, hqc⟩ := ctv_single_bit hn4
  have hother : ∀ v, v ≠ q → value_count cs v ≤ 3 := by
    intro v hv
    by_cases hv13 : v < 13
    · have ha := value_count_le_four hnd v
      have hd : value_count cs v ≠ 4 := fun hcc => hv (count_unique_of_single hqe v hv13 hcc)
      omega
    · rw [value_count_ge_13 cs (by omega)]
      omega
  obtain ⟨hp1c, hp2c⟩ := ctv_profile hnd
  rw [hlen] at hp2c
  rw [hn4] at hp1c hp2c
  have hu2 : 2 ≤ count_ones (value_set cs) := by omega
  have hxsub : ∀ i, (value_set cs ^^^ count_to_value cs 4).testBit i = true →
      (value_set cs).testBit i = true :=
    fun i h => (xor_bits_mem (ctv_subset_vs cs (by omega)) h).1
  have hxcnt : count_ones (value_set cs ^^^ count_to_value cs 4)
      = count_ones (value_set cs) - 1 := by
    rw [count_ones_xor_of_subset (vs_lt_16 cs) (ctv_subset_vs cs (by omega)), hn4]
  have hx13 : value_set cs ^^^ count_to_value cs 4 < 2 ^ 13 :=
    lt_two_pow_of_subset (value_set_lt cs) hxsub
  have hXne : value_set cs ^^^ count_to_value cs 4 ≠ 0 := by
    intro h
    rw [h, count_ones_zero] at hxcnt
    omega
  obtain ⟨hb, hb16, hbt, hbm, hbe⟩ :=
    keep_highest_spec (lt_of_lt_of_le hx13 (by norm_num)) hXne
  have hb13 : hb < 13 := by
    by_contra hcon
    rw [Nat.testBit_lt_two_pow (lt_of_lt_of_le hx13
      (Nat.pow_le_pow_right (by omega) (by omega)))] at hbt
    exact absurd hbt (by simp)
  have hbq : hb ≠ q := by
    intro he
    have hvsq : (value_set cs).testBit q = true := by
      rw [testBit_vs_count]
      exact decide_eq_true (by omega)
    rw [he, Nat.testBit_xor, hvsq, hqe, testBit_one_shift,
      decide_eq_true (rfl : q = q)] at hbt
    exact absurd hbt (by simp)
  constructor
  · have hgen := value_count_pick_gen hnd (E := [(q, 4)]) (m := (1 : Nat) <<< hb)
      (by
        rw [Nat.shiftLeft_eq, Nat.one_mul]
        exact Nat.pow_lt_pow_right (by omega) (by omega))
      (by simp)
      (by
        intro p hp
        rcases List.mem_cons.mp hp with h | h
        · rw [h]
          show ((1 : Nat) <<< hb).testBit q = false
          rw [testBit_one_shift]
          exact decide_eq_false hbq
        · exact absurd h (List.not_mem_nil p))
      (by
        intro p hp
        rcases List.mem_cons.mp hp with h | h
        · rw [h]
          show 4 ≤ value_count cs q
          omega
        · exact absurd h (List.not_mem_nil p))
      (by
        intro i hi
        rw [testBit_one_shift] at hi
        have he : hb = i := of_decide_eq_true hi
        subst he
        exact vs_bit_count (hxsub hb hbt))
    have hcount : ∀ v,
        value_count (pickCards cs ([(q, 4)] ++ maskPicks ((1 : Nat) <<< hb))) v
        = if v = q then 4 else if ((1 : Nat) <<< hb).testBit v = true then 1 else 0 := by
      intro v
      by_cases hv : v = q
      · subst hv
        rw [if_pos rfl]
        exact hgen.1 (v, 4) (List.mem_cons_self _ _)
      · rw [if_neg hv]
        apply hgen.2 v
        intro p hp
        rcases List.mem_cons.mp hp with h | h
        · rw [h]
          exact fun he => hv he.symm
        · exact absurd h (List.not_mem_nil p)
    have hshl : ((1 : Nat) <<< hb) < 2 ^ 13 := by
      rw [Nat.shiftLeft_eq, Nat.one_mul]
      exact Nat.pow_lt_pow_right (by omega) (by omega)
    have hbtq : ((1 : Nat) <<< hb).testBit q = false := by
      rw [testBit_one_shift]
      exact decide_eq_false hbq
    have hvs := value_set_of_counts_one (by omega) hcount
    have hc2s := ctv_of_counts_one hq13 hcount 2 (by omega)
    have hc3s := ctv_of_counts_one hq13 hcount 3 (by omega)
    have hc4s := ctv_of_counts_one hq13 hcount 4 (by omega)
    rw [if_neg (by omega)] at hc2s
    rw [if_neg (by omega)] at hc3s
    rw [if_pos rfl] at hc4s
    have hsubl := pickCards_sublist cs ([(q, 4)] ++ maskPicks ((1 : Nat) <<< hb))
    have hnds := hnd.sublist hsubl
    have hlen5 : (pickCards cs ([(q, 4)] ++ maskPicks ((1 : Nat) <<< hb))).length = 5 := by
      rw [← sum_value_count, Finset.sum_congr rfl (fun v _ => hcount v),
        sum_one_special hq13 hshl hbtq, count_ones_one_shift hb (by omega)]
    have hu2s : count_ones (value_set (pickCards cs
        ([(q, 4)] ++ maskPicks ((1 : Nat) <<< hb)))) = 2 := by
      obtain ⟨hq1, hq2⟩ := ctv_profile hnds
      rw [hlen5] at hq2
      rw [hc2s, hc3s, hc4s, count_ones_zero,
        count_ones_one_shift q (by omega)] at hq1 hq2
      omega
    refine ⟨_, hsubl, hlen5, ?_⟩
    rw [rank_five_u2_quad hu2s hc3s, hc4s, hvs]
    have hd : ∀ i, (1 <<< q).testBit i = true → ((1 : Nat) <<< hb).testBit i = false := by
      intro i hi
      rw [testBit_one_shift] at hi
      rw [← of_decide_eq_true hi]
      exact hbtq
    rw [lor_xor_self hd, hbe, hqe]
  · intro s hsubl hlen5
    have hnds : s.Nodup := hnd.sublist hsubl
    have hso : ∀ v, v ≠ q → value_count s v ≤ 3 :=
      fun v hv => le_trans (value_count_sublist_le hsubl v) (hother v hv)
    have hsub4 : ∀ i, (count_to_value s 4).testBit i = true → (1 <<< q).testBit i = true := by
      intro i hi
      obtain ⟨hi13, hic⟩ := ctv_s_bit hi
      have hit : i = q := by
        by_contra hcon
        have := hso i hcon
        omega
      rw [testBit_one_shift]
      exact decide_eq_true hit.symm
    have hn4s : count_ones (count_to_value s 4) ≤ 1 := by
      have h5 := count_ones_mono (one_shift_lt (by omega)) hsub4
      rw [count_ones_one_shift q (by omega)] at h5
      exact h5
    obtain ⟨hq1, hq2⟩ := ctv_profile hnds
    rw [hlen5] at hq2
    have hucases : count_ones (value_set s) = 2 ∨ count_ones (value_set s) = 3
        ∨ count_ones (value_set s) = 4 ∨ count_ones (value_set s) = 5 := by
      omega
    rcases hucases with hu | hu | hu | hu
    · by_cases hc3 : count_to_value s 3 = 0
      · rw [rank_five_u2_quad hu hc3]
        have hn4s1 : count_ones (count_to_value s 4) = 1 := by
          rw [hc3, count_ones_zero] at hq1 hq2
          omega
        have hc4seq : count_to_value s 4 = 1 <<< q := by
          apply mask_eq_of_subset_of_count (one_shift_lt (by omega)) hsub4
          rw [count_ones_one_shift q (by omega), hn4s1]
        refine ble_of_tag_eq_payload_le (by simp [Rank.tagNat]) ?_
        show (count_to_value s 4 <<< 13) ||| (value_set s ^^^ count_to_value s 4)
          ≤ (count_to_value cs 4 <<< 13)
            ||| keep_highest (value_set cs ^^^ count_to_value cs 4)
        have hminor13 : value_set s ^^^ count_to_value s 4 < 2 ^ 13 := by
          apply lt_two_pow_of_subset (value_set_lt cs)
          intro i hi
          exact vs_subset_of_sublist hsubl i
            (xor_bits_mem (ctv_subset_vs s (by omega)) hi).1
        have hkh13 : keep_highest (value_set cs ^^^ count_to_value cs 4) < 2 ^ 13 := by
          rw [hbe, Nat.shiftLeft_eq, Nat.one_mul]
          exact Nat.pow_lt_pow_right (by omega) (by omega)
        apply pack_le_pack hminor13 hkh13
        refine Or.inr ⟨hc4seq.trans hqe.symm, ?_⟩
        have hmcnt : count_ones (value_set s ^^^ count_to_value s 4) = 1 := by
          rw [count_ones_xor_of_subset
            (lt_two_pow_of_subset (lt_of_lt_of_le (value_set_lt cs) (by norm_num))
              (vs_subset_of_sublist hsubl))
            (ctv_subset_vs s (by omega)), hu, hn4s1]
        obtain ⟨w, hw16, hwe⟩ := single_bit_of_count_ones_one
          (lt_of_lt_of_le hminor13 (by norm_num)) hmcnt
        rw [hwe]
        apply shiftLeft_le_keep_highest (lt_of_lt_of_le hx13 (by norm_num))
        have hwbit : (value_set s ^^^ count_to_value s 4).testBit w = true := by
          rw [hwe, testBit_one_shift]
          exact decide_eq_true rfl
        obtain ⟨hvsw, hcw⟩ := xor_bits_mem (ctv_subset_vs s (by omega)) hwbit
        have hvcsw := vs_subset_of_sublist hsubl w hvsw
        have hwq : (count_to_value cs 4).testBit w = false := by
          rw [hqe, testBit_one_shift]
          apply decide_eq_false
          intro he
          rw [hc4seq, testBit_one_shift, decide_eq_true he] at hcw
          exact absurd hcw (by simp)
        rw [Nat.testBit_xor, hvcsw, hwq]
        rfl
      · rw [rank_five_u2_fh hu hc3]
        exact ble_of_tag_lt (by simp [Rank.tagNat])
    · by_cases hc3 : count_to_value s 3 = 0
      · rw [rank_five_u3_tp hu hc3]
        exact ble_of_tag_lt (by simp [Rank.tagNat])
      · rw [rank_five_u3_trips hu hc3]
        exact ble_of_tag_lt (by simp [Rank.tagNat])
    · rw [rank_five_u4_eq hu]
      exact ble_of_tag_lt (by simp [Rank.tagNat])
    · have hfl := sub_no_flush hsubl hnf
      rcases hsts : rank_straight (value_set s) with _ | r'
      · rw [rank_five_u5_hc hu hsts hfl]
        exact ble_of_tag_lt (by simp [Rank.tagNat])
      · rw [rank_five_u5_st hu hsts hfl]
        exact ble_of_tag_lt (by simp [Rank.tagNat])


theorem lor_zero (a : Nat) : a ||| 0 = a := by
  apply Nat.eq_of_testBit_eq
  intro i
  rw [Nat.testBit_lor, Nat.zero_testBit, Bool.or_false]

theorem zero_lor (a : Nat) : 0 ||| a = a := by
  apply Nat.eq_of_testBit_eq
  intro i
  rw [Nat.testBit_lor, Nat.zero_testBit, Bool.false_or]

theorem one_shift_lt_one_shift {a b : Nat} (h : a < b) : (1 <<< a : Nat) < 1 <<< b := by
  rw [Nat.shiftLeft_eq, Nat.shiftLeft_eq, Nat.one_mul, Nat.one_mul]
  exact Nat.pow_lt_pow_right (by omega) h

theorem fullhouse1_branch {cs : List Card} (hlen : cs.length = 7) (hnd : cs.Nodup)
    (hnf : ∀ su : Suit, count_ones (suit_value_set cs su) < 5)
    (h4 : count_to_value cs 4 = 0)
    (hn3 : count_ones (count_to_value cs 3) = 2) :
    (∃ s, s.Sublist cs ∧ s.length = 5
        ∧ rank_five s = .FullHouse ((keep_highest (count_to_value cs 3) <<< 13)
            ||| (count_to_value cs 3 ^^^ keep_highest (count_to_value cs 3))))
    ∧ ∀ s, s.Sublist cs → s.length = 5 →
        (rank_five s).ble (.FullHouse ((keep_highest (count_to_value cs 3) <<< 13)
            ||| (count_to_value cs 3 ^^^ keep_highest (count_to_value cs 3)))) = true := by
  have hctv3ne : count_to_value cs 3 ≠ 0 := by
    intro h
    rw [h, count_ones_zero] at hn3
    omega
  obtain ⟨hb, hb16, hbbit, hbm, hbe⟩ := keep_highest_spec (ctv_lt16 cs 3) hctv3ne
  have hb13 : hb < 13 := (ctv_s_bit hbbit).1
  have hbc : value_count cs hb = 3 := (ctv_s_bit hbbit).2
  have hkhsub : ∀ i, (keep_highest (count_to_value cs 3)).testBit i = true →
      (count_to_value cs 3).testBit i = true := by
    intro i hi
    rw [hbe, testBit_one_shift] at hi
    rw [← of_decide_eq_true hi]
    exact hbbit
  have hXsub : ∀ i,
      (count_to_value cs 3 ^^^ keep_highest (count_to_value cs 3)).testBit i = true →
      (count_to_value cs 3).testBit i = true :=
    fun i h => (xor_bits_mem hkhsub h).1
  have hXcnt : count_ones (count_to_value cs 3 ^^^ keep_highest (count_to_value cs 3))
      = 1 := by
    rw [count_ones_xor_of_subset (ctv_lt16 cs 3) hkhsub, hn3, hbe,
      count_ones_one_shift hb (by omega)]
  obtain ⟨p, hp16, hXe⟩ := single_bit_of_count_ones_one
    (lt_two_pow_of_subset (ctv_lt16 cs 3) hXsub) hXcnt
  have hpbit : (count_to_value cs 3).testBit p = true := by
    apply hXsub
    rw [hXe, testBit_one_shift]
    exact decide_eq_true rfl
  have hp13 : p < 13 := (ctv_s_bit hpbit).1
  have hpc : value_count cs p = 3 := (ctv_s_bit hpbit).2
  have hpb : p ≠ hb := by
    intro he
    have hXhb : (count_to_value cs 3 ^^^ keep_highest (count_to_value cs 3)).testBit hb
        = false := by
      rw [Nat.testBit_xor, hbbit, hbe, testBit_one_shift, decide_eq_true (rfl : hb = hb)]
      rfl
    rw [← he, hXe, testBit_one_shift, decide_eq_true (rfl : p = p)] at hXhb
    exact absurd hXhb (by simp)
  have hplt : p < hb := by
    rcases Nat.lt_trichotomy p hb with h | h | h
    · exact h
    · exact absurd h hpb
    · rw [hbm p h] at hpbit
      exact absurd hpbit (by simp)
  have hbits : ∀ i, (count_to_value cs 3).testBit i = true → i = hb ∨ i = p := by
    intro i hi
    by_cases hih : i = hb
    · exact Or.inl hih
    · right
      have hXi : (count_to_value cs 3 ^^^ keep_highest (count_to_value cs 3)).testBit i
          = true := by
        rw [Nat.testBit_xor, hi, hbe, testBit_one_shift,
          decide_eq_false (fun he => hih he.symm)]
        rfl
      rw [hXe, testBit_one_shift] at hXi
      exact (of_decide_eq_true hXi).symm
  have hother : ∀ v, v ≠ hb → v ≠ p → value_count cs v ≤ 1 := by
    intro v hv1 hv2
    by_cases hv13 : v < 13
    · have ha := value_count_le_four hnd v
      have hc := (ctv_eq_zero_iff cs 4).mp h4 v hv13
      have hd : value_count cs v ≠ 3 := by
        intro hcc
        have hbit : (count_to_value cs 3).testBit v = true := by
          rw [testBit_count_to_value, decide_eq_true hv13, decide_eq_true hcc]
          rfl
        rcases hbits v hbit with h | h
        · exact hv1 h
        · exact hv2 h
      have he : value_count cs v ≠ 2 := by
        intro hcc
        obtain ⟨hp1c, hp2c⟩ := ctv_profile hnd
        rw [hlen] at hp2c
        rw [h4, count_ones_zero, hn3] at hp1c hp2c
        have hcbit : (count_to_value cs 2).testBit v = true := by
          rw [testBit_count_to_value, decide_eq_true hv13, decide_eq_true hcc]
          rfl
        have : count_to_value cs 2 ≠ 0 := by
          intro h0
          rw [h0, Nat.zero_testBit] at hcbit
          exact absurd hcbit (by simp)
        have hcnt2 : 1 ≤ count_ones (count_to_value cs 2) := by
          by_contra hcon
          have h0 : count_ones (count_to_value cs 2) = 0 := by omega
          exact this ((count_ones_eq_zero_iff (ctv_lt16 cs 2)).mp h0)
        omega
      omega
    · rw [value_count_ge_13 cs (by omega)]
      omega
  constructor
  · -- attainment: the higher trip plus two cards of the lower trip
    have hgen := value_count_pick_gen hnd (E := [(hb, 3), (p, 2)]) (m := (0 : Nat))
      (by norm_num)
      (by simp [Ne.symm hpb])
      (by
        intro pp hpp
        rw [Nat.zero_testBit])
      (by
        intro pp hpp
        rcases List.mem_cons.mp hpp with h | h
        · rw [h]
          show 3 ≤ value_count cs hb
          omega
        · rcases List.mem_cons.mp h with h' | h'
          · rw [h']
            show 2 ≤ value_count cs p
            omega
          · exact absurd h' (List.not_mem_nil pp))
      (by
        intro i hi
        rw [Nat.zero_testBit] at hi
        exact absurd hi (by simp))
    have hcount : ∀ v,
        value_count (pickCards cs ([(hb, 3), (p, 2)] ++ maskPicks 0)) v
        = if v = hb then 3 else if v = p then 2
          else if (0 : Nat).testBit v = true then 1 else 0 := by
      intro v
      by_cases hv1 : v = hb
      · subst hv1
        rw [if_pos rfl]
        exact hgen.1 (v, 3) (List.mem_cons_self _ _)
      · rw [if_neg hv1]
        by_cases hv2 : v = p
        · subst hv2
          rw [if_pos rfl]
          exact hgen.1 (v, 2) (List.mem_cons_of_mem _ (List.mem_cons_self _ _))
        · rw [if_neg hv2]
          apply hgen.2 v
          intro pp hpp
          rcases List.mem_cons.mp hpp with h | h
          · rw [h]
            exact fun he => hv1 he.symm
          · rcases List.mem_cons.mp h with h' | h'
            · rw [h']
              exact fun he => hv2 he.symm
            · exact absurd h' (List.not_mem_nil pp)
    have hvs := value_set_of_counts_two (by omega) (by omega) hcount
    rw [lor_zero] at hvs
    have hc2s := ctv_of_counts_two hb13 hp13 (Ne.symm hpb) hcount 2 (by omega)
    have hc3s := ctv_of_counts_two hb13 hp13 (Ne.symm hpb) hcount 3 (by omega)
    have hc4s := ctv_of_counts_two hb13 hp13 (Ne.symm hpb) hcount 4 (by omega)
    rw [if_neg (by omega), if_pos rfl, zero_lor] at hc2s
    rw [if_pos rfl, if_neg (by omega), lor_zero] at hc3s
    rw [if_neg (by omega), if_neg (by omega),
      show ((0 : Nat) ||| 0) = 0 by decide] at hc4s
    have hsubl := pickCards_sublist cs ([(hb, 3), (p, 2)] ++ maskPicks 0)
    have hnds := hnd.sublist hsubl
    have hlen5 : (pickCards cs ([(hb, 3), (p, 2)] ++ maskPicks 0)).length = 5 := by
      rw [← sum_value_count, Finset.sum_congr rfl (fun v _ => hcount v),
        sum_two_special hb13 hp13 (Ne.symm hpb) (by norm_num)
          (Nat.zero_testBit hb) (Nat.zero_testBit p), count_ones_zero]
    have hu2s : count_ones (value_set (pickCards cs
        ([(hb, 3), (p, 2)] ++ maskPicks 0))) = 2 := by
      obtain ⟨hq1, hq2⟩ := ctv_profile hnds
      rw [hlen5] at hq2
      rw [hc2s, hc3s, hc4s, count_ones_zero, count_ones_one_shift hb (by omega),
        count_ones_one_shift p (by omega)] at hq1 hq2
      omega
    refine ⟨_, hsubl, hlen5, ?_⟩
    rw [rank_five_u2_fh hu2s (by rw [hc3s]; exact one_shift_ne_zero hb), hc3s, hvs]
    have hd : ∀ i, (1 <<< hb).testBit i = true → ((1 : Nat) <<< p).testBit i = false := by
      intro i hi
      rw [testBit_one_shift] at hi
      rw [← of_decide_eq_true hi, testBit_one_shift]
      exact decide_eq_false hpb
    rw [lor_xor_self hd, hXe, hbe]
  · intro s hsubl hlen5
    have hnds : s.Nodup := hnd.sublist hsubl
    have hsall : ∀ v, value_count s v ≤ 3 := by
      intro v
      have hle := value_count_sublist_le hsubl v
      by_cases hv1 : v = hb
      · rw [hv1] at hle ⊢
        omega
      · by_cases hv2 : v = p
        · rw [hv2] at hle ⊢
          omega
        · have := hother v hv1 hv2
          omega
    have h4s : count_to_value s 4 = 0 :=
      (ctv_eq_zero_iff s 4).mpr (fun v _ hv => by have := hsall v; omega)
    have husle : count_ones (value_set s) ≤ count_ones (value_set cs) := by
      apply count_ones_mono (lt_of_lt_of_le (value_set_lt cs) (by norm_num))
      exact vs_subset_of_sublist hsubl
    have hucs : count_ones (value_set cs) = 3 := by
      obtain ⟨hp1c, hp2c⟩ := ctv_profile hnd
      rw [hlen] at hp2c
      rw [h4, count_ones_zero, hn3] at hp1c hp2c
      omega
    have hsub3 : ∀ i, (count_to_value s 3).testBit i = true →
        (count_to_value cs 3).testBit i = true := by
      intro i hi
      obtain ⟨hi13, hic⟩ := ctv_s_bit hi
      have hcs3 : value_count cs i = 3 := by
        have h5 := value_count_sublist_le hsubl i
        have h6 := hsall i
        rw [hic] at h5
        have := value_count_le_four hnd i
        by_contra hcon
        by_cases hv1 : i = hb
        · rw [hv1] at hcon
          exact hcon hbc
        · by_cases hv2 : i = p
          · rw [hv2] at hcon
            exact hcon hpc
          · have := hother i hv1 hv2
            omega
      rw [testBit_count_to_value, decide_eq_true hi13, decide_eq_true hcs3]
      rfl
    have hn3sle : count_ones (count_to_value s 3) ≤ 2 := by
      have := count_ones_mono (ctv_lt16 cs 3) hsub3
      omega
    obtain ⟨hq1, hq2⟩ := ctv_profile hnds
    rw [hlen5] at hq2
    rw [h4s, count_ones_zero] at hq1 hq2
    have hu3le : count_ones (value_set s) ≤ 3 := by omega
    have hcases : (count_ones (value_set s) = 3 ∧ count_ones (count_to_value s 3) = 0)
        ∨ (count_ones (value_set s) = 3 ∧ count_ones (count_to_value s 3) = 1
            ∧ count_ones (count_to_value s 2) = 0)
        ∨ (count_ones (value_set s) = 2 ∧ count_ones (count_to_value s 3) = 1
            ∧ count_ones (count_to_value s 2) = 1) := by
      omega
    rcases hcases with ⟨hu, hn3z⟩ | ⟨hu, hn3o, _⟩ | ⟨hu, hn3o, hn2o⟩
    · have hc3z : count_to_value s 3 = 0 := (count_ones_eq_zero_iff (ctv_lt16 s 3)).mp hn3z
      rw [rank_five_u3_tp hu hc3z]
      exact ble_of_tag_lt (by simp [Rank.tagNat])
    · have hc3ne : count_to_value s 3 ≠ 0 := by
        intro h
        rw [h, count_ones_zero] at hn3o
        omega
      rw [rank_five_u3_trips hu hc3ne]
      exact ble_of_tag_lt (by simp [Rank.tagNat])
    · have hc3ne : count_to_value s 3 ≠ 0 := by
        intro h
        rw [h, count_ones_zero] at hn3o
        omega
      rw [rank_five_u2_fh hu hc3ne]
      obtain ⟨w, hw13, hwe, hwc⟩ := ctv_single_bit hn3o
      obtain ⟨w2, hw213, hw2e, hw2c⟩ := ctv_single_bit hn2o
      have hn1z : count_ones (count_to_value s 1) = 0 := by omega
      have hfree : ∀ v < 13,
          value_count s v = 0 ∨ value_count s v = 2 ∨ value_count s v = 3 := by
        intro v hv
        have h5 := no_value_with_count hn1z v hv
        have h6 := hsall v
        have h7 := (ctv_eq_zero_iff s 4).mp h4s v hv
        omega
      have hmask := xor_ctv3_eq_ctv2 hfree
      refine ble_of_tag_eq_payload_le (by simp [Rank.tagNat]) ?_
      show (count_to_value s 3 <<< 13) ||| (value_set s ^^^ count_to_value s 3)
        ≤ (keep_highest (count_to_value cs 3) <<< 13)
          ||| (count_to_value cs 3 ^^^ keep_highest (count_to_value cs 3))
      rw [hmask, hwe, hw2e, hXe, hbe]
      have hwmem : w = hb ∨ w = p := by
        apply hbits
        apply hsub3
        rw [hwe, testBit_one_shift]
        exact decide_eq_true rfl
      have hw2cs : value_count cs w2 = 3 := by
        have h5 := value_count_sublist_le hsubl w2
        rw [hw2c] at h5
        by_contra hcon
        by_cases hv1 : w2 = hb
        · rw [hv1] at hcon
          exact hcon hbc
        · by_cases hv2 : w2 = p
          · rw [hv2] at hcon
            exact hcon hpc
          · have := hother w2 hv1 hv2
            omega
      have hw2mem : w2 = hb ∨ w2 = p := by
        apply hbits
        rw [testBit_count_to_value, decide_eq_true hw213, decide_eq_true hw2cs]
        rfl
      have hww2 : w ≠ w2 := by
        intro he
        rw [he, hw2c] at hwc
        omega
      have h113 : (1 <<< w2 : Nat) < 2 ^ 13 := by
        rw [Nat.shiftLeft_eq, Nat.one_mul]
        exact Nat.pow_lt_pow_right (by omega) (by omega)
      have h213 : (1 <<< p : Nat) < 2 ^ 13 := by
        rw [Nat.shiftLeft_eq, Nat.one_mul]
        exact Nat.pow_lt_pow_right (by omega) (by omega)
      apply pack_le_pack h113 h213
      rcases hwmem with rfl | rfl
      · -- the subset's trip is the higher trip: pair must be the lower trip
        rcases hw2mem with h' | h'
        · exact absurd h'.symm hww2
        · rw [h']
          exact Or.inr ⟨rfl, le_refl _⟩
      · -- the subset's trip is the lower trip: strictly smaller major
        exact Or.inl (one_shift_lt_one_shift hplt)


theorem fullhouse2_branch {cs : List Card} (hlen : cs.length = 7) (hnd : cs.Nodup)
    (hnf : ∀ su : Suit, count_ones (suit_value_set cs su) < 5)
    (h4 : count_to_value cs 4 = 0)
    (hn3 : count_ones (count_to_value cs 3) = 1)
    (h2ne : count_to_value cs 2 ≠ 0) :
    (∃ s, s.Sublist cs ∧ s.length = 5
        ∧ rank_five s = .FullHouse ((count_to_value cs 3 <<< 13)
            ||| keep_highest (count_to_value cs 2)))
    ∧ ∀ s, s.Sublist cs → s.length = 5 →
        (rank_five s).ble (.FullHouse ((count_to_value cs 3 <<< 13)
            ||| keep_highest (count_to_value cs 2))) = true := by
  obtain ⟨t, ht13, hte, htc⟩ := ctv_single_bit hn3
  obtain ⟨hp, hp16, hpbit, hpm, hpe⟩ := keep_highest_spec (ctv_lt16 cs 2) h2ne
  have hp13 : hp < 13 := (ctv_s_bit hpbit).1
  have hpc : value_count cs hp = 2 := (ctv_s_bit hpbit).2
  have hpt : hp ≠ t := by
    intro he
    rw [he, htc] at hpc
    omega
  have hn2le : count_ones (count_to_value cs 2) ≤ 2 := by
    obtain ⟨hp1c, hp2c⟩ := ctv_profile hnd
    rw [hlen] at hp2c
    rw [h4, count_ones_zero, hn3] at hp1c hp2c
    omega
  have hucsle : count_ones (value_set cs) ≤ 4 := by
    obtain ⟨hp1c, hp2c⟩ := ctv_profile hnd
    rw [hlen] at hp2c
    rw [h4, count_ones_zero, hn3] at hp1c hp2c
    have hn2ge : 1 ≤ count_ones (count_to_value cs 2) := by
      by_contra hcon
      have h0 : count_ones (count_to_value cs 2) = 0 := by omega
      exact h2ne ((count_ones_eq_zero_iff (ctv_lt16 cs 2)).mp h0)
    omega
  have hall : ∀ v, value_count cs v ≤ 3 := by
    intro v
    by_cases hv13 : v < 13
    · have ha := value_count_le_four hnd v
      have hc := (ctv_eq_zero_iff cs 4).mp h4 v hv13
      omega
    · rw [value_count_ge_13 cs (by omega)]
      omega
  constructor
  · -- attainment: the trip plus two cards of the highest pair
    have hgen := value_count_pick_gen hnd (E := [(t, 3), (hp, 2)]) (m := (0 : Nat))
      (by norm_num)
      (by simp [Ne.symm hpt])
      (by
        intro pp hpp
        rw [Nat.zero_testBit])
      (by
        intro pp hpp
        rcases List.mem_cons.mp hpp with h | h
        · rw [h]
          show 3 ≤ value_count cs t
          omega
        · rcases List.mem_cons.mp h with h' | h'
          · rw [h']
            show 2 ≤ value_count cs hp
            omega
          · exact absurd h' (List.not_mem_nil pp))
      (by
        intro i hi
        rw [Nat.zero_testBit] at hi
        exact absurd hi (by simp))
    have hcount : ∀ v,
        value_count (pickCards cs ([(t, 3), (hp, 2)] ++ maskPicks 0)) v
        = if v = t then 3 else if v = hp then 2
          else if (0 : Nat).testBit v = true then 1 else 0 := by
      intro v
      by_cases hv1 : v = t
      · subst hv1
        rw [if_pos rfl]
        exact hgen.1 (v, 3) (List.mem_cons_self _ _)
      · rw [if_neg hv1]
        by_cases hv2 : v = hp
        · subst hv2
          rw [if_pos rfl]
          exact hgen.1 (v, 2) (List.mem_cons_of_mem _ (List.mem_cons_self _ _))
        · rw [if_neg hv2]
          apply hgen.2 v
          intro pp hpp
          rcases List.mem_cons.mp hpp with h | h
          · rw [h]
            exact fun he => hv1 he.symm
          · rcases List.mem_cons.mp h with h' | h'
            · rw [h']
              exact fun he => hv2 he.symm
            · exact absurd h' (List.not_mem_nil pp)
    have hvs := value_set_of_counts_two (by omega) (by omega) hcount
    rw [lor_zero] at hvs
    have hc2s := ctv_of_counts_two ht13 hp13 (Ne.symm hpt) hcount 2 (by omega)
    have hc3s := ctv_of_counts_two ht13 hp13 (Ne.symm hpt) hcount 3 (by omega)
    have hc4s := ctv_of_counts_two ht13 hp13 (Ne.symm hpt) hcount 4 (by omega)
    rw [if_neg (by omega), if_pos rfl, zero_lor] at hc2s
    rw [if_pos rfl, if_neg (by omega), lor_zero] at hc3s
    rw [if_neg (by omega), if_neg (by omega),
      show ((0 : Nat) ||| 0) = 0 by decide] at hc4s
    have hsubl := pickCards_sublist cs ([(t, 3), (hp, 2)] ++ maskPicks 0)
    have hnds := hnd.sublist hsubl
    have hlen5 : (pickCards cs ([(t, 3), (hp, 2)] ++ maskPicks 0)).length = 5 := by
      rw [← sum_value_count, Finset.sum_congr rfl (fun v _ => hcount v),
        sum_two_special ht13 hp13 (Ne.symm hpt) (by norm_num)
          (Nat.zero_testBit t) (Nat.zero_testBit hp), count_ones_zero]
    have hu2s : count_ones (value_set (pickCards cs
        ([(t, 3), (hp, 2)] ++ maskPicks 0))) = 2 := by
      obtain ⟨hq1, hq2⟩ := ctv_profile hnds
      rw [hlen5] at hq2
      rw [hc2s, hc3s, hc4s, count_ones_zero, count_ones_one_shift t (by omega),
        count_ones_one_shift hp (by omega)] at hq1 hq2
      omega
    refine ⟨_, hsubl, hlen5, ?_⟩
    rw [rank_five_u2_fh hu2s (by rw [hc3s]; exact one_shift_ne_zero t), hc3s, hvs]
    have hd : ∀ i, (1 <<< t).testBit i = true → ((1 : Nat) <<< hp).testBit i = false := by
      intro i hi
      rw [testBit_one_shift] at hi
      rw [← of_decide_eq_true hi, testBit_one_shift]
      exact decide_eq_false hpt
    rw [lor_xor_self hd, hpe, hte]
  · intro s hsubl hlen5
    have hnds : s.Nodup := hnd.sublist hsubl
    have hsall : ∀ v, value_count s v ≤ 3 :=
      fun v => le_trans (value_count_sublist_le hsubl v) (hall v)
    have h4s : count_to_value s 4 = 0 :=
      (ctv_eq_zero_iff s 4).mpr (fun v _ hv => by have := hsall v; omega)
    have husle : count_ones (value_set s) ≤ 4 := by
      have h5 := count_ones_mono (lt_of_lt_of_le (value_set_lt cs) (by norm_num))
        (vs_subset_of_sublist hsubl)
      omega
    obtain ⟨hq1, hq2⟩ := ctv_profile hnds
    rw [hlen5] at hq2
    rw [h4s, count_ones_zero] at hq1 hq2
    have hcases : count_ones (value_set s) = 2 ∨ count_ones (value_set s) = 3
        ∨ count_ones (value_set s) = 4 := by
      omega
    rcases hcases with hu | hu | hu
    · by_cases hc3 : count_to_value s 3 = 0
      · exfalso
        have hn3z : count_ones (count_to_value s 3) = 0 := by
          rw [hc3, count_ones_zero]
        omega
      · rw [rank_five_u2_fh hu hc3]
        have hn3o : count_ones (count_to_value s 3) = 1 := by
          have hpos : count_ones (count_to_value s 3) ≠ 0 := by
            intro h0
            exact hc3 ((count_ones_eq_zero_iff (ctv_lt16 s 3)).mp h0)
          omega
        have hn2o : count_ones (count_to_value s 2) = 1 := by omega
        have hn1z : count_ones (count_to_value s 1) = 0 := by omega
        obtain ⟨w, hw13, hwe, hwc⟩ := ctv_single_bit hn3o
        obtain ⟨w2, hw213, hw2e, hw2c⟩ := ctv_single_bit hn2o
        have hwt : w = t := by
          apply count_unique_of_single hte w hw13
          have h5 := value_count_sublist_le hsubl w
          have h6 := hall w
          omega
        have hww2 : w ≠ w2 := by
          intro he
          rw [he, hw2c] at hwc
          omega
        have hw2cs2 : value_count cs w2 = 2 := by
          have h5 := value_count_sublist_le hsubl w2
          have h6 : value_count cs w2 ≠ 3 := by
            intro hcc
            have hwt2 : w2 = t := count_unique_of_single hte w2 hw213 hcc
            rw [← hwt] at hwt2
            exact hww2 hwt2.symm
          have h7 := hall w2
          omega
        have hw2bit : (count_to_value cs 2).testBit w2 = true := by
          rw [testBit_count_to_value, decide_eq_true hw213, decide_eq_true hw2cs2]
          rfl
        have hfree : ∀ v < 13,
            value_count s v = 0 ∨ value_count s v = 2 ∨ value_count s v = 3 := by
          intro v hv
          have h5 := no_value_with_count hn1z v hv
          have h6 := hsall v
          have h7 := (ctv_eq_zero_iff s 4).mp h4s v hv
          omega
        have hmask := xor_ctv3_eq_ctv2 hfree
        refine ble_of_tag_eq_payload_le (by simp [Rank.tagNat]) ?_
        show (count_to_value s 3 <<< 13) ||| (value_set s ^^^ count_to_value s 3)
          ≤ (count_to_value cs 3 <<< 13) ||| keep_highest (count_to_value cs 2)
        rw [hmask, hwe, hw2e]
        have h113 : (1 <<< w2 : Nat) < 2 ^ 13 := by
          rw [Nat.shiftLeft_eq, Nat.one_mul]
          exact Nat.pow_lt_pow_right (by omega) (by omega)
        have h213 : keep_highest (count_to_value cs 2) < 2 ^ 13 := by
          rw [hpe, Nat.shiftLeft_eq, Nat.one_mul]
          exact Nat.pow_lt_pow_right (by omega) (by omega)
        apply pack_le_pack h113 h213
        refine Or.inr ⟨by rw [hwt, hte], ?_⟩
        exact shiftLeft_le_keep_highest (ctv_lt16 cs 2) hw2bit
    · by_cases hc3 : count_to_value s 3 = 0
      · rw [rank_five_u3_tp hu hc3]
        exact ble_of_tag_lt (by simp [Rank.tagNat])
      · rw [rank_five_u3_trips hu hc3]
        exact ble_of_tag_lt (by simp [Rank.tagNat])
    · rw [rank_five_u4_eq hu]
      exact ble_of_tag_lt (by simp [Rank.tagNat])


theorem suit_rank_count_le_one {cs : List Card} (hnd : cs.Nodup) (su : Suit) (v : Nat) :
    value_count (cs.filter (fun c => c.suit = su)) v ≤ 1 := by
  unfold value_count
  apply nodup_all_eq_length_le_one
  · exact (hnd.filter _).filter _
  · intro a ha b hb
    rw [List.mem_filter] at ha hb
    obtain ⟨ha1, ha2⟩ := ha
    obtain ⟨hb1, hb2⟩ := hb
    rw [List.mem_filter] at ha1 hb1
    apply card_ext
    · rw [of_decide_eq_true ha1.2, of_decide_eq_true hb1.2]
    · exact toNat_inj _ _ ((of_decide_eq_true ha2).trans (of_decide_eq_true hb2).symm)

theorem suit_bit_iff_pos {cs : List Card} (su : Suit) (v : Nat) :
    (suit_value_set cs su).testBit v = true
      ↔ 0 < value_count (cs.filter (fun c => c.suit = su)) v := by
  rw [testBit_suit_value_set, value_count_pos_iff]
  rw [List.any_eq_true, List.any_eq_true]
  constructor
  · intro ⟨c, hc, hp⟩
    rw [Bool.and_eq_true] at hp
    exact ⟨c, List.mem_filter.mpr ⟨hc, hp.1⟩, hp.2⟩
  · intro ⟨c, hc, hp⟩
    rw [List.mem_filter] at hc
    refine ⟨c, hc.1, ?_⟩
    rw [Bool.and_eq_true]
    exact ⟨hc.2, hp⟩

theorem pickSuit_counts {cs : List Card} (hnd : cs.Nodup) (su : Suit) {M : Nat}
    (hM : ∀ i, M.testBit i = true → (suit_value_set cs su).testBit i = true) :
    ∀ v, value_count (cs.filter (fun c => c.suit = su && M.testBit c.rank.toNat)) v
      = if M.testBit v = true then 1 else 0 := by
  intro v
  by_cases hMv : M.testBit v = true
  · rw [if_pos hMv]
    have hcong : value_count
        (cs.filter (fun c => c.suit = su && M.testBit c.rank.toNat)) v
        = value_count (cs.filter (fun c => c.suit = su)) v := by
      unfold value_count
      rw [List.filter_filter, List.filter_filter]
      apply congrArg List.length
      apply List.filter_congr
      intro c _
      rcases hr : decide (c.rank.toNat = v) with _ | _
      · rw [Bool.false_and, Bool.false_and]
      · rw [Bool.true_and, Bool.true_and]
        have hrv : c.rank.toNat = v := of_decide_eq_true hr
        rw [hrv, hMv, Bool.and_true]
    rw [hcong]
    have h1 := suit_rank_count_le_one hnd su v
    have h2 := (suit_bit_iff_pos su v).mp (hM v hMv)
    omega
  · rw [if_neg hMv]
    unfold value_count
    rw [List.filter_filter]
    have hcong : ∀ c ∈ cs,
        (decide (c.rank.toNat = v)
          && (decide (c.suit = su) && M.testBit c.rank.toNat)) = false := by
      intro c _
      rcases hr : decide (c.rank.toNat = v) with _ | _
      · rw [Bool.false_and]
      · rw [Bool.true_and]
        have hrv : c.rank.toNat = v := of_decide_eq_true hr
        rw [hrv, testBit_false_of_ne hMv, Bool.and_false]
    rw [List.filter_congr hcong]
    simp

theorem pickSuit_suit_set (cs : List Card) (su : Suit) (M : Nat) :
    suit_value_set (cs.filter (fun c => c.suit = su && M.testBit c.rank.toNat)) su
      = value_set (cs.filter (fun c => c.suit = su && M.testBit c.rank.toNat)) := by
  apply Nat.eq_of_testBit_eq
  intro i
  rcases hb : (value_set
      (cs.filter (fun c => c.suit = su && M.testBit c.rank.toNat))).testBit i with _ | _
  · rw [testBit_value_set] at hb
    rw [testBit_suit_value_set]
    rw [Bool.eq_false_iff]
    intro hany
    rw [List.any_eq_true] at hany
    obtain ⟨c, hc, hp⟩ := hany
    rw [Bool.and_eq_true] at hp
    have : (cs.filter (fun c => c.suit = su && M.testBit c.rank.toNat)).any
        (fun c => c.rank.toNat = i) = true :=
      List.any_eq_true.mpr ⟨c, hc, hp.2⟩
    rw [hb] at this
    exact absurd this (by simp)
  · rw [testBit_value_set, List.any_eq_true] at hb
    obtain ⟨c, hc, hp⟩ := hb
    have hcm := hc
    rw [List.mem_filter, Bool.and_eq_true] at hcm
    rw [testBit_suit_value_set]
    apply List.any_eq_true.mpr
    refine ⟨c, hc, ?_⟩
    rw [Bool.and_eq_true]
    exact ⟨hcm.2.1, hp⟩


theorem suit_lt_16 (cs : List Card) (su : Suit) : suit_value_set cs su < 2 ^ 16 :=
  Nat.lt_of_lt_of_le (suit_value_set_lt cs su) (Nat.pow_le_pow_right (by omega) (by omega))

theorem suit_lt_8192 (cs : List Card) (su : Suit) : suit_value_set cs su < 8192 := by
  have h := suit_value_set_lt cs su
  have h13 : (2:ℕ) ^ 13 = 8192 := by norm_num
  omega

theorem pickSuit_spec {cs : List Card} (hnd : cs.Nodup) (su : Suit) {M : Nat}
    (hM13 : M < 2 ^ 13)
    (hMsub : ∀ i, M.testBit i = true → (suit_value_set cs su).testBit i = true) :
    (cs.filter (fun c => c.suit = su && M.testBit c.rank.toNat)).Sublist cs
    ∧ (cs.filter (fun c => c.suit = su && M.testBit c.rank.toNat)).length = count_ones M
    ∧ value_set (cs.filter (fun c => c.suit = su && M.testBit c.rank.toNat)) = M
    ∧ (count_ones M = 5 →
        ((suit_value_sets (cs.filter (fun c => c.suit = su && M.testBit c.rank.toNat))).any
          (fun sv => count_ones sv = 5)) = true) := by
  have hcount := pickSuit_counts hnd su hMsub
  have hvs := value_set_of_counts_mask hcount
  refine ⟨List.filter_sublist cs, ?_, hvs, ?_⟩
  · rw [← sum_value_count, Finset.sum_congr rfl (fun v _ => hcount v),
      sum_indicator_mask hM13]
  · intro h5
    apply List.any_eq_true.mpr
    refine ⟨suit_value_set (cs.filter (fun c => c.suit = su && M.testBit c.rank.toNat)) su,
      suit_mem _ su, ?_⟩
    apply decide_eq_true
    rw [pickSuit_suit_set, hvs]
    exact h5

theorem flush_sub_vs {s cs : List Card} (hsubl : s.Sublist cs) (hlen : cs.length = 7)
    {su : Suit} (hF5 : 5 ≤ count_ones (suit_value_set cs su))
    (hu : count_ones (value_set s) = 5)
    (hfl : ((suit_value_sets s).any (fun sv => count_ones sv = 5)) = true) :
    ∀ i, (value_set s).testBit i = true → (suit_value_set cs su).testBit i = true := by
  rw [List.any_eq_true] at hfl
  obtain ⟨sv, hsvmem, hsvc⟩ := hfl
  obtain ⟨su', hsu'⟩ := suit_value_sets_mem s hsvmem
  have hcnt5 : count_ones (suit_value_set s su') = 5 := by
    rw [← hsu']
    exact of_decide_eq_true hsvc
  have heq : suit_value_set s su' = value_set s := by
    apply mask_eq_of_subset_of_count (vs_lt_16 s) (suit_subset_vs s su')
    omega
  have h5' : 5 ≤ count_ones (suit_value_set cs su') := by
    have hmono := count_ones_mono (suit_lt_16 cs su') (suit_subset_of_sublist hsubl su')
    omega
  have hsu'su : su' = su := flush_suit_unique hlen h5' hF5
  intro i hi
  rw [← heq, hsu'su] at hi
  exact suit_subset_of_sublist hsubl su i hi


theorem flush_branch {cs : List Card} (hlen : cs.length = 7) (hnd : cs.Nodup)
    {su : Suit} (hF5 : 5 ≤ count_ones (suit_value_set cs su))
    (hstF : rank_straight (suit_value_set cs su) = none) :
    (∃ s, s.Sublist cs ∧ s.length = 5
      ∧ rank_five s = .Flush (keep_n (suit_value_set cs su) 5))
    ∧ ∀ s, s.Sublist cs → s.length = 5 →
        (rank_five s).ble (.Flush (keep_n (suit_value_set cs su) 5)) = true := by
  have hF16 := suit_lt_16 cs su
  have hF13 := suit_value_set_lt cs su
  constructor
  · obtain ⟨k1, k2, _⟩ := keep_n_spec hF16 5
    have hKcnt : count_ones (keep_n (suit_value_set cs su) 5) = 5 := by
      rw [k2]
      omega
    have hK13 : keep_n (suit_value_set cs su) 5 < 2 ^ 13 :=
      lt_two_pow_of_subset hF13 k1
    obtain ⟨hsubl, hlen5, hvs, hflf⟩ := pickSuit_spec hnd su hK13 k1
    refine ⟨_, hsubl, by rw [hlen5, hKcnt], ?_⟩
    have hstM : rank_straight (keep_n (suit_value_set cs su) 5) = none :=
      rank_straight_none_of_subset (suit_lt_8192 cs su) k1 hstF
    rw [rank_five_u5_fl (by rw [hvs, hKcnt]) (by rw [hvs]; exact hstM) (hflf hKcnt)]
    rw [hvs]
  · intro s hsubl hlen5
    have hnds : s.Nodup := hnd.sublist hsubl
    obtain ⟨hp1, hp2⟩ := ctv_profile hnds
    rw [hlen5] at hp2
    have hu : count_ones (value_set s) = 2 ∨ count_ones (value_set s) = 3
        ∨ count_ones (value_set s) = 4 ∨ count_ones (value_set s) = 5 := by
      omega
    rcases hu with hu | hu | hu | hu
    · -- a 5-card subset with only 2 distinct ranks needs a trip+pair or a quad,
      -- impossible alongside a 5-card suit within 7 cards
      exfalso
      have hcase : (count_ones (count_to_value s 3) = 1
            ∧ count_ones (count_to_value s 2) = 1)
          ∨ count_ones (count_to_value s 4) = 1 := by omega
      rcases hcase with ⟨hn3, hn2⟩ | hn4
      · obtain ⟨v, hv13, _, hvc⟩ := ctv_single_bit hn3
        obtain ⟨w, hw13, _, hwc⟩ := ctv_single_bit hn2
        have hvw : v ≠ w := by
          intro he
          rw [he, hwc] at hvc
          omega
        exact flush_excludes_pair hlen hF5 hv13 hw13 hvw
          (le_trans (show 3 ≤ value_count s v by omega) (value_count_sublist_le hsubl v))
          (le_trans (show 2 ≤ value_count s w by omega) (value_count_sublist_le hsubl w))
      · obtain ⟨v, hv13, _, hvc⟩ := ctv_single_bit hn4
        exact flush_excludes_quad hlen hF5 hv13
          (le_trans (show 4 ≤ value_count s v by omega) (value_count_sublist_le hsubl v))
    · by_cases hc3s : count_to_value s 3 = 0
      · rw [rank_five_u3_tp hu hc3s]
        exact ble_of_tag_lt (by simp [Rank.tagNat])
      · rw [rank_five_u3_trips hu hc3s]
        exact ble_of_tag_lt (by simp [Rank.tagNat])
    · rw [rank_five_u4_eq hu]
      exact ble_of_tag_lt (by simp [Rank.tagNat])
    · rcases hfl : ((suit_value_sets s).any (fun sv => count_ones sv = 5)) with _ | _
      · rcases hsts : rank_straight (value_set s) with _ | r'
        · rw [rank_five_u5_hc hu hsts hfl]
          exact ble_of_tag_lt (by simp [Rank.tagNat])
        · rw [rank_five_u5_st hu hsts hfl]
          exact ble_of_tag_lt (by simp [Rank.tagNat])
      · have hsub := flush_sub_vs hsubl hlen hF5 hu hfl
        have hstn : rank_straight (value_set s) = none :=
          rank_straight_none_of_subset (suit_lt_8192 cs su) hsub hstF
        rw [rank_five_u5_fl hu hstn hfl]
        refine ble_of_tag_eq_payload_le (by simp [Rank.tagNat]) ?_
        show value_set s ≤ keep_n (suit_value_set cs su) 5
        exact le_keep_n_of_subset hF16 hsub (by omega) hF5

theorem straightflush_branch {cs : List Card} {r : Nat} (hlen : cs.length = 7)
    (hnd : cs.Nodup) {su : Suit} (hF5 : 5 ≤ count_ones (suit_value_set cs su))
    (hstF : rank_straight (suit_value_set cs su) = some r) :
    (∃ s, s.Sublist cs ∧ s.length = 5 ∧ rank_five s = .StraightFlush r)
    ∧ ∀ s, s.Sublist cs → s.length = 5 → (rank_five s).ble (.StraightFlush r) = true := by
  have hF8 := suit_lt_8192 cs su
  constructor
  · have hM : ∃ M, M < 2 ^ 13 ∧ count_ones M = 5 ∧ rank_straight M = some r
        ∧ ∀ i, M.testBit i = true → (suit_value_set cs su).testBit i = true := by
      rcases rank_straight_some_cases hF8 hstF with ⟨hrun, hbest⟩ | ⟨_, hw, hr0⟩
      · obtain ⟨hAt, hlt9⟩ := hasRunAt_bestRun hrun
        have hsub := runMask_subset hAt
        refine ⟨31 <<< (bestRun (suit_value_set cs su) - 1),
          lt_two_pow_of_subset (suit_value_set_lt cs su) hsub,
          count_ones_runMask _ hlt9, ?_, hsub⟩
        rw [rank_straight_runMask _ hlt9]
        have hpos := bestRun_pos (suit_value_set cs su)
        have h5 : bestRun (suit_value_set cs su) - 1 + 1 = r := by
          rw [hbest]
          omega
        rw [h5]
      · refine ⟨WHEEL, by decide, wheel_count_ones, ?_, and_wheel_iff.mp hw⟩
        rw [rank_straight_WHEEL, hr0]
    obtain ⟨M, hM13, hMcnt, hMst, hMsub⟩ := hM
    obtain ⟨hsubl, hlen5, hvs, hflf⟩ := pickSuit_spec hnd su hM13 hMsub
    refine ⟨_, hsubl, by rw [hlen5, hMcnt], ?_⟩
    rw [rank_five_u5_sf (by rw [hvs, hMcnt]) (by rw [hvs]; exact hMst) (hflf hMcnt)]
  · intro s hsubl hlen5
    have hnds : s.Nodup := hnd.sublist hsubl
    obtain ⟨hp1, hp2⟩ := ctv_profile hnds
    rw [hlen5] at hp2
    have hu : count_ones (value_set s) = 2 ∨ count_ones (value_set s) = 3
        ∨ count_ones (value_set s) = 4 ∨ count_ones (value_set s) = 5 := by
      omega
    rcases hu with hu | hu | hu | hu
    · by_cases hc3s : count_to_value s 3 = 0
      · rw [rank_five_u2_quad hu hc3s]
        exact ble_of_tag_lt (by simp [Rank.tagNat])
      · rw [rank_five_u2_fh hu hc3s]
        exact ble_of_tag_lt (by simp [Rank.tagNat])
    · by_cases hc3s : count_to_value s 3 = 0
      · rw [rank_five_u3_tp hu hc3s]
        exact ble_of_tag_lt (by simp [Rank.tagNat])
      · rw [rank_five_u3_trips hu hc3s]
        exact ble_of_tag_lt (by simp [Rank.tagNat])
    · rw [rank_five_u4_eq hu]
      exact ble_of_tag_lt (by simp [Rank.tagNat])
    · rcases hfl : ((suit_value_sets s).any (fun sv => count_ones sv = 5)) with _ | _
      · rcases hsts : rank_straight (value_set s) with _ | r'
        · rw [rank_five_u5_hc hu hsts hfl]
          exact ble_of_tag_lt (by simp [Rank.tagNat])
        · rw [rank_five_u5_st hu hsts hfl]
          exact ble_of_tag_lt (by simp [Rank.tagNat])
      · have hsub := flush_sub_vs hsubl hlen hF5 hu hfl
        rcases hsts : rank_straight (value_set s) with _ | r'
        · rw [rank_five_u5_fl hu hsts hfl]
          exact ble_of_tag_lt (by simp [Rank.tagNat])
        · rw [rank_five_u5_sf hu hsts hfl]
          refine ble_of_tag_eq_payload_le (by simp [Rank.tagNat]) ?_
          show r' ≤ r
          exact rank_straight_le_of_subset hF8 hsub hstF hsts


theorem card_count_le (cs : List Card) (k : Nat) (hk : 0 < k) :
    k * count_ones (count_to_value cs k) ≤ cs.length := by
  rw [count_ones_ctv]
  have h1 := sum_value_count cs
  have h2 : (∑ v in (Finset.range 13).filter (fun v => value_count cs v = k),
        value_count cs v)
      ≤ ∑ v in Finset.range 13, value_count cs v :=
    Finset.sum_le_sum_of_subset (Finset.filter_subset _ _)
  have h3 : (∑ v in (Finset.range 13).filter (fun v => value_count cs v = k),
        value_count cs v)
      = k * ((Finset.range 13).filter (fun v => value_count cs v = k)).card := by
    rw [Finset.sum_congr rfl (fun v hv => (Finset.mem_filter.mp hv).2), Finset.sum_const,
      smul_eq_mul, mul_comm]
  omega

theorem rank_seven_spec {cs : List Card} (hlen : cs.length = 7) (hnd : cs.Nodup) :
    (∃ s, s.Sublist cs ∧ s.length = 5 ∧ rank_five s = rank cs)
    ∧ ∀ s, s.Sublist cs → s.length = 5 → (rank_five s).ble (rank cs) = true := by
  rcases hff : find_flush (suit_value_sets cs) with _ | idx
  · have hnf : ∀ su : Suit, count_ones (suit_value_set cs su) < 5 :=
      (find_flush_none_iff cs).mp hff
    have h4b := card_count_le cs 4 (by omega)
    have h3b := card_count_le cs 3 (by omega)
    rw [hlen] at h4b h3b
    by_cases hc4 : count_to_value cs 4 ≠ 0
    · have hn4 : count_ones (count_to_value cs 4) = 1 := by
        have hpos : count_ones (count_to_value cs 4) ≠ 0 :=
          fun h => hc4 ((count_ones_eq_zero_iff (ctv_lt16 cs 4)).mp h)
        omega
      have hrk : rank cs = .FourOfAKind ((count_to_value cs 4 <<< 13)
          ||| keep_highest (value_set cs ^^^ count_to_value cs 4)) := by
        simp only [rank, hff]
        rw [if_pos hc4]
      rw [hrk]
      exact quads_branch hlen hnd hnf hn4
    · have h4 : count_to_value cs 4 = 0 := of_not_not hc4
      by_cases hc32 : count_to_value cs 3 ≠ 0 ∧ count_ones (count_to_value cs 3) = 2
      · have hrk : rank cs = .FullHouse ((keep_highest (count_to_value cs 3) <<< 13)
            ||| (count_to_value cs 3 ^^^ keep_highest (count_to_value cs 3))) := by
          simp only [rank, hff]
          rw [if_neg hc4, if_pos hc32]
        rw [hrk]
        exact fullhouse1_branch hlen hnd hnf h4 hc32.2
      · by_cases hc322 : count_to_value cs 3 ≠ 0 ∧ count_to_value cs 2 ≠ 0
        · have hn3 : count_ones (count_to_value cs 3) = 1 := by
            have hpos : count_ones (count_to_value cs 3) ≠ 0 :=
              fun h => hc322.1 ((count_ones_eq_zero_iff (ctv_lt16 cs 3)).mp h)
            have hne2 : count_ones (count_to_value cs 3) ≠ 2 :=
              fun h => hc32 ⟨hc322.1, h⟩
            omega
          have hrk : rank cs = .FullHouse ((count_to_value cs 3 <<< 13)
              ||| keep_highest (count_to_value cs 2)) := by
            simp only [rank, hff]
            rw [if_neg hc4, if_neg hc32, if_pos hc322]
          rw [hrk]
          exact fullhouse2_branch hlen hnd hnf h4 hn3 hc322.2
        · have hfh : count_to_value cs 3 = 0
              ∨ (count_ones (count_to_value cs 3) = 1 ∧ count_to_value cs 2 = 0) := by
            by_cases hc3 : count_to_value cs 3 = 0
            · exact Or.inl hc3
            · have h2z : count_to_value cs 2 = 0 := by
                by_contra h2nz
                exact hc322 ⟨hc3, h2nz⟩
              have hpos : count_ones (count_to_value cs 3) ≠ 0 :=
                fun h => hc3 ((count_ones_eq_zero_iff (ctv_lt16 cs 3)).mp h)
              have hne2 : count_ones (count_to_value cs 3) ≠ 2 :=
                fun h => hc32 ⟨hc3, h⟩
              exact Or.inr ⟨by omega, h2z⟩
          rcases hst : rank_straight (value_set cs) with _ | r
          · by_cases hc3 : count_to_value cs 3 ≠ 0
            · rcases hfh with h3z | ⟨hn3, h2z⟩
              · exact absurd h3z hc3
              · have hrk : rank cs = .ThreeOfAKind ((count_to_value cs 3 <<< 13)
                    ||| keep_n (value_set cs ^^^ count_to_value cs 3) 2) := by
                  simp only [rank, hff]
                  rw [if_neg hc4, if_neg hc32, if_neg hc322]
                  simp only [hst]
                  rw [if_pos hc3]
                rw [hrk]
                exact trips_branch hlen hnd hnf h2z h4 hst hn3
            · have h3 : count_to_value cs 3 = 0 := of_not_not hc3
              by_cases hc2p : 2 ≤ count_ones (count_to_value cs 2)
              · have hrk : rank cs = .TwoPair ((keep_n (count_to_value cs 2) 2 <<< 13)
                    ||| keep_highest (value_set cs ^^^ keep_n (count_to_value cs 2) 2)) := by
                  simp only [rank, hff]
                  rw [if_neg hc4, if_neg hc32, if_neg hc322]
                  simp only [hst]
                  rw [if_neg hc3, if_pos hc2p]
                rw [hrk]
                exact twopair_branch hlen hnd hnf h3 h4 hst hc2p
              · by_cases hc2z : count_to_value cs 2 = 0
                · have hrk : rank cs = .HighCard (keep_n (value_set cs) 5) := by
                    simp only [rank, hff]
                    rw [if_neg hc4, if_neg hc32, if_neg hc322]
                    simp only [hst]
                    rw [if_neg hc3, if_neg hc2p, if_pos hc2z]
                  rw [hrk]
                  exact highcard_branch hlen hnd hnf hc2z h3 h4 hst
                · have hn2 : count_ones (count_to_value cs 2) = 1 := by
                    have hpos : count_ones (count_to_value cs 2) ≠ 0 :=
                      fun h => hc2z ((count_ones_eq_zero_iff (ctv_lt16 cs 2)).mp h)
                    omega
                  have hrk : rank cs = .OnePair ((count_to_value cs 2 <<< 13)
                      ||| keep_n (value_set cs ^^^ count_to_value cs 2) 3) := by
                    simp only [rank, hff]
                    rw [if_neg hc4, if_neg hc32, if_neg hc322]
                    simp only [hst]
                    rw [if_neg hc3, if_neg hc2p, if_neg hc2z]
                  rw [hrk]
                  exact onepair_branch hlen hnd hnf h3 h4 hst hn2
          · have hrk : rank cs = .Straight r := by
              simp only [rank, hff]
              rw [if_neg hc4, if_neg hc32, if_neg hc322]
              simp only [hst]
            rw [hrk]
            exact straight_branch hlen hnd hnf h4 hfh hst
  · obtain ⟨hidx4, su, hgetd, hF5⟩ := find_flush_some_spec cs hff
    rcases hstF : rank_straight (suit_value_set cs su) with _ | r
    · have hrk : rank cs = .Flush (keep_n (suit_value_set cs su) 5) := by
        simp only [rank, hff, hgetd, hstF]
      rw [hrk]
      exact flush_branch hlen hnd hF5 hstF
    · have hrk : rank cs = .StraightFlush r := by
        simp only [rank, hff, hgetd, hstF]
      rw [hrk]
      exact straightflush_branch hlen hnd hF5 hstF

/-- **C1.** For every hand of exactly 7 distinct cards, `rank` returns the
maximum, under the hand-category order `Rank.ble`, of `rank_five` applied to
each of the C(7,5) five-card sub-selections of the hand: `rank cs` is the
value of `rank_five` at one of the 5-card sublists, and every 5-card sublist
ranks at most `rank cs`. -/
theorem rank_seven_is_max_of_rank_five (cs : List Card)
    (hlen : cs.length = 7) (hnd : cs.Nodup) :
    rank cs ∈ (cs.sublistsLen 5).map rank_five
    ∧ ∀ r ∈ (cs.sublistsLen 5).map rank_five, r.ble (rank cs) = true := by
  obtain ⟨⟨s, hsub, hlen5, heq⟩, hub⟩ := rank_seven_spec hlen hnd
  constructor
  · rw [List.mem_map]
    exact ⟨s, List.mem_sublistsLen.mpr ⟨hsub, hlen5⟩, heq⟩
  · intro r hr
    rw [List.mem_map] at hr
    obtain ⟨t, ht, hrt⟩ := hr
    obtain ⟨htsub, htlen⟩ := List.mem_sublistsLen.mp ht
    rw [← hrt]
    exact hub t htsub htlen

theorem rank_seven_is_max_of_rank_five_witness :
    (([⟨.Diamond, .Ace⟩, ⟨.Club, .Ace⟩, ⟨.Heart, .Ace⟩, ⟨.Club, .King⟩,
        ⟨.Spade, .King⟩, ⟨.Diamond, .Nine⟩, ⟨.Club, .Eight⟩] : List Card).length = 7
      ∧ ([⟨.Diamond, .Ace⟩, ⟨.Club, .Ace⟩, ⟨.Heart, .Ace⟩, ⟨.Club, .King⟩,
        ⟨.Spade, .King⟩, ⟨.Diamond, .Nine⟩, ⟨.Club, .Eight⟩] : List Card).Nodup)
    ∧ (rank [⟨.Diamond, .Ace⟩, ⟨.Club, .Ace⟩, ⟨.Heart, .Ace⟩, ⟨.Club, .King⟩,
          ⟨.Spade, .King⟩, ⟨.Diamond, .Nine⟩, ⟨.Club, .Eight⟩]
        ∈ (([⟨.Diamond, .Ace⟩, ⟨.Club, .Ace⟩, ⟨.Heart, .Ace⟩, ⟨.Club, .King⟩,
          ⟨.Spade, .King⟩, ⟨.Diamond, .Nine⟩, ⟨.Club, .Eight⟩] : List Card).sublistsLen 5).map
          rank_five
      ∧ ∀ r ∈ (([⟨.Diamond, .Ace⟩, ⟨.Club, .Ace⟩, ⟨.Heart, .Ace⟩, ⟨.Club, .King⟩,
          ⟨.Spade, .King⟩, ⟨.Diamond, .Nine⟩, ⟨.Club, .Eight⟩] : List Card).sublistsLen 5).map
          rank_five,
        r.ble (rank [⟨.Diamond, .Ace⟩, ⟨.Club, .Ace⟩, ⟨.Heart, .Ace⟩, ⟨.Club, .King⟩,
          ⟨.Spade, .King⟩, ⟨.Diamond, .Nine⟩, ⟨.Club, .Eight⟩]) = true) :=
  ⟨⟨by decide, by decide⟩,
    rank_seven_is_max_of_rank_five _ (by decide) (by decide)⟩
